import Mathlib

/-!
Designer: category registry and scenario run loop.

A shallow embedding of `Designer.h` (namespace `MuddledManaged::Designer`).

* `std::string` is the list of its characters (`Str`); `std::string::npos` is `none`.
* A `std::shared_ptr<Category>` is an index into `ScenarioManager.heap`, the list of
  all `Category` objects allocated with `new Category(...)`, in allocation order; a null
  pointer is `none`.
* `std::map<std::string, std::shared_ptr<Category>>` is an association list with unique
  keys; `find` is `lookup` and `insert` of an absent key appends the pair.
* The `while` loop of `registerCategory` and the recursion of `Category::run` carry a fuel
  argument; running out of fuel is a separate outcome, never confused with a result.
-/

namespace Designer

/-- Text of a `std::string`. -/
abbrev Str := List Char

/-! ## `std::string` searching -/

/-- Scan shared by the two searches: index of the first character satisfying `p`, where the
head of the list has index `i`. -/
def findFrom (p : Char → Bool) : List Char → Nat → Option Nat
  | [], _ => none
  | c :: cs, i => if p c then some i else findFrom p cs (i + 1)

/-- Model of `s.find_first_of(chars, pos)`. -/
def find_first_of (s chars : Str) (pos : Nat) : Option Nat :=
  findFrom (fun c => decide (c ∈ chars)) (s.drop pos) pos

/-- Model of `s.find_first_not_of(chars, pos)`. -/
def find_first_not_of (s chars : Str) (pos : Nat) : Option Nat :=
  findFrom (fun c => !decide (c ∈ chars)) (s.drop pos) pos

/-- Model of `s.substr(pos, len)` for `pos ≤ s.length` (the only use in the source). -/
def substr (s : Str) (pos len : Nat) : Str :=
  (s.drop pos).take len

/-! ## Verification failures -/

/-- The classes derived from `VerificationException`, with the members their messages are
built from; `plain` is the base class itself, whose message is empty. -/
inductive VerificationException where
  | plain
  | bool (mExpectedValue : Bool)
  | same
  | equal (mExpectedValue mActualValue : Str)
  deriving DecidableEq, Repr

/-- Model of `BoolVerificationException::expectedValue`. -/
def boolExpectedValue (mExpectedValue : Bool) : Str :=
  if mExpectedValue then "true".toList else "false".toList

/-- The characters a reader of a `const char *` sees when it is handed the buffer of a
`std::string`: those before the first NUL character. -/
def c_str (s : Str) : Str :=
  s.takeWhile (fun c => c != Char.ofNat 0)

/-- The member `mMessage`, as assigned by `initialize` in each derived class; the base
class leaves it empty. -/
def VerificationException.mMessage : VerificationException → Str
  | .plain => []
  | .bool e =>
      "    Bool verification failed.\n".toList ++
        "        Expected: ".toList ++ boolExpectedValue e ++ "\n".toList
  | .same => "    Verification that objects are the same failed.\n".toList
  | .equal e a =>
      "    Equal verification failed.\n".toList ++
        "        Expected: ".toList ++ e ++ "\n".toList ++
        "          Actual: ".toList ++ a ++ "\n".toList

/-- Model of `VerificationException::what`: `mMessage.c_str()`, a `const char *`. Its only
reader, the stream insertion in `Category::run`, takes the characters before the first
NUL, which is the text given here. -/
def VerificationException.what (ex : VerificationException) : Str :=
  c_str ex.mMessage

/-- What a scenario body can raise: a verification failure, or anything else. -/
inductive Thrown where
  | verification (ex : VerificationException)
  | other
  deriving DecidableEq, Repr

/-! ## Scenarios -/

/-- What the body of a scenario reads of its own object through the accessors
`categoryFullName()`, `description()` and `exceptionExpected()`. -/
structure ScenarioInfo where
  categoryFullName : Str
  description : Str
  exceptionExpected : Bool
  deriving DecidableEq, Repr

/-- Model of `ScenarioBase`. `mRunPassed` is `none` until it is first assigned (no
constructor initialises it). `runSteps` is the overridden body: from what the accessors of
the object return and the value of the passed flag on entry it gives what the body raised,
if anything, and the flag on exit. -/
structure ScenarioBase where
  mCategoryFullName : Str
  mDescription : Str
  mExceptionExpected : Bool
  mRunPassed : Option Bool
  runSteps : ScenarioInfo → Bool → Option Thrown × Bool

/-- The values of `categoryFullName()`, `description()` and `exceptionExpected()`. -/
def ScenarioBase.info (s : ScenarioBase) : ScenarioInfo :=
  { categoryFullName := s.mCategoryFullName
    description := s.mDescription
    exceptionExpected := s.mExceptionExpected }

/-- Model of `ScenarioBase::description`. -/
def ScenarioBase.description (s : ScenarioBase) : Str := s.mDescription

/-- Model of `ScenarioBase::passed`. -/
def ScenarioBase.passed (s : ScenarioBase) : Option Bool := s.mRunPassed

/-- Model of `ScenarioBase::run`: assign `true` to the flag, then run the body. The result
is the scenario afterwards and what was raised. -/
def ScenarioBase.run (s : ScenarioBase) : ScenarioBase × Option Thrown :=
  let r := s.runSteps s.info true
  ({ s with mRunPassed := some r.2 }, r.1)

/-- Model of the copy constructor `ScenarioBase(const ScenarioBase &)` as used by `clone`:
the three described members are copied, `mRunPassed` is left unassigned. -/
def ScenarioBase.clone (src : ScenarioBase) : ScenarioBase :=
  { mCategoryFullName := src.mCategoryFullName
    mDescription := src.mDescription
    mExceptionExpected := src.mExceptionExpected
    mRunPassed := none
    runSteps := src.runSteps }

/-- Model of `ScenarioBase::verifyTrue` acting on the passed flag: on `false` the flag is
cleared and `BoolVerificationException(true)` is raised. -/
def verifyTrue (actualValue : Bool) (passed : Bool) : Option Thrown × Bool :=
  if !actualValue then (some (.verification (.bool true)), false) else (none, passed)

/-- Model of `ScenarioBase::verifyFalse` acting on the passed flag. -/
def verifyFalse (actualValue : Bool) (passed : Bool) : Option Thrown × Bool :=
  if actualValue then (some (.verification (.bool false)), false) else (none, passed)

/-! ## Categories -/

/-- Model of `Category`: child categories are pointers (heap indices). -/
structure Category where
  mName : Str
  mChildCategories : List Nat
  mChildScenarios : List ScenarioBase

/-- Model of the constructor `Category(const std::string & name)`. -/
def Category.new (name : Str) : Category :=
  { mName := name, mChildCategories := [], mChildScenarios := [] }

/-- Model of `Category::registerScenario`: the clone and the category afterwards. -/
def Category.registerScenario (c : Category) (scenario : ScenarioBase) :
    ScenarioBase × Category :=
  let sharedScenario := scenario.clone
  (sharedScenario, { c with mChildScenarios := c.mChildScenarios ++ [sharedScenario] })

/-- Update of the object at a heap address. -/
def updateAt {α : Type} (f : α → α) : List α → Nat → List α
  | [], _ => []
  | a :: as, 0 => f a :: as
  | a :: as, i + 1 => a :: updateAt f as i

/-- Effect of `mChildCategories.push_back(child)` on a category. -/
def Category.pushChild (child : Nat) (c : Category) : Category :=
  { c with mChildCategories := c.mChildCategories ++ [child] }

/-! ## The registry -/

/-- Model of `ScenarioManager` together with the categories it has allocated. -/
structure ScenarioManager where
  heap : List Category
  mAllCategories : List (Str × Nat)
  mTopLevelCategories : List Nat

/-- State after the private constructor `ScenarioManager()`. -/
def ScenarioManager.empty : ScenarioManager :=
  { heap := [], mAllCategories := [], mTopLevelCategories := [] }

/-- Model of `mAllCategories.find(key)`. -/
def ScenarioManager.find (m : ScenarioManager) (key : Str) : Option Nat :=
  m.mAllCategories.lookup key

/-- Model of `ScenarioManager::categories`. -/
def ScenarioManager.categories (m : ScenarioManager) : List Nat := m.mTopLevelCategories

/-- How a call of `registerCategory` ends. -/
inductive RegisterOutcome where
  | returned (category : Option Nat)
  | invalid_argument (what : String)
  | outOfFuel
  deriving DecidableEq, Repr

/-- Lines 459 to 474 of `registerCategory`: look the full name up; when it is absent,
allocate a category, insert it in the table and append it to the previous category or to
the top level. Gives the new `previousCategory` and the registry afterwards. -/
def lookupOrCreate (m : ScenarioManager) (previousCategory : Option Nat)
    (currentFullName currentName : Str) : Option Nat × ScenarioManager :=
  match m.find currentFullName with
  | some category => (some category, m)
  | none =>
      let newCategory := m.heap.length
      let heap := m.heap ++ [Category.new currentName]
      let table := m.mAllCategories ++ [(currentFullName, newCategory)]
      match previousCategory with
      | some previous =>
          (some newCategory,
            { heap := updateAt (Category.pushChild newCategory) heap previous
              mAllCategories := table
              mTopLevelCategories := m.mTopLevelCategories })
      | none =>
          (some newCategory,
            { heap := heap
              mAllCategories := table
              mTopLevelCategories := m.mTopLevelCategories ++ [newCategory] })

/-- Lines 443 to 447 of `registerCategory`: the end of the segment that starts at
`currentBeginPosition`, the next `/` or else the length of the path. -/
def segmentEnd (categoryFullName : Str) (currentBeginPosition : Nat) : Nat :=
  match find_first_of categoryFullName ['/'] currentBeginPosition with
  | some p => p
  | none => categoryFullName.length

/-- The `while (currentBeginPosition != npos)` loop of `registerCategory`. -/
def registerLoop (categoryFullName : Str) (beginPosition : Nat) :
    Nat → Option Nat → Option Nat → ScenarioManager → RegisterOutcome × ScenarioManager
  | _, none, previousCategory, m => (.returned previousCategory, m)
  | 0, some _, _, m => (.outOfFuel, m)
  | fuel + 1, some currentBeginPosition, previousCategory, m =>
      let currentEndPosition := segmentEnd categoryFullName currentBeginPosition
      let currentFullName :=
        substr categoryFullName beginPosition (currentEndPosition - beginPosition)
      let currentName :=
        substr categoryFullName currentBeginPosition (currentEndPosition - currentBeginPosition)
      if currentName.isEmpty then
        (.invalid_argument "Category names cannot be empty.", m)
      else
        let r := lookupOrCreate m previousCategory currentFullName currentName
        registerLoop categoryFullName beginPosition fuel
          (find_first_not_of categoryFullName ['/'] currentEndPosition) r.1 r.2

/-- Model of `ScenarioManager::registerCategory`: how the call ends and the registry
afterwards. Every iteration of the loop consumes at least one character, so the length of
the path is enough fuel. -/
def ScenarioManager.registerCategory (m : ScenarioManager) (categoryFullName : Str) :
    RegisterOutcome × ScenarioManager :=
  match find_first_not_of categoryFullName ['/'] 0 with
  | none =>
      (.invalid_argument "Category names cannot consist entirely of / characters.", m)
  | some beginPosition =>
      registerLoop categoryFullName beginPosition categoryFullName.length
        (some beginPosition) none m

/-- Registry state after each call of a sequence of `registerCategory` calls, whatever
their outcome, starting from the state `m`. -/
def ScenarioManager.registerAll (m : ScenarioManager) (paths : List Str) : ScenarioManager :=
  paths.foldl (fun st path => (st.registerCategory path).2) m

/-- Effect on the registry of `category->registerScenario(scenario)` for a category pointer
obtained from the registry. -/
def ScenarioManager.registerScenario (m : ScenarioManager) (category : Nat)
    (scenario : ScenarioBase) : ScenarioManager :=
  { m with heap := updateAt (fun c => (c.registerScenario scenario).2) m.heap category }

/-- The two registration calls a client can make. -/
inductive RegistryCall where
  | registerCategory (categoryFullName : Str)
  | registerScenario (category : Nat) (scenario : ScenarioBase)

/-- Registry after one registration call. -/
def ScenarioManager.call (m : ScenarioManager) : RegistryCall → ScenarioManager
  | .registerCategory path => (m.registerCategory path).2
  | .registerScenario category scenario => m.registerScenario category scenario

/-- Registry built from the empty one by a sequence of registration calls. -/
def ScenarioManager.build (calls : List RegistryCall) : ScenarioManager :=
  calls.foldl ScenarioManager.call ScenarioManager.empty

/-! ## The run loop -/

/-- Text written by `std::endl`. -/
def endl : Str := ['\n']

/-- Body of the scenario loop of `Category::run` (lines 370 to 396): run one scenario and
write its outcome. Gives the scenario afterwards and the stream afterwards. -/
def runScenario (stream : Str) (scenario : ScenarioBase) : ScenarioBase × Str :=
  let r := scenario.run
  match r.2 with
  | none =>
      match r.1.passed with
      | some true =>
          (r.1, stream ++ "Scenario passed: ".toList ++ r.1.description ++ endl)
      | _ =>
          (r.1, stream ++ "Scenario failed: ".toList ++ r.1.description ++ endl)
  | some (.verification ex) =>
      (r.1, stream ++ "Scenario failed: ".toList ++ r.1.description ++ endl ++ ex.what)
  | some .other =>
      (r.1, stream ++ "Scenario failed unexpectedly: ".toList ++ r.1.description ++ endl)

/-- The loop `for (auto & scenario : mChildScenarios)` of `Category::run`. -/
def runScenarios : List ScenarioBase → Str → List ScenarioBase × Str
  | [], stream => ([], stream)
  | scenario :: rest, stream =>
      let r := runScenario stream scenario
      let rs := runScenarios rest r.2
      (r.1 :: rs.1, rs.2)

/-- The loop `for (auto & category : mChildCategories) category->run(stream)`, given the
function that runs one category. -/
def runCategories (run : Nat → List Category × Str → Option (List Category × Str)) :
    List Nat → List Category × Str → Option (List Category × Str)
  | [], st => some st
  | category :: rest, st =>
      match run category st with
      | none => none
      | some st1 => runCategories run rest st1

/-- Model of `Category::run` on the category at address `this`, acting on the heap and the
stream. `none` when the fuel (a bound on the nesting depth) is used up or `this` is not an
allocated category. -/
def Category.run : Nat → Nat → List Category × Str → Option (List Category × Str)
  | 0, _, _ => none
  | fuel + 1, this, st =>
      match st.1[this]? with
      | none => none
      | some c =>
          match runCategories (Category.run fuel) c.mChildCategories st with
          | none => none
          | some st1 =>
              match st1.1[this]? with
              | none => none
              | some c1 =>
                  let r := runScenarios c1.mChildScenarios
                    (st1.2 ++ "---- Running scenarios in: ".toList ++ c1.mName ++ endl)
                  some (updateAt (fun x => { x with mChildScenarios := r.1 }) st1.1 this, r.2)

/-- Model of `ScenarioManager::run`: the registry and the stream afterwards. The number of
allocated categories bounds the nesting depth. -/
def ScenarioManager.run (m : ScenarioManager) (stream : Str) :
    Option (ScenarioManager × Str) :=
  match runCategories (Category.run m.heap.length) m.mTopLevelCategories (m.heap, stream) with
  | none => none
  | some st => some ({ m with heap := st.1 }, st.2)

/-! ## Vocabulary of the statements -/

/-- The (full name, name) pairs computed by the iterations of the loop of
`registerCategory`, in order: a trace of the loop that does not depend on the registry. -/
def scanSegments (categoryFullName : Str) (beginPosition : Nat) :
    Nat → Option Nat → List (Str × Str)
  | _, none => []
  | 0, some _ => []
  | fuel + 1, some currentBeginPosition =>
      let currentEndPosition := segmentEnd categoryFullName currentBeginPosition
      (substr categoryFullName beginPosition (currentEndPosition - beginPosition),
        substr categoryFullName currentBeginPosition
          (currentEndPosition - currentBeginPosition)) ::
        scanSegments categoryFullName beginPosition fuel
          (find_first_not_of categoryFullName ['/'] currentEndPosition)

/-- Lines 459 to 474 applied to a list of (full name, name) pairs in turn. -/
def registerSegments (segments : List (Str × Str)) (st : Option Nat × ScenarioManager) :
    Option Nat × ScenarioManager :=
  segments.foldl (fun acc seg => lookupOrCreate acc.2 acc.1 seg.1 seg.2) st

/-- A position where a segment starts: a character other than `/` stands there. -/
def SegStart (name : Str) (pos : Nat) : Prop :=
  ∃ x rest, name.drop pos = x :: rest ∧ x ≠ '/'

/-- Characters that are not the separator. -/
def notSep (c : Char) : Bool := !decide (c ∈ ['/'])

/-- The separator. -/
def isSep (c : Char) : Bool := decide (c ∈ ['/'])

/-- The pairs scanned by a whole call of `registerCategory` whose path has a character
other than `/`, the first one at `bp`. -/
def scanPath (name : Str) (bp : Nat) : List (Str × Str) :=
  scanSegments name bp name.length (some bp)

/-- The pointer left in `previousCategory` after the steps: the table entry of the last
full name, or the initial pointer when there was no step. -/
def lastFind (m : ScenarioManager) (segs : List (Str × Str)) (prev : Option Nat) :
    Option Nat :=
  match segs.getLast? with
  | none => prev
  | some seg => m.find seg.1

/-- The text after the last `/` of a full name (the whole of it when it has none). -/
def lastSegment (key : Str) : Str := (key.reverse.takeWhile notSep).reverse

/-- The occupied places of the forest: the top-level list followed by every child list. -/
def ScenarioManager.slots (m : ScenarioManager) : List Nat :=
  m.mTopLevelCategories ++ (m.heap.map Category.mChildCategories).flatten

/-- What every registry built through the public calls satisfies. -/
structure WellFormed (m : ScenarioManager) : Prop where
  table_nodes : m.mAllCategories.map Prod.snd = List.range m.heap.length
  table_keys : (m.mAllCategories.map Prod.fst).Nodup
  child_later : ∀ (i c : Nat) (cat : Category),
    m.heap[i]? = some cat → c ∈ cat.mChildCategories → i < c
  slots_perm : m.slots.Perm (List.range m.heap.length)
  names : ∀ (key : Str) (id : Nat), (key, id) ∈ m.mAllCategories →
    ∃ cat : Category, m.heap[id]? = some cat ∧ cat.mName = lastSegment key

/-- The text from the begin position up to `pos` is empty or ends with a separator. -/
def Boundary (name : Str) (bp pos : Nat) : Prop :=
  substr name bp (pos - bp) = [] ∨ (substr name bp (pos - bp)).getLast? = some '/'

/-- The child relation of the forest: `child` stands in the child list of the category at
`parent`. -/
def ChildOf (m : ScenarioManager) (parent child : Nat) : Prop :=
  ∃ cat : Category, m.heap[parent]? = some cat ∧ child ∈ cat.mChildCategories

/-- The path made of the given segments separated by single `/`. -/
def joinPath : List Str → Str
  | [] => []
  | [s] => s
  | s :: t :: rest => s ++ '/' :: joinPath (t :: rest)

/-- The segment-boundary prefixes of `joinPath segs`, shortest first: for `a/b/c` they are
`a`, `a/b` and `a/b/c`. -/
def pathPrefixes : List Str → List Str
  | [] => []
  | s :: rest => s :: (pathPrefixes rest).map (fun p => s ++ '/' :: p)

/-- Segments of a valid path: at least one, each non-empty and free of `/`. -/
def ValidSegments (segs : List Str) : Prop :=
  segs ≠ [] ∧ ∀ s ∈ segs, s ≠ [] ∧ '/' ∉ s

/-- The record of one scenario as the specification words it: `passed` or `failed` after a
normal return according to the flag, `failed` with the message of a verification failure,
`failed unexpectedly` for any other error. -/
def outcomeRecord (s : ScenarioBase) : Str :=
  match s.runSteps s.info true with
  | (none, true) => "Scenario passed: ".toList ++ s.mDescription ++ "\n".toList
  | (none, false) => "Scenario failed: ".toList ++ s.mDescription ++ "\n".toList
  | (some (.verification ex), _) =>
      "Scenario failed: ".toList ++ s.mDescription ++ "\n".toList ++ ex.what
  | (some .other, _) =>
      "Scenario failed unexpectedly: ".toList ++ s.mDescription ++ "\n".toList

/-- A scenario whose body is the single step `verifyTrue(false)`. -/
def failingScenario (description : Str) : ScenarioBase :=
  { mCategoryFullName := [], mDescription := description, mExceptionExpected := false
    mRunPassed := none, runSteps := fun _ => verifyTrue false }

/-- A scenario whose body is the single step `verifyTrue(true)`. -/
def passingScenario (description : Str) : ScenarioBase :=
  { mCategoryFullName := [], mDescription := description, mExceptionExpected := false
    mRunPassed := none, runSteps := fun _ => verifyTrue true }

/-- A scenario whose body raises something that is not a verification failure. -/
def throwingScenario (description : Str) : ScenarioBase :=
  { mCategoryFullName := [], mDescription := description, mExceptionExpected := false
    mRunPassed := none, runSteps := fun _ _ => (some .other, true) }

/-- A scenario whose body clears the flag by a failed verification that it catches itself,
and then returns normally. -/
def swallowingScenario (description : Str) : ScenarioBase :=
  { mCategoryFullName := [], mDescription := description, mExceptionExpected := false
    mRunPassed := none, runSteps := fun _ _ => (none, false) }

/-- Every list of the forest is increasing in the category pointers, that is, in the order
of allocation. -/
structure Ordered (m : ScenarioManager) : Prop where
  top : m.mTopLevelCategories.Pairwise (· < ·)
  children : ∀ (i : Nat) (cat : Category),
    m.heap[i]? = some cat → cat.mChildCategories.Pairwise (· < ·)

/-- The keys `seen` followed by those of `keys` not met before, in order. -/
def addNew (seen keys : List Str) : List Str :=
  keys.foldl (fun acc k => if k ∈ acc then acc else acc ++ [k]) seen

/-- The full paths in the order in which they are first registered by a sequence of valid
paths, each given by its segments: every path registers its segment-boundary prefixes,
shortest first, and a full path counts the first time only. -/
def registrationOrder (segss : List (List Str)) : List Str :=
  segss.foldl (fun seen segs => addNew seen (pathPrefixes segs)) []

/-- The child list of the category at a pointer, empty when nothing is allocated there. -/
def ScenarioManager.childrenAt (m : ScenarioManager) (id : Nat) : List Nat :=
  match m.heap[id]? with
  | some cat => cat.mChildCategories
  | none => []

/-- The name of the category at a pointer. -/
def ScenarioManager.nameAt (m : ScenarioManager) (id : Nat) : Option Str :=
  match m.heap[id]? with
  | some cat => some cat.mName
  | none => none

/-- A category after each of its own scenarios has been run once. -/
def Category.ran (c : Category) : Category :=
  { c with mChildScenarios := c.mChildScenarios.map (fun s => s.run.1) }

/-- The text one visit of a category writes for itself: its header line, then one record
per owned scenario, in order. -/
def categoryText (c : Category) : Str :=
  "---- Running scenarios in: ".toList ++ c.mName ++ endl ++
    (c.mChildScenarios.map outcomeRecord).flatten

/-- The own text of the category at a pointer. -/
def textAt (heap : List Category) (id : Nat) : Str :=
  match heap[id]? with
  | some c => categoryText c
  | none => []

/-- The child list of the category at a pointer of a heap. -/
def childrenIn (heap : List Category) (id : Nat) : List Nat :=
  match heap[id]? with
  | some c => c.mChildCategories
  | none => []

/-- The categories visited by `Category::run` from a category, in the order in which their
own text is written: the visits of the children, then the category itself. -/
def visitOrder (children : Nat → List Nat) : Nat → Nat → List Nat
  | 0, _ => []
  | fuel + 1, id => (children id).flatMap (visitOrder children fuel) ++ [id]

/-- A stretch of the sweep from `st` to `st2` that visits the categories `visited`: their
own texts are appended to the stream in that order, every visited category is as after one
run of each of its scenarios, and no category loses that state or changes otherwise. -/
def RunsTo (H : List Category) (visited : List Nat) (st st2 : List Category × Str) : Prop :=
  st2.2 = st.2 ++ (visited.map (textAt H)).flatten ∧
    st2.1.map Category.ran = H ∧
    (∀ j : Nat, st.1[j]? = H[j]? → st2.1[j]? = H[j]?) ∧
    (∀ j ∈ visited, st2.1[j]? = H[j]?)

/-- Child pointers are larger than the parent and allocated. -/
def ChildLater (H : List Category) : Prop :=
  ∀ i c : Nat, c ∈ childrenIn H i → i < c ∧ c < H.length

/-- The categories met level by level: the given ones, then their children, and so on,
for a number of levels. -/
def levels (ch : Nat → List Nat) : List Nat → Nat → List Nat
  | _, 0 => []
  | L, f + 1 => L ++ levels ch (L.flatMap ch) f

/-! ## Verification operations -/

/-- Model of `std::to_string` on `int` and `long`: the decimal text, with a leading `-` for
a negative value. -/
def to_string (value : Int) : Str := (toString value).toList

/-- Model of `std::to_string` applied to a `bool`, which is promoted to `int`. -/
def to_string_bool (value : Bool) : Str := to_string (if value then 1 else 0)

/-- Text of a `std::wstring`. -/
abbrev WStr := List Char

/-- Model of `VerificationException::narrow`. The `narrow` member of the locale's
`ctype<wchar_t>` facet is the parameter `ctypeNarrow` (wide character, default character).
The buffer `narrowCharBuf` has exactly `wideString.size()` characters and no terminator,
and `std::string narrowString = narrowCharBuf.data()` reads a `const char *`:

* for an empty wide string the vector owns no storage, `data()` is the null pointer, and
  the construction of the string raises `std::logic_error`: the result is `none`;
* otherwise the read starts at the narrowed characters and goes on into the memory that
  follows the buffer, up to the first NUL. That memory is the parameter `after`. -/
def narrow (ctypeNarrow : Char → Char → Char) (after : Str) (wideString : WStr) :
    Option Str :=
  match wideString with
  | [] => none
  | _ :: _ => some (c_str (wideString.map (fun c => ctypeNarrow c '?') ++ after))

/-- The facet of the classic locale on the characters used here: ASCII maps to itself,
anything else to the default. -/
def classicNarrow (c dflt : Char) : Char := if c.toNat < 128 then c else dflt

/-- Model of `ScenarioBase::verifyEqual(bool, bool)` acting on the passed flag. -/
def verifyEqualBool (expectedValue actualValue : Bool) (passed : Bool) :
    Option Thrown × Bool :=
  if actualValue != expectedValue then
    (some (.verification (.equal (to_string_bool expectedValue) (to_string_bool actualValue))),
      false)
  else (none, passed)

/-- Model of `ScenarioBase::verifyEqual(int, int)` acting on the passed flag. -/
def verifyEqualInt (expectedValue actualValue : Int) (passed : Bool) :
    Option Thrown × Bool :=
  if actualValue != expectedValue then
    (some (.verification (.equal (to_string expectedValue) (to_string actualValue))), false)
  else (none, passed)

/-- Model of `ScenarioBase::verifyEqual(long, long)` acting on the passed flag. -/
def verifyEqualLong (expectedValue actualValue : Int) (passed : Bool) :
    Option Thrown × Bool :=
  if actualValue != expectedValue then
    (some (.verification (.equal (to_string expectedValue) (to_string actualValue))), false)
  else (none, passed)

/-- Model of `ScenarioBase::verifyEqual(const std::string &, const std::string &)`. -/
def verifyEqualString (expectedValue actualValue : Str) (passed : Bool) :
    Option Thrown × Bool :=
  if actualValue != expectedValue then
    (some (.verification (.equal expectedValue actualValue)), false)
  else (none, passed)

/-- A scenario whose body is the single step
`verifyEqual(std::string("a\0b", 3), std::string("c"))`: the expected text has a NUL
character inside. -/
def embeddedNulScenario (description : Str) : ScenarioBase :=
  { mCategoryFullName := [], mDescription := description, mExceptionExpected := false
    mRunPassed := none
    runSteps := fun _ => verifyEqualString ['a', Char.ofNat 0, 'b'] "c".toList }

/-- Model of `ScenarioBase::verifyEqual(const std::wstring &, const std::wstring &)`: the
wide values are compared; on a mismatch the flag is cleared and the exception object is
built from the narrowed texts, `mExpectedValue` first. When `narrow` raises, that error
leaves the call in place of the verification failure. `afterExpected` and `afterActual`
are the memory contents behind the two buffers of `narrow`. -/
def verifyEqualWString (ctypeNarrow : Char → Char → Char) (afterExpected afterActual : Str)
    (expectedValue actualValue : WStr) (passed : Bool) : Option Thrown × Bool :=
  if actualValue != expectedValue then
    match narrow ctypeNarrow afterExpected expectedValue,
        narrow ctypeNarrow afterActual actualValue with
    | some expectedText, some actualText =>
        (some (.verification (.equal expectedText actualText)), false)
    | _, _ => (some .other, false)
  else (none, passed)

/-- Model of `ScenarioBase::verifySame` on two pointers, given as addresses. -/
def verifySame (expectedValue actualValue : Nat) (passed : Bool) : Option Thrown × Bool :=
  if actualValue != expectedValue then (some (.verification .same), false)
  else (none, passed)

/-- One verification call of a scenario body, reduced to what every `verify` member does
with it: whether the comparison found a mismatch, and the failure it then raises. -/
structure VerificationCall where
  mismatch : Bool
  failure : VerificationException

/-- The shape shared by all `verify` members: on a mismatch clear the flag and raise. -/
def VerificationCall.step (v : VerificationCall) (passed : Bool) : Option Thrown × Bool :=
  if v.mismatch then (some (.verification v.failure), false) else (none, passed)

/-- A body made of verification calls, run statement by statement: the calls executed,
what was raised, and the flag at the end. A raise leaves the body at once. -/
def runCalls : List VerificationCall → Bool → List VerificationCall × Option Thrown × Bool
  | [], passed => ([], none, passed)
  | v :: rest, passed =>
      match v.step passed with
      | (some thrown, flag) => ([v], some thrown, flag)
      | (none, flag) =>
          let r := runCalls rest flag
          (v :: r.1, r.2)

/-- The `runSteps` override whose statements are the given verification calls. -/
def callsBody (calls : List VerificationCall) (_info : ScenarioInfo) (passed : Bool) :
    Option Thrown × Bool :=
  (runCalls calls passed).2

/-- The object built by `DESIGNER_SCENARIO` before it registers itself: constructed with
the category path, the description and `exceptionExpected = false`. -/
def declaredScenario (categoryFullName scenarioDescription : Str)
    (runSteps : ScenarioInfo → Bool → Option Thrown × Bool) : ScenarioBase :=
  { mCategoryFullName := categoryFullName
    mDescription := scenarioDescription
    mExceptionExpected := false
    mRunPassed := none
    runSteps := runSteps }

/-! ## The `exceptionExpected` flag -/

/-- A scenario with its `exceptionExpected` flag blanked. -/
def ScenarioBase.withoutExpected (s : ScenarioBase) : ScenarioBase :=
  { s with mExceptionExpected := false }

/-- A category with the `exceptionExpected` flags of its scenarios blanked. -/
def Category.withoutExpected (c : Category) : Category :=
  { c with mChildScenarios := c.mChildScenarios.map ScenarioBase.withoutExpected }

/-- A registry with all `exceptionExpected` flags blanked: two registries are identical
except for these flags when they agree after blanking. -/
def ScenarioManager.withoutExpected (m : ScenarioManager) : ScenarioManager :=
  { m with heap := m.heap.map Category.withoutExpected }

/-- The passed flags of all scenarios of a registry, category by category. -/
def ScenarioManager.passedValues (m : ScenarioManager) : List (List (Option Bool)) :=
  m.heap.map (fun c => c.mChildScenarios.map ScenarioBase.passed)

/-- The body of the scenario does not read `exceptionExpected()`: it does the same
whatever that accessor returns. -/
def ScenarioBase.FlagBlind (s : ScenarioBase) : Prop :=
  ∀ (info : ScenarioInfo) (flag passed : Bool),
    s.runSteps { info with exceptionExpected := flag } passed = s.runSteps info passed

/-- No scenario body of the categories of a heap reads `exceptionExpected()`. -/
def HeapFlagBlind (heap : List Category) : Prop :=
  ∀ c ∈ heap, ∀ s ∈ c.mChildScenarios, s.FlagBlind

/-- No scenario body of the registry reads `exceptionExpected()`. -/
def ScenarioManager.FlagBlind (m : ScenarioManager) : Prop :=
  ∀ c ∈ m.heap, ∀ s ∈ c.mChildScenarios, s.FlagBlind

/-- A scenario constructed with the given `exceptionExpected` flag whose body is the
single step `verifyFalse(exceptionExpected())`. -/
def flagReadingScenario (description : Str) (exceptionExpected : Bool) : ScenarioBase :=
  { mCategoryFullName := [], mDescription := description
    mExceptionExpected := exceptionExpected, mRunPassed := none
    runSteps := fun info => verifyFalse info.exceptionExpected }

/-! ## The text of a sweep -/

/-- The text `Category::run` writes for the category at a pointer, as the specification
words it: the outputs of its child categories in registration order, then its header line,
then the outcome records of its own scenarios in registration order. The first argument
bounds the nesting depth. -/
def categoryOutput (heap : List Category) : Nat → Nat → Str
  | 0, _ => []
  | fuel + 1, id =>
      (childrenIn heap id).flatMap (categoryOutput heap fuel) ++ textAt heap id

/-! ## Self-registration -/

/-- Model of the constructor generated by `DESIGNER_SCENARIO` (lines 517 to 523): register
the category path, then register the object under construction with the returned category.
An exception of `registerCategory` leaves the constructor. -/
def ScenarioManager.declare (m : ScenarioManager) (categoryFullName : Str)
    (scenario : ScenarioBase) : RegisterOutcome × ScenarioManager :=
  match m.registerCategory categoryFullName with
  | (.returned (some category), m1) =>
      (.returned (some category), m1.registerScenario category scenario)
  | r => r

/-- The inner loop of the scenario `Registration/Normal` (lines 32 to 39): whether a
scenario owned by the category has the description. -/
def hasDescription (c : Category) (description : Str) : Bool :=
  c.mChildScenarios.any (fun scenario => scenario.description == description)

/-- The `while (!categoryStack.empty())` loop of the scenario `Registration/Normal` (lines
24 to 44). The stack is given with its back first, so that pushing the child categories in
order puts them reversed in front. The result is the final `scenarioFound`; `none` when the
fuel is used up or a pointer is not allocated. -/
def searchLoop (heap : List Category) (description : Str) : Nat → List Nat → Option Bool
  | _, [] => some false
  | 0, _ :: _ => none
  | fuel + 1, category :: rest =>
      match heap[category]? with
      | none => none
      | some c =>
          if hasDescription c description then some true
          else searchLoop heap description fuel (c.mChildCategories.reverse ++ rest)

/-- The value of `scenarioFound` that the body of `Registration/Normal` computes (lines 16
to 44): the stack starts as the top-level categories, and each iteration removes one
category, so their number is enough fuel. -/
def scenarioFound (m : ScenarioManager) (description : Str) : Option Bool :=
  searchLoop m.heap description m.heap.length m.categories.reverse

/-! ## Searching -/

theorem findFrom_eq_none {p : Char → Bool} {l : List Char} {i : Nat} :
    findFrom p l i = none ↔ ∀ c ∈ l, p c = false := by
  induction l generalizing i with
  | nil => simp [findFrom]
  | cons c cs ih =>
    by_cases h : p c = true
    · simp [findFrom, h]
    · simp [findFrom, h, ih]

theorem findFrom_shift (p : Char → Bool) (l : List Char) (k i : Nat) :
    findFrom p l (k + i) = (findFrom p l i).map (fun j => k + j) := by
  induction l generalizing i with
  | nil => simp [findFrom]
  | cons c cs ih =>
    by_cases h : p c = true
    · simp [findFrom, h]
    · simp only [findFrom, h]
      simpa [Nat.add_assoc] using ih (i + 1)

theorem findFrom_spec {p : Char → Bool} {l : List Char} {i j : Nat}
    (h : findFrom p l i = some j) :
    j = i + (l.takeWhile (fun c => !p c)).length ∧
      ∃ x rest, l.dropWhile (fun c => !p c) = x :: rest ∧ p x = true := by
  induction l generalizing i with
  | nil => simp [findFrom] at h
  | cons c cs ih =>
    by_cases hc : p c = true
    · simp only [findFrom, hc, if_true, Option.some.injEq] at h
      subst h
      simp [List.takeWhile, List.dropWhile, hc]
    · simp only [findFrom, hc] at h
      have hc2 : p c = false := by simpa using hc
      obtain ⟨h1, h2⟩ := ih h
      refine ⟨?_, ?_⟩
      · simp [List.takeWhile, hc2, h1]; omega
      · simpa [List.dropWhile, hc2] using h2

theorem length_takeWhile_le {α : Type} (p : α → Bool) (l : List α) :
    (l.takeWhile p).length ≤ l.length := by
  induction l with
  | nil => simp
  | cons a as ih =>
    by_cases h : p a = true
    · simp [List.takeWhile, h]; omega
    · simp [List.takeWhile, h]

theorem take_length_takeWhile {α : Type} (p : α → Bool) (l : List α) :
    l.take (l.takeWhile p).length = l.takeWhile p := by
  induction l with
  | nil => simp
  | cons a as ih =>
    by_cases h : p a = true
    · simp [List.takeWhile, h, ih]
    · simp [List.takeWhile, h]

theorem drop_length_takeWhile {α : Type} (p : α → Bool) (l : List α) :
    l.drop (l.takeWhile p).length = l.dropWhile p := by
  induction l with
  | nil => simp
  | cons a as ih =>
    by_cases h : p a = true
    · simp [List.takeWhile, List.dropWhile, h, ih]
    · simp [List.takeWhile, List.dropWhile, h]

theorem segmentEnd_spec (name : Str) (pos : Nat) (hpos : pos ≤ name.length) :
    segmentEnd name pos = pos + ((name.drop pos).takeWhile notSep).length := by
  unfold segmentEnd find_first_of
  cases h : findFrom (fun c => decide (c ∈ ['/'])) (name.drop pos) pos with
  | none =>
    have hall := findFrom_eq_none.mp h
    have : (name.drop pos).takeWhile notSep = name.drop pos := by
      rw [List.takeWhile_eq_self_iff]
      intro c hc
      have := hall c hc
      simpa [notSep] using this
    simp [this]; omega
  | some j =>
    obtain ⟨h1, -⟩ := findFrom_spec h
    exact h1

theorem find_first_not_of_spec {name : Str} {pos j : Nat}
    (h : find_first_not_of name ['/'] pos = some j) :
    j = pos + ((name.drop pos).takeWhile isSep).length ∧ SegStart name j := by
  unfold find_first_not_of at h
  obtain ⟨h1, x, rest, h2, h3⟩ := findFrom_spec h
  have e : (fun c : Char => !(!decide (c ∈ ['/']))) = isSep := by
    funext c; simp [isSep]
  rw [e] at h1 h2
  refine ⟨h1, x, rest, ?_, ?_⟩
  · rw [h1, ← List.drop_drop, drop_length_takeWhile, h2]
  · simpa using h3

theorem SegStart.lt_length {name : Str} {pos : Nat} (h : SegStart name pos) :
    pos < name.length := by
  obtain ⟨x, rest, hx, -⟩ := h
  by_contra hc
  rw [List.drop_eq_nil_of_le (by omega)] at hx
  cases hx

theorem segmentEnd_le_length (name : Str) (pos : Nat) (hpos : pos ≤ name.length) :
    segmentEnd name pos ≤ name.length := by
  rw [segmentEnd_spec name pos hpos]
  have := length_takeWhile_le notSep (name.drop pos)
  simp only [List.length_drop] at this
  omega

theorem SegStart.lt_segmentEnd {name : Str} {pos : Nat} (h : SegStart name pos) :
    pos < segmentEnd name pos := by
  have hlt := h.lt_length
  obtain ⟨x, rest, hx, hne⟩ := h
  rw [segmentEnd_spec name pos (by omega), hx]
  have : notSep x = true := by simp [notSep, hne]
  simp [List.takeWhile, this]

theorem substr_segment (name : Str) (pos : Nat) (hpos : pos ≤ name.length) :
    substr name pos (segmentEnd name pos - pos) = (name.drop pos).takeWhile notSep := by
  rw [segmentEnd_spec name pos hpos]
  simp only [substr, Nat.add_sub_cancel_left]
  exact take_length_takeWhile _ _

theorem SegStart.substr_ne_nil {name : Str} {pos : Nat} (h : SegStart name pos) :
    substr name pos (segmentEnd name pos - pos) ≠ [] := by
  have h1 := h.lt_segmentEnd
  have h2 := segmentEnd_le_length name pos (by have := h.lt_length; omega)
  intro hc
  have := congrArg List.length hc
  simp [substr, List.length_take, List.length_drop] at this
  omega

theorem find_first_not_of_ge {name : Str} {pos j : Nat}
    (h : find_first_not_of name ['/'] pos = some j) : pos ≤ j := by
  have := (find_first_not_of_spec h).1
  omega

/-- With enough fuel the loop of `registerCategory` returns, and its effect is that of
lines 459 to 474 applied to the scanned (full name, name) pairs. -/
theorem registerLoop_eq (name : Str) (bp : Nat) :
    ∀ (fuel : Nat) (cb : Option Nat) (prev : Option Nat) (m : ScenarioManager),
      (∀ c, cb = some c → SegStart name c ∧ name.length ≤ fuel + c) →
      registerLoop name bp fuel cb prev m =
        (.returned (registerSegments (scanSegments name bp fuel cb) (prev, m)).1,
          (registerSegments (scanSegments name bp fuel cb) (prev, m)).2) := by
  intro fuel
  induction fuel with
  | zero =>
    intro cb prev m h
    cases cb with
    | none => simp [registerLoop, scanSegments, registerSegments]
    | some c =>
      have := (h c rfl).1.lt_length
      have := (h c rfl).2
      omega
  | succ fuel ih =>
    intro cb prev m h
    cases cb with
    | none => simp [registerLoop, scanSegments, registerSegments]
    | some c =>
      obtain ⟨hs, hf⟩ := h c rfl
      have hne := hs.substr_ne_nil
      have hlt := hs.lt_segmentEnd
      simp only [registerLoop, scanSegments, List.isEmpty_eq_true, hne, if_false]
      rw [ih]
      · simp [registerSegments]
      · intro c2 hc2
        refine ⟨(find_first_not_of_spec hc2).2, ?_⟩
        have := find_first_not_of_ge hc2
        omega

theorem registerCategory_eq_of_find {m : ScenarioManager} {name : Str} {bp : Nat}
    (h : find_first_not_of name ['/'] 0 = some bp) :
    m.registerCategory name =
      (.returned (registerSegments (scanPath name bp) (none, m)).1,
        (registerSegments (scanPath name bp) (none, m)).2) := by
  unfold ScenarioManager.registerCategory
  rw [h]
  simp only
  rw [registerLoop_eq]
  · rfl
  · intro c hc
    cases hc
    exact ⟨(find_first_not_of_spec h).2, by omega⟩

theorem find_first_not_of_eq_none_of_all {name : Str} (h : ∀ c ∈ name, c = '/') :
    find_first_not_of name ['/'] 0 = none := by
  unfold find_first_not_of
  rw [findFrom_eq_none]
  intro c hc
  simp [h c (by simpa using hc)]

/-! ## One table step -/

theorem lookupOrCreate_found {m : ScenarioManager} {prev : Option Nat} {key nm : Str}
    {id : Nat} (h : m.find key = some id) :
    lookupOrCreate m prev key nm = (some id, m) := by
  simp [lookupOrCreate, h]

theorem lookupOrCreate_new {m : ScenarioManager} (prev : Option Nat) {key : Str} (nm : Str)
    (h : m.find key = none) :
    (lookupOrCreate m prev key nm).1 = some m.heap.length ∧
      (lookupOrCreate m prev key nm).2.mAllCategories =
        m.mAllCategories ++ [(key, m.heap.length)] := by
  cases prev <;> simp [lookupOrCreate, h]

theorem lookupOrCreate_find_self (m : ScenarioManager) (prev : Option Nat) (key nm : Str) :
    ∃ id, (lookupOrCreate m prev key nm).1 = some id ∧
      (lookupOrCreate m prev key nm).2.find key = some id := by
  cases h : m.find key with
  | some id => exact ⟨id, by simp [lookupOrCreate_found h, h]⟩
  | none =>
    obtain ⟨h1, h2⟩ := lookupOrCreate_new prev nm h
    refine ⟨m.heap.length, h1, ?_⟩
    have h0 : List.lookup key m.mAllCategories = none := h
    simp [ScenarioManager.find, h2, List.lookup_append, h0]

theorem lookupOrCreate_find_mono {m : ScenarioManager} (prev : Option Nat) (key nm : Str)
    {k : Str} {id : Nat} (h : m.find k = some id) :
    (lookupOrCreate m prev key nm).2.find k = some id := by
  cases hk : m.find key with
  | some id2 => simp [lookupOrCreate_found hk, h]
  | none =>
    obtain ⟨-, h2⟩ := lookupOrCreate_new prev nm hk
    have h0 : List.lookup k m.mAllCategories = some id := h
    simp [ScenarioManager.find, h2, List.lookup_append, h0]

/-! ## A sequence of table steps -/

theorem registerSegments_cons (seg : Str × Str) (segs : List (Str × Str))
    (st : Option Nat × ScenarioManager) :
    registerSegments (seg :: segs) st =
      registerSegments segs (lookupOrCreate st.2 st.1 seg.1 seg.2) := rfl

theorem registerSegments_find_mono (segs : List (Str × Str)) :
    ∀ (st : Option Nat × ScenarioManager) {k : Str} {id : Nat},
      st.2.find k = some id → (registerSegments segs st).2.find k = some id := by
  induction segs with
  | nil => intro st k id h; exact h
  | cons seg segs ih =>
    intro st k id h
    rw [registerSegments_cons]
    exact ih _ (lookupOrCreate_find_mono _ _ _ h)

theorem registerSegments_found (segs : List (Str × Str)) :
    ∀ (st : Option Nat × ScenarioManager), ∀ seg ∈ segs,
      ∃ id, (registerSegments segs st).2.find seg.1 = some id := by
  induction segs with
  | nil => intro st seg h; cases h
  | cons s segs ih =>
    intro st seg h
    rw [registerSegments_cons]
    rcases List.mem_cons.mp h with rfl | h
    · obtain ⟨id, -, h2⟩ := lookupOrCreate_find_self st.2 st.1 seg.1 seg.2
      exact ⟨id, registerSegments_find_mono segs _ h2⟩
    · exact ih _ seg h

theorem getLast?_cons_some {α : Type} (a : α) (l : List α) :
    ∃ x, (a :: l).getLast? = some x := by
  cases h : (a :: l).getLast? with
  | none => simp at h
  | some x => exact ⟨x, rfl⟩

theorem registerSegments_result (segs : List (Str × Str)) :
    ∀ (st : Option Nat × ScenarioManager),
      (registerSegments segs st).1 = lastFind (registerSegments segs st).2 segs st.1 := by
  induction segs with
  | nil => intro st; rfl
  | cons s segs ih =>
    intro st
    rw [registerSegments_cons, ih]
    cases segs with
    | nil =>
      obtain ⟨id, h1, h2⟩ := lookupOrCreate_find_self st.2 st.1 s.1 s.2
      simp [lastFind, registerSegments, h1, h2]
    | cons s2 segs =>
      obtain ⟨x, hx⟩ := getLast?_cons_some s2 segs
      simp [lastFind, hx]

theorem registerSegments_all_found (segs : List (Str × Str)) :
    ∀ (prev : Option Nat) (m : ScenarioManager),
      (∀ seg ∈ segs, ∃ id, m.find seg.1 = some id) →
      registerSegments segs (prev, m) = (lastFind m segs prev, m) := by
  induction segs with
  | nil => intro prev m _; rfl
  | cons s segs ih =>
    intro prev m h
    obtain ⟨id, hid⟩ := h s (List.mem_cons_self _ _)
    rw [registerSegments_cons]
    simp only
    rw [lookupOrCreate_found hid, ih _ _ (fun seg hs => h seg (List.mem_cons_of_mem _ hs))]
    cases segs with
    | nil => simp [lastFind, hid]
    | cons s2 segs =>
      obtain ⟨x, hx⟩ := getLast?_cons_some s2 segs
      simp [lastFind, hx]

theorem registerCategory_returned_iff {m : ScenarioManager} {name : Str}
    {r : Option Nat} {m2 : ScenarioManager}
    (h : m.registerCategory name = (.returned r, m2)) :
    ∃ bp, find_first_not_of name ['/'] 0 = some bp := by
  cases hf : find_first_not_of name ['/'] 0 with
  | some bp => exact ⟨bp, rfl⟩
  | none => simp [ScenarioManager.registerCategory, hf] at h

/-- C4. `registerCategory` is idempotent: when a call with path `P` returns, a second call
with the same path made right after it returns the same category pointer and leaves the
whole registry (path table, top-level list, every category with its child list) as the
first call left it. -/
theorem registerCategory_idempotent (m : ScenarioManager) (P : Str) (r : Option Nat)
    (m1 : ScenarioManager) (h : m.registerCategory P = (.returned r, m1)) :
    m1.registerCategory P = (.returned r, m1) := by
  obtain ⟨bp, hbp⟩ := registerCategory_returned_iff h
  rw [registerCategory_eq_of_find hbp] at h
  rw [registerCategory_eq_of_find hbp]
  simp only [Prod.mk.injEq, RegisterOutcome.returned.injEq] at h
  obtain ⟨hr, hm⟩ := h
  have hall : ∀ seg ∈ scanPath P bp, ∃ id, m1.find seg.1 = some id := by
    intro seg hs
    rw [← hm]
    exact registerSegments_found _ _ seg hs
  rw [registerSegments_all_found _ _ _ hall]
  have := registerSegments_result (scanPath P bp) (none, m)
  rw [hr, hm] at this
  simp [this]

/-- Witness for C4 with the path `a/b` on the empty registry: the first call returns the
category allocated second, and so does the repeated call, with the registry unchanged. -/
theorem registerCategory_idempotent_witness :
    (ScenarioManager.empty.registerCategory "a/b".toList).1 = .returned (some 1) ∧
    (ScenarioManager.empty.registerCategory "a/b".toList).2.registerCategory "a/b".toList =
      (.returned (some 1), (ScenarioManager.empty.registerCategory "a/b".toList).2) :=
  ⟨by decide,
    registerCategory_idempotent ScenarioManager.empty "a/b".toList (some 1)
      (ScenarioManager.empty.registerCategory "a/b".toList).2 (by rfl)⟩

/-! ## Leading separators -/

theorem drop_replicate_append (k pos : Nat) (P : Str) :
    (List.replicate k '/' ++ P).drop (k + pos) = P.drop pos := by
  rw [← List.drop_drop, List.drop_left' (by simp)]

theorem find_first_of_shift (k pos : Nat) (P : Str) :
    find_first_of (List.replicate k '/' ++ P) ['/'] (k + pos) =
      (find_first_of P ['/'] pos).map (fun j => k + j) := by
  unfold find_first_of
  rw [drop_replicate_append, findFrom_shift]

theorem find_first_not_of_shift (k pos : Nat) (P : Str) :
    find_first_not_of (List.replicate k '/' ++ P) ['/'] (k + pos) =
      (find_first_not_of P ['/'] pos).map (fun j => k + j) := by
  unfold find_first_not_of
  rw [drop_replicate_append, findFrom_shift]

theorem findFrom_replicate (k i : Nat) (P : Str) :
    findFrom (fun c => !decide (c ∈ ['/'])) (List.replicate k '/' ++ P) i =
      findFrom (fun c => !decide (c ∈ ['/'])) P (k + i) := by
  induction k generalizing i with
  | zero => simp
  | succ k ih =>
    have e : List.replicate (k + 1) '/' ++ P = '/' :: (List.replicate k '/' ++ P) := rfl
    rw [e, findFrom, if_neg (by simp), ih]
    congr 1
    omega

theorem find_first_not_of_replicate (k : Nat) (P : Str) :
    find_first_not_of (List.replicate k '/' ++ P) ['/'] 0 =
      (find_first_not_of P ['/'] 0).map (fun j => k + j) := by
  unfold find_first_not_of
  simp only [List.drop_zero]
  rw [findFrom_replicate, findFrom_shift]

theorem segmentEnd_shift (k pos : Nat) (P : Str) :
    segmentEnd (List.replicate k '/' ++ P) (k + pos) = k + segmentEnd P pos := by
  unfold segmentEnd
  rw [find_first_of_shift]
  cases find_first_of P ['/'] pos <;> simp

theorem substr_shift (k pos len : Nat) (P : Str) :
    substr (List.replicate k '/' ++ P) (k + pos) len = substr P pos len := by
  unfold substr
  rw [drop_replicate_append]

theorem scanSegments_shift (k : Nat) (P : Str) (bp : Nat) :
    ∀ (fuel : Nat) (cb : Option Nat),
      scanSegments (List.replicate k '/' ++ P) (k + bp) fuel (cb.map (fun j => k + j)) =
        scanSegments P bp fuel cb := by
  intro fuel
  induction fuel with
  | zero => intro cb; cases cb <;> simp [scanSegments]
  | succ fuel ih =>
    intro cb
    cases cb with
    | none => simp [scanSegments]
    | some c =>
      simp only [Option.map_some', scanSegments, segmentEnd_shift, substr_shift,
        find_first_not_of_shift, ih]
      have e1 : k + segmentEnd P c - (k + bp) = segmentEnd P c - bp := by omega
      have e2 : k + segmentEnd P c - (k + c) = segmentEnd P c - c := by omega
      rw [e1, e2]

theorem scanSegments_fuel (name : Str) (bp : Nat) :
    ∀ (f1 f2 : Nat) (cb : Option Nat),
      (∀ c, cb = some c → SegStart name c ∧ name.length ≤ f1 + c ∧ name.length ≤ f2 + c) →
      scanSegments name bp f1 cb = scanSegments name bp f2 cb := by
  intro f1
  induction f1 with
  | zero =>
    intro f2 cb h
    cases cb with
    | none => cases f2 <;> simp [scanSegments]
    | some c =>
      have := (h c rfl).1.lt_length
      have := (h c rfl).2.1
      omega
  | succ f1 ih =>
    intro f2 cb h
    cases cb with
    | none => cases f2 <;> simp [scanSegments]
    | some c =>
      obtain ⟨hs, h1, h2⟩ := h c rfl
      have hlt := hs.lt_segmentEnd
      have hlen := hs.lt_length
      cases f2 with
      | zero => omega
      | succ f2 =>
        simp only [scanSegments]
        rw [ih f2]
        intro c2 hc2
        have hge := find_first_not_of_ge hc2
        exact ⟨(find_first_not_of_spec hc2).2, by omega, by omega⟩

/-- Leading separators are skipped: any number of `/` in front of any path changes neither
the outcome nor the resulting registry. -/
theorem registerCategory_replicate_append (m : ScenarioManager) (P : Str) (k : Nat) :
    m.registerCategory (List.replicate k '/' ++ P) = m.registerCategory P := by
  cases h : find_first_not_of P ['/'] 0 with
  | none =>
    have h2 := find_first_not_of_replicate k P
    rw [h] at h2
    simp [ScenarioManager.registerCategory, h, h2]
  | some bp =>
    have h2 := find_first_not_of_replicate k P
    rw [h] at h2
    rw [registerCategory_eq_of_find h, registerCategory_eq_of_find h2]
    have e : scanPath (List.replicate k '/' ++ P) (k + bp) = scanPath P bp := by
      unfold scanPath
      have := scanSegments_shift k P bp (List.replicate k '/' ++ P).length (some bp)
      simp only [Option.map_some'] at this
      rw [this]
      apply scanSegments_fuel
      intro c hc
      cases hc
      exact ⟨(find_first_not_of_spec h).2, by simp; omega, by omega⟩
    simp only [Option.map_some'] at e ⊢
    rw [e]

theorem find_first_not_of_of_exists {P : Str} (hP : ∃ c ∈ P, c ≠ '/') :
    ∃ bp, find_first_not_of P ['/'] 0 = some bp := by
  cases h : find_first_not_of P ['/'] 0 with
  | some bp => exact ⟨bp, rfl⟩
  | none =>
    exfalso
    unfold find_first_not_of at h
    rw [findFrom_eq_none] at h
    obtain ⟨c, hc, hne⟩ := hP
    have := h c (by simpa using hc)
    simp [hne] at this

theorem scanPath_ne_nil {name : Str} {bp : Nat}
    (h : find_first_not_of name ['/'] 0 = some bp) : scanPath name bp ≠ [] := by
  have hlt := (find_first_not_of_spec h).2.lt_length
  unfold scanPath
  cases hn : name.length with
  | zero => omega
  | succ n => simp [scanSegments]

/-- A path with a character other than `/` is accepted: the call returns a category, the
table entry of the last scanned full name. -/
theorem registerCategory_returns (m : ScenarioManager) {name : Str} {bp : Nat}
    (h : find_first_not_of name ['/'] 0 = some bp) :
    ∃ node, (m.registerCategory name).1 = .returned (some node) := by
  rw [registerCategory_eq_of_find h]
  have hne := scanPath_ne_nil h
  have hres := registerSegments_result (scanPath name bp) (none, m)
  cases hl : (scanPath name bp).getLast? with
  | none => simp at hl; exact absurd hl hne
  | some seg =>
    obtain ⟨id, hid⟩ := registerSegments_found (scanPath name bp) (none, m) seg
      (List.mem_of_getLast?_eq_some hl)
    refine ⟨id, ?_⟩
    simp only [lastFind, hl] at hres
    rw [hres, hid]

/-- C3. A path that is empty or made only of `/` characters is rejected: `registerCategory`
raises `std::invalid_argument`, whatever the registry, and the registry is unchanged. -/
theorem registerCategory_only_separators (m : ScenarioManager) (P : Str)
    (h : ∀ c ∈ P, c = '/') :
    m.registerCategory P =
      (.invalid_argument "Category names cannot consist entirely of / characters.", m) := by
  simp [ScenarioManager.registerCategory, find_first_not_of_eq_none_of_all h]

/-- Witness for C3 at the paths of the claim, the empty path and `///`. -/
theorem registerCategory_only_separators_witness :
    (∀ c ∈ "///".toList, c = '/') ∧
    ScenarioManager.empty.registerCategory "///".toList =
      (.invalid_argument "Category names cannot consist entirely of / characters.",
        ScenarioManager.empty) ∧
    ScenarioManager.empty.registerCategory [] =
      (.invalid_argument "Category names cannot consist entirely of / characters.",
        ScenarioManager.empty) :=
  ⟨by decide, registerCategory_only_separators _ _ (by decide),
    registerCategory_only_separators _ _ (by simp)⟩

/-- C6. Leading separators are ignored: for every registry, every path `P` and every `k`,
registering `k` separators followed by `P` has the same outcome (the same category pointer)
and the same resulting registry as registering `P`; and when `P` has a character other than
`/`, as the paths of the claim have, that outcome is a returned category. -/
theorem registerCategory_leading_separators (m : ScenarioManager) (P : Str) (k : Nat) :
    m.registerCategory (List.replicate k '/' ++ P) = m.registerCategory P ∧
      ((∃ c ∈ P, c ≠ '/') → ∃ node, (m.registerCategory P).1 = .returned (some node)) := by
  refine ⟨registerCategory_replicate_append m P k, fun hP => ?_⟩
  obtain ⟨bp, hbp⟩ := find_first_not_of_of_exists hP
  exact registerCategory_returns m hbp

/-- Witness for C6: `//a/b` against `a/b` on the empty registry. -/
theorem registerCategory_leading_separators_witness :
    (∃ c ∈ "a/b".toList, c ≠ '/') ∧
    ScenarioManager.empty.registerCategory "//a/b".toList =
      ScenarioManager.empty.registerCategory "a/b".toList ∧
    (∃ node, (ScenarioManager.empty.registerCategory "a/b".toList).1 =
      .returned (some node)) ∧
    (ScenarioManager.empty.registerCategory "//a/b".toList).1 = .returned (some 1) :=
  ⟨by decide,
    (registerCategory_leading_separators ScenarioManager.empty "a/b".toList 2).1,
    (registerCategory_leading_separators ScenarioManager.empty "a/b".toList 2).2 (by decide),
    by decide⟩

/-! ## Well-formed registries -/

theorem length_updateAt {α : Type} (f : α → α) (l : List α) (p : Nat) :
    (updateAt f l p).length = l.length := by
  induction l generalizing p with
  | nil => rfl
  | cons a as ih => cases p <;> simp [updateAt, ih]

theorem getElem?_updateAt {α : Type} (f : α → α) (l : List α) (p i : Nat) :
    (updateAt f l p)[i]? = if i = p then l[i]?.map f else l[i]? := by
  induction l generalizing p i with
  | nil => simp [updateAt]
  | cons a as ih =>
    cases p with
    | zero => cases i <;> simp [updateAt]
    | succ p => cases i <;> simp [updateAt, ih]

theorem map_updateAt_of_eq {α β : Type} (f : α → α) (g : α → β) (hg : ∀ a, g (f a) = g a)
    (l : List α) (p : Nat) : (updateAt f l p).map g = l.map g := by
  induction l generalizing p with
  | nil => rfl
  | cons a as ih => cases p <;> simp [updateAt, ih, hg]

theorem flatten_updateAt_pushChild (n : Nat) (l : List Category) (p : Nat)
    (hp : p < l.length) :
    (((updateAt (Category.pushChild n) l p).map Category.mChildCategories).flatten).Perm
      (n :: (l.map Category.mChildCategories).flatten) := by
  induction l generalizing p with
  | nil => simp at hp
  | cons a as ih =>
    cases p with
    | zero =>
      simp only [updateAt, List.map_cons, List.flatten_cons, Category.pushChild,
        List.append_assoc, List.singleton_append]
      exact List.perm_middle
    | succ p =>
      simp only [updateAt, List.map_cons, List.flatten_cons]
      have h1 := ih p (by simpa using hp)
      exact (List.Perm.append_left _ h1).trans List.perm_middle

theorem mem_of_lookup {l : List (Str × Nat)} {k : Str} {id : Nat}
    (h : l.lookup k = some id) : (k, id) ∈ l := by
  obtain ⟨l1, l2, rfl, -⟩ := List.lookup_eq_some_iff.mp h
  simp

theorem WellFormed.find_lt {m : ScenarioManager} (h : WellFormed m) {k : Str} {id : Nat}
    (hk : m.find k = some id) : id < m.heap.length := by
  have hmem : id ∈ m.mAllCategories.map Prod.snd :=
    List.mem_map.mpr ⟨(k, id), mem_of_lookup hk, rfl⟩
  rw [h.table_nodes] at hmem
  simpa using hmem

theorem wellFormed_empty : WellFormed ScenarioManager.empty where
  table_nodes := rfl
  table_keys := by simp [ScenarioManager.empty]
  child_later := by intro i c cat h; simp [ScenarioManager.empty] at h
  slots_perm := by simp [ScenarioManager.slots, ScenarioManager.empty]
  names := by intro key id h; simp [ScenarioManager.empty] at h

theorem lookupOrCreate_new_none {m : ScenarioManager} {key : Str} (nm : Str)
    (hk : m.find key = none) :
    lookupOrCreate m none key nm =
      (some m.heap.length,
        { heap := m.heap ++ [Category.new nm]
          mAllCategories := m.mAllCategories ++ [(key, m.heap.length)]
          mTopLevelCategories := m.mTopLevelCategories ++ [m.heap.length] }) := by
  simp [lookupOrCreate, hk]

theorem lookupOrCreate_new_some {m : ScenarioManager} {key : Str} (nm : Str) (p : Nat)
    (hk : m.find key = none) :
    lookupOrCreate m (some p) key nm =
      (some m.heap.length,
        { heap := updateAt (Category.pushChild m.heap.length) (m.heap ++ [Category.new nm]) p
          mAllCategories := m.mAllCategories ++ [(key, m.heap.length)]
          mTopLevelCategories := m.mTopLevelCategories }) := by
  simp [lookupOrCreate, hk]

theorem not_mem_keys_of_find_none {m : ScenarioManager} {key : Str}
    (hk : m.find key = none) : key ∉ m.mAllCategories.map Prod.fst := by
  intro hmem
  obtain ⟨⟨k, id⟩, hin, rfl⟩ := List.mem_map.mp hmem
  have := List.lookup_eq_none_iff.mp hk (k, id) hin
  simp at this

theorem wellFormed_new_top {m : ScenarioManager} (h : WellFormed m) {key : Str} (nm : Str)
    (hk : m.find key = none) (hn : nm = lastSegment key) :
    WellFormed
      { heap := m.heap ++ [Category.new nm]
        mAllCategories := m.mAllCategories ++ [(key, m.heap.length)]
        mTopLevelCategories := m.mTopLevelCategories ++ [m.heap.length] } where
  table_nodes := by simp [List.range_succ, h.table_nodes]
  table_keys := by
    simp only [List.map_append, List.map_cons, List.map_nil]
    exact List.nodup_append.mpr ⟨h.table_keys, by simp, by
      intro a ha hb
      simp only [List.mem_singleton] at hb
      subst hb
      exact not_mem_keys_of_find_none hk ha⟩
  child_later := by
    intro i c cat hi hc
    simp only at hi
    by_cases hlt : i < m.heap.length
    · rw [List.getElem?_append_left hlt] at hi
      exact h.child_later i c cat hi hc
    · rw [List.getElem?_append_right (by omega)] at hi
      by_cases he : i - m.heap.length = 0
      · simp [he, Category.new] at hi
        subst hi
        simp at hc
      · have : ([Category.new nm])[i - m.heap.length]? = none := by
          apply List.getElem?_eq_none
          simp; omega
        rw [this] at hi
        cases hi
  slots_perm := by
    have hp := h.slots_perm
    simp only [ScenarioManager.slots, List.map_append, List.map_cons, List.map_nil,
      List.flatten_append, List.length_append, List.length_singleton, List.range_succ,
      Category.new, List.flatten_cons, List.flatten_nil, List.append_nil] at hp ⊢
    have e : List.Perm (m.mTopLevelCategories ++ [m.heap.length] ++
        (m.heap.map Category.mChildCategories).flatten)
        ((m.mTopLevelCategories ++ (m.heap.map Category.mChildCategories).flatten) ++
          [m.heap.length]) := by
      simp only [List.append_assoc]
      exact List.Perm.append_left _ List.perm_append_comm
    exact e.trans (List.Perm.append_right _ hp)
  names := by
    intro k id hmem
    simp only [List.mem_append, List.mem_singleton, Prod.mk.injEq] at hmem
    rcases hmem with hmem | ⟨rfl, rfl⟩
    · obtain ⟨cat, hc, hname⟩ := h.names k id hmem
      refine ⟨cat, ?_, hname⟩
      have hlt : id < m.heap.length := by
        have := (List.getElem?_eq_some_iff.mp hc).1
        exact this
      simp only
      rw [List.getElem?_append_left hlt]
      exact hc
    · refine ⟨Category.new nm, ?_, by simp [Category.new, hn]⟩
      simp

theorem getElem?_append_new (heap : List Category) (c : Category) (i : Nat) :
    (heap ++ [c])[i]? = if i < heap.length then heap[i]? else
      if i = heap.length then some c else none := by
  by_cases hlt : i < heap.length
  · simp [hlt, List.getElem?_append_left hlt]
  · rw [List.getElem?_append_right (by omega)]
    by_cases he : i = heap.length
    · simp [he]
    · simp only [hlt, he, if_false]
      apply List.getElem?_eq_none
      simp; omega

theorem wellFormed_new_child {m : ScenarioManager} (h : WellFormed m) {key : Str} (nm : Str)
    {p : Nat} (hp : p < m.heap.length) (hk : m.find key = none) (hn : nm = lastSegment key) :
    WellFormed
      { heap := updateAt (Category.pushChild m.heap.length) (m.heap ++ [Category.new nm]) p
        mAllCategories := m.mAllCategories ++ [(key, m.heap.length)]
        mTopLevelCategories := m.mTopLevelCategories } where
  table_nodes := by simp [List.range_succ, h.table_nodes, length_updateAt]
  table_keys := by
    simp only [List.map_append, List.map_cons, List.map_nil]
    exact List.nodup_append.mpr ⟨h.table_keys, by simp, by
      intro a ha hb
      simp only [List.mem_singleton] at hb
      subst hb
      exact not_mem_keys_of_find_none hk ha⟩
  child_later := by
    intro i c cat hi hc
    simp only [getElem?_updateAt, getElem?_append_new] at hi
    by_cases hip : i = p
    · subst hip
      simp only [if_true, hp] at hi
      obtain ⟨cat0, h0, rfl⟩ := Option.map_eq_some'.mp hi
      simp only [Category.pushChild, List.mem_append, List.mem_singleton] at hc
      rcases hc with hc | rfl
      · exact h.child_later i c cat0 h0 hc
      · exact hp
    · simp only [hip, if_false] at hi
      by_cases hlt : i < m.heap.length
      · simp only [hlt, if_true] at hi
        exact h.child_later i c cat hi hc
      · simp only [hlt, if_false] at hi
        by_cases he : i = m.heap.length
        · simp only [he, if_true, Option.some.injEq] at hi
          subst hi
          simp [Category.new] at hc
        · simp [he] at hi
  slots_perm := by
    have hperm := h.slots_perm
    have hflat := flatten_updateAt_pushChild m.heap.length (m.heap ++ [Category.new nm]) p
      (by simp; omega)
    simp only [ScenarioManager.slots, length_updateAt, List.length_append,
      List.length_singleton, List.range_succ] at hperm ⊢
    have e1 := List.Perm.append_left m.mTopLevelCategories hflat
    refine e1.trans ?_
    simp only [List.map_append, List.map_cons, List.map_nil, List.flatten_append,
      Category.new, List.flatten_cons, List.flatten_nil, List.append_nil]
    refine List.perm_middle.trans ?_
    refine (@List.perm_append_comm _ [m.heap.length] _).trans ?_
    exact List.Perm.append_right _ hperm
  names := by
    intro k id hmem
    simp only [List.mem_append, List.mem_singleton, Prod.mk.injEq] at hmem
    simp only [getElem?_updateAt, getElem?_append_new]
    rcases hmem with hmem | ⟨rfl, rfl⟩
    · obtain ⟨cat, hc, hname⟩ := h.names k id hmem
      have hlt : id < m.heap.length := (List.getElem?_eq_some_iff.mp hc).1
      by_cases hip : id = p
      · subst hip
        exact ⟨Category.pushChild m.heap.length cat, by simp [hc, hlt],
          by simpa [Category.pushChild] using hname⟩
      · exact ⟨cat, by simp [hip, hlt, hc], hname⟩
    · refine ⟨Category.new nm, ?_, by simp [Category.new, hn]⟩
      have : m.heap.length ≠ p := by omega
      simp [this]

/-- A table step keeps the registry well formed and leaves a valid pointer. -/
theorem lookupOrCreate_wellFormed {m : ScenarioManager} (h : WellFormed m)
    {prev : Option Nat} (hp : ∀ p, prev = some p → p < m.heap.length) {key nm : Str}
    (hn : nm = lastSegment key) :
    WellFormed (lookupOrCreate m prev key nm).2 ∧
      ∀ p, (lookupOrCreate m prev key nm).1 = some p →
        p < (lookupOrCreate m prev key nm).2.heap.length := by
  cases hk : m.find key with
  | some id =>
    rw [lookupOrCreate_found hk]
    refine ⟨h, ?_⟩
    intro p hp2
    cases hp2
    exact h.find_lt hk
  | none =>
    cases prev with
    | none =>
      rw [lookupOrCreate_new_none nm hk]
      refine ⟨wellFormed_new_top h nm hk hn, ?_⟩
      intro p hp2
      cases hp2
      simp
    | some q =>
      rw [lookupOrCreate_new_some nm q hk]
      refine ⟨wellFormed_new_child h nm (hp q rfl) hk hn, ?_⟩
      intro p hp2
      cases hp2
      simp [length_updateAt]

theorem registerSegments_wellFormed (segs : List (Str × Str)) :
    ∀ (st : Option Nat × ScenarioManager), WellFormed st.2 →
      (∀ p, st.1 = some p → p < st.2.heap.length) →
      (∀ seg ∈ segs, seg.2 = lastSegment seg.1) →
      WellFormed (registerSegments segs st).2 ∧
        ∀ p, (registerSegments segs st).1 = some p →
          p < (registerSegments segs st).2.heap.length := by
  induction segs with
  | nil => intro st h hp _; exact ⟨h, hp⟩
  | cons s segs ih =>
    intro st h hp hs
    rw [registerSegments_cons]
    obtain ⟨h1, h2⟩ := lookupOrCreate_wellFormed h hp (hs s (List.mem_cons_self _ _))
    exact ih _ h1 h2 (fun seg hseg => hs seg (List.mem_cons_of_mem _ hseg))

/-! ## Names are last segments -/

theorem lastSegment_append {A nm : Str} (hnm : ∀ c ∈ nm, c ≠ '/')
    (hA : A = [] ∨ A.getLast? = some '/') : lastSegment (A ++ nm) = nm := by
  unfold lastSegment
  rw [List.reverse_append, List.takeWhile_append_of_pos]
  · have : A.reverse.takeWhile notSep = [] := by
      rcases hA with rfl | hA
      · rfl
      · obtain ⟨ys, rfl⟩ := List.getLast?_eq_some_iff.mp hA
        simp [List.takeWhile, notSep]
    simp [this]
  · intro a ha
    have := hnm a (by simpa using ha)
    simp [notSep, this]

theorem substr_add (s : Str) (b x y : Nat) :
    substr s b (x + y) = substr s b x ++ substr s (b + x) y := by
  unfold substr
  rw [List.take_add, List.drop_drop]

theorem dropWhile_head_not {p : Char → Bool} {l : List Char} {x : Char} {rest : List Char}
    (h : l.dropWhile p = x :: rest) : p x = false := by
  induction l with
  | nil => simp at h
  | cons a as ih =>
    by_cases ha : p a = true
    · simp only [List.dropWhile, ha] at h
      exact ih h
    · simp only [List.dropWhile, ha] at h
      cases h
      simpa using ha

theorem mem_takeWhile_sat {p : Char → Bool} {l : List Char} {x : Char}
    (h : x ∈ l.takeWhile p) : p x = true := by
  induction l with
  | nil => simp at h
  | cons a as ih =>
    by_cases ha : p a = true
    · simp only [List.takeWhile, ha, List.mem_cons] at h
      rcases h with rfl | h
      · exact ha
      · exact ih h
    · simp [List.takeWhile, ha] at h

theorem drop_segmentEnd (name : Str) (pos : Nat) (hpos : pos ≤ name.length) :
    name.drop (segmentEnd name pos) = (name.drop pos).dropWhile notSep := by
  rw [segmentEnd_spec name pos hpos, ← List.drop_drop, drop_length_takeWhile]

theorem scan_key_eq (name : Str) {bp c : Nat} (hbc : bp ≤ c) (hs : SegStart name c) :
    substr name bp (segmentEnd name c - bp) =
      substr name bp (c - bp) ++ substr name c (segmentEnd name c - c) := by
  have hlt := hs.lt_segmentEnd
  have e : segmentEnd name c - bp = (c - bp) + (segmentEnd name c - c) := by omega
  rw [e, substr_add]
  congr 2
  omega

theorem boundary_next {name : Str} {bp c c2 : Nat} (hbc : bp ≤ c) (hs : SegStart name c)
    (h2 : find_first_not_of name ['/'] (segmentEnd name c) = some c2) :
    Boundary name bp c2 := by
  have hlen := hs.lt_length
  have hlt := hs.lt_segmentEnd
  obtain ⟨hc2, hs2⟩ := find_first_not_of_spec h2
  have hdrop := drop_segmentEnd name c (by omega)
  set ce := segmentEnd name c with hce
  set R := (name.drop ce).takeWhile isSep with hR
  have hRne : R ≠ [] := by
    intro hnil
    rw [hnil] at hc2
    simp only [List.length_nil, Nat.add_zero] at hc2
    subst hc2
    obtain ⟨x, rest, hx, hne⟩ := hs2
    rw [hdrop] at hx
    have := dropWhile_head_not hx
    simp [notSep, hne] at this
  have e : c2 - bp = (ce - bp) + R.length := by omega
  have hsub : substr name bp (c2 - bp) = substr name bp (ce - bp) ++ R := by
    rw [e, substr_add]
    congr 1
    have : bp + (ce - bp) = ce := by omega
    rw [this]
    unfold substr
    exact take_length_takeWhile _ _
  right
  rw [hsub, List.getLast?_append]
  have hlast := List.getLast?_eq_getLast R hRne
  rw [hlast]
  have hmem : R.getLast hRne ∈ R := List.getLast_mem hRne
  have := mem_takeWhile_sat hmem
  simp only [isSep, List.mem_singleton, decide_eq_true_eq] at this
  simp [this]

theorem scanSegments_lastSegment (name : Str) (bp : Nat) :
    ∀ (fuel : Nat) (cb : Option Nat),
      (∀ c, cb = some c → SegStart name c ∧ bp ≤ c ∧ Boundary name bp c) →
      ∀ seg ∈ scanSegments name bp fuel cb, seg.2 = lastSegment seg.1 := by
  intro fuel
  induction fuel with
  | zero => intro cb _ seg hseg; cases cb <;> simp [scanSegments] at hseg
  | succ fuel ih =>
    intro cb h seg hseg
    cases cb with
    | none => simp [scanSegments] at hseg
    | some c =>
      obtain ⟨hs, hbc, hb⟩ := h c rfl
      simp only [scanSegments, List.mem_cons] at hseg
      rcases hseg with rfl | hseg
      · simp only
        rw [scan_key_eq name hbc hs]
        symm
        apply lastSegment_append _ hb
        intro x hx
        rw [substr_segment name c (by have := hs.lt_length; omega)] at hx
        have := mem_takeWhile_sat hx
        simpa [notSep] using this
      · refine ih _ ?_ seg hseg
        intro c2 hc2
        refine ⟨(find_first_not_of_spec hc2).2, ?_, boundary_next hbc hs hc2⟩
        have := find_first_not_of_ge hc2
        have := hs.lt_segmentEnd
        omega

theorem scanPath_lastSegment {name : Str} {bp : Nat}
    (h : find_first_not_of name ['/'] 0 = some bp) :
    ∀ seg ∈ scanPath name bp, seg.2 = lastSegment seg.1 := by
  apply scanSegments_lastSegment
  intro c hc
  cases hc
  refine ⟨(find_first_not_of_spec h).2, le_refl _, ?_⟩
  left
  simp [substr]

/-- Every call of `registerCategory`, whatever its outcome, keeps the registry well
formed. -/
theorem registerCategory_wellFormed {m : ScenarioManager} (h : WellFormed m) (name : Str) :
    WellFormed (m.registerCategory name).2 := by
  cases hf : find_first_not_of name ['/'] 0 with
  | none => simpa [ScenarioManager.registerCategory, hf] using h
  | some bp =>
    rw [registerCategory_eq_of_find hf]
    exact (registerSegments_wellFormed _ (none, m) h (by simp) (scanPath_lastSegment hf)).1

theorem registerAll_wellFormed (paths : List Str) :
    ∀ {m : ScenarioManager}, WellFormed m → WellFormed (m.registerAll paths) := by
  induction paths with
  | nil => intro m h; exact h
  | cons path paths ih =>
    intro m h
    exact ih (registerCategory_wellFormed h path)

/-! ## The registry invariant -/

theorem lookup_of_mem_of_nodup {l : List (Str × Nat)} (hn : (l.map Prod.fst).Nodup)
    {k : Str} {id : Nat} (h : (k, id) ∈ l) : l.lookup k = some id := by
  induction l with
  | nil => cases h
  | cons a as ih =>
    obtain ⟨k2, id2⟩ := a
    simp only [List.map_cons, List.nodup_cons] at hn
    rcases List.mem_cons.mp h with heq | hmem
    · cases heq
      simp
    · have hne : k ≠ k2 := by
        rintro rfl
        exact hn.1 (List.mem_map.mpr ⟨(k, id), hmem, rfl⟩)
      rw [List.lookup_cons]
      have : (k == k2) = false := by simpa using hne
      rw [this]
      exact ih hn.2 hmem

theorem WellFormed.find_injective {m : ScenarioManager} (h : WellFormed m) {k1 k2 : Str}
    {id : Nat} (h1 : m.find k1 = some id) (h2 : m.find k2 = some id) : k1 = k2 := by
  have hnd : (m.mAllCategories.map Prod.snd).Nodup := by
    rw [h.table_nodes]
    exact List.nodup_range _
  have := List.inj_on_of_nodup_map hnd (mem_of_lookup h1) (mem_of_lookup h2) rfl
  exact congrArg Prod.fst this

theorem WellFormed.exists_key {m : ScenarioManager} (h : WellFormed m) {id : Nat}
    (hid : id < m.heap.length) : ∃ key, m.find key = some id := by
  have hmem : id ∈ m.mAllCategories.map Prod.snd := by
    rw [h.table_nodes]
    simpa using hid
  obtain ⟨⟨k, id2⟩, hin, rfl⟩ := List.mem_map.mp hmem
  exact ⟨k, lookup_of_mem_of_nodup h.table_keys hin⟩

theorem WellFormed.count_slots {m : ScenarioManager} (h : WellFormed m) {id : Nat}
    (hid : id < m.heap.length) : m.slots.count id = 1 := by
  rw [h.slots_perm.count_eq]
  exact List.count_eq_one_of_mem (List.nodup_range _) (by simpa using hid)

theorem WellFormed.lt_of_transGen {m : ScenarioManager} (h : WellFormed m) {a b : Nat}
    (hab : Relation.TransGen (ChildOf m) a b) : a < b := by
  induction hab with
  | single hc =>
    obtain ⟨cat, h1, h2⟩ := hc
    exact h.child_later _ _ cat h1 h2
  | tail _ hc ih =>
    obtain ⟨cat, h1, h2⟩ := hc
    exact lt_trans ih (h.child_later _ _ cat h1 h2)

/-- C8. Registry invariant. In every registry reached from the empty one by a sequence of
`registerCategory` calls, successful or failing: two table keys with the same category are
the same key; the category of every table key is allocated and occupies exactly one place
in the forest, counting the top-level list and all child lists together; every category
standing in the forest is the entry of some table key; and no category is its own
descendant. -/
theorem registry_invariant (paths : List Str) :
    (∀ k1 k2 id, (ScenarioManager.empty.registerAll paths).find k1 = some id →
      (ScenarioManager.empty.registerAll paths).find k2 = some id → k1 = k2) ∧
    (∀ key id, (ScenarioManager.empty.registerAll paths).find key = some id →
      id < (ScenarioManager.empty.registerAll paths).heap.length ∧
      ((ScenarioManager.empty.registerAll paths).mTopLevelCategories ++
        ((ScenarioManager.empty.registerAll paths).heap.map
          Category.mChildCategories).flatten).count id = 1) ∧
    (∀ id ∈ (ScenarioManager.empty.registerAll paths).mTopLevelCategories ++
        ((ScenarioManager.empty.registerAll paths).heap.map
          Category.mChildCategories).flatten,
      ∃ key, (ScenarioManager.empty.registerAll paths).find key = some id) ∧
    (∀ id, ¬ Relation.TransGen (ChildOf (ScenarioManager.empty.registerAll paths)) id id) := by
  have h := registerAll_wellFormed paths wellFormed_empty
  refine ⟨fun k1 k2 id h1 h2 => h.find_injective h1 h2, ?_, ?_, ?_⟩
  · intro key id hk
    exact ⟨h.find_lt hk, h.count_slots (h.find_lt hk)⟩
  · intro id hid
    have hmem : id ∈ List.range (ScenarioManager.empty.registerAll paths).heap.length :=
      h.slots_perm.mem_iff.mp hid
    exact h.exists_key (by simpa using hmem)
  · intro id hc
    exact lt_irrefl _ (h.lt_of_transGen hc)

/-! ## Valid paths -/

theorem joinPath_cons_head {t : Str} {rest : List Str} (ht : t ≠ [] ∧ '/' ∉ t) :
    ∃ x r, joinPath (t :: rest) = x :: r ∧ x ≠ '/' := by
  obtain ⟨hne, hns⟩ := ht
  cases t with
  | nil => exact absurd rfl hne
  | cons x t2 =>
    have hx : x ≠ '/' := by
      intro h
      apply hns
      simp [h]
    cases rest with
    | nil => exact ⟨x, t2, rfl, hx⟩
    | cons u rest => exact ⟨x, t2 ++ '/' :: joinPath (u :: rest), rfl, hx⟩

theorem takeWhile_notSep_segment {s tail : Str} (hs : '/' ∉ s)
    (htail : tail = [] ∨ ∃ r, tail = '/' :: r) :
    (s ++ tail).takeWhile notSep = s := by
  rw [List.takeWhile_append_of_pos]
  · rcases htail with rfl | ⟨r, rfl⟩
    · simp
    · simp [List.takeWhile, notSep]
  · intro a ha
    have : a ≠ '/' := by
      rintro rfl
      exact hs ha
    simp [notSep, this]

theorem scanSegments_joinPath (segs : List Str) :
    ∀ (A : Str) (fuel : Nat), (∀ s ∈ segs, s ≠ [] ∧ '/' ∉ s) → segs ≠ [] →
      (joinPath segs).length ≤ fuel →
      scanSegments (A ++ joinPath segs) 0 fuel (some A.length) =
        ((pathPrefixes segs).map (fun p => A ++ p)).zip segs := by
  induction segs with
  | nil => intro A fuel _ h; exact absurd rfl h
  | cons s rest ih =>
    intro A fuel hv _ hfuel
    obtain ⟨hsne, hsns⟩ := hv s (List.mem_cons_self _ _)
    have hvrest : ∀ t ∈ rest, t ≠ [] ∧ '/' ∉ t := fun t ht => hv t (List.mem_cons_of_mem _ ht)
    -- the path after the text already consumed
    obtain ⟨tail, hjoin, htail⟩ : ∃ tail, joinPath (s :: rest) = s ++ tail ∧
        (tail = [] ∨ ∃ r, tail = '/' :: r) := by
      cases rest with
      | nil => exact ⟨[], by simp [joinPath], Or.inl rfl⟩
      | cons t rest2 => exact ⟨'/' :: joinPath (t :: rest2), rfl, Or.inr ⟨_, rfl⟩⟩
    have hlen : 0 < (joinPath (s :: rest)).length := by
      rw [hjoin]
      have : 0 < s.length := List.length_pos.mpr hsne
      simp; omega
    cases fuel with
    | zero => omega
    | succ fuel =>
      have hdrop : (A ++ joinPath (s :: rest)).drop A.length = s ++ tail := by
        rw [List.drop_left, hjoin]
      have hend : segmentEnd (A ++ joinPath (s :: rest)) A.length = A.length + s.length := by
        rw [segmentEnd_spec _ _ (by simp), hdrop, takeWhile_notSep_segment hsns htail]
      have hkey : substr (A ++ joinPath (s :: rest)) 0 (A.length + s.length - 0) = A ++ s := by
        simp only [substr, List.drop_zero, Nat.sub_zero, hjoin, ← List.append_assoc]
        rw [← List.length_append, List.take_left]
      have hnm : substr (A ++ joinPath (s :: rest)) A.length (A.length + s.length - A.length)
          = s := by
        simp only [substr, hdrop, Nat.add_sub_cancel_left]
        exact List.take_left _ _
      have hdrop2 : (A ++ joinPath (s :: rest)).drop (A.length + s.length) = tail := by
        rw [← List.drop_drop, hdrop, List.drop_left]
      simp only [scanSegments, hend, hkey, hnm]
      cases rest with
      | nil =>
        have ht : tail = [] := by
          simp only [joinPath] at hjoin
          have := congrArg List.length hjoin
          simpa using this
        have hnext : find_first_not_of (A ++ joinPath [s]) ['/'] (A.length + s.length) =
            none := by
          unfold find_first_not_of
          rw [hdrop2, ht]
          rfl
        simp [hnext, scanSegments, pathPrefixes]
      | cons t rest2 =>
        have ht : tail = '/' :: joinPath (t :: rest2) := by
          have h1 : joinPath (s :: t :: rest2) = s ++ '/' :: joinPath (t :: rest2) := rfl
          rw [h1] at hjoin
          exact (List.append_cancel_left hjoin).symm
        obtain ⟨x, r, hx, hxne⟩ := @joinPath_cons_head t rest2
          (hvrest t (List.mem_cons_self _ _))
        have hnext : find_first_not_of (A ++ joinPath (s :: t :: rest2)) ['/']
            (A.length + s.length) = some ((A ++ s ++ ['/']).length) := by
          unfold find_first_not_of
          rw [hdrop2, ht, hx]
          simp [findFrom, hxne, Nat.add_assoc]
        have hname : A ++ joinPath (s :: t :: rest2) =
            (A ++ s ++ ['/']) ++ joinPath (t :: rest2) := by
          have h1 : joinPath (s :: t :: rest2) = s ++ '/' :: joinPath (t :: rest2) := rfl
          rw [h1]
          simp
        rw [hnext, hname, ih (A ++ s ++ ['/']) fuel hvrest (by simp)]
        · simp [pathPrefixes, List.map_map, Function.comp_def]
        · have h1 : joinPath (s :: t :: rest2) = s ++ '/' :: joinPath (t :: rest2) := rfl
          rw [h1] at hfuel
          simp at hfuel
          omega

theorem find_first_not_of_joinPath {segs : List Str} (h : ValidSegments segs) :
    find_first_not_of (joinPath segs) ['/'] 0 = some 0 := by
  obtain ⟨hne, hv⟩ := h
  cases segs with
  | nil => exact absurd rfl hne
  | cons t rest =>
    obtain ⟨x, r, hx, hxne⟩ := @joinPath_cons_head t rest (hv t (List.mem_cons_self _ _))
    unfold find_first_not_of
    rw [hx]
    simp [findFrom, hxne]

/-- On a valid path the loop visits exactly the segment-boundary prefixes, each with its
last segment as name. -/
theorem scanPath_joinPath {segs : List Str} (h : ValidSegments segs) :
    scanPath (joinPath segs) 0 = (pathPrefixes segs).zip segs := by
  have := scanSegments_joinPath segs [] (joinPath segs).length h.2 h.1 (le_refl _)
  simpa [scanPath] using this

/-- Witness for C8 on the registry reached by `a/b`, `a//b` and the rejected `///`: the
key `a/b` has category 1, which occupies exactly one place of the forest, the categories
of `a/b` and `a//b` differ, and the child 2 of category 0 is the entry of a key. -/
theorem registry_invariant_witness :
    (ScenarioManager.empty.registerAll
      ["a/b".toList, "a//b".toList, "///".toList]).find "a/b".toList = some 1 ∧
    ((ScenarioManager.empty.registerAll
        ["a/b".toList, "a//b".toList, "///".toList]).mTopLevelCategories ++
      ((ScenarioManager.empty.registerAll
        ["a/b".toList, "a//b".toList, "///".toList]).heap.map
          Category.mChildCategories).flatten).count 1 = 1 ∧
    (∃ key, (ScenarioManager.empty.registerAll
      ["a/b".toList, "a//b".toList, "///".toList]).find key = some 2) ∧
    ¬ Relation.TransGen
      (ChildOf (ScenarioManager.empty.registerAll
        ["a/b".toList, "a//b".toList, "///".toList])) 0 0 :=
  ⟨by decide,
    ((registry_invariant ["a/b".toList, "a//b".toList, "///".toList]).2.1
      "a/b".toList 1 (by decide)).2,
    (registry_invariant ["a/b".toList, "a//b".toList, "///".toList]).2.2.1 2 (by decide),
    (registry_invariant ["a/b".toList, "a//b".toList, "///".toList]).2.2.2 0⟩

/-! ## Empty segments -/

/-- C1. On the path `a//b`, which has an empty segment between two separators,
`registerCategory` raises nothing: in every registry it returns a category, and on the empty
registry it returns the second allocated category, named `b`, filed under the key `a//b` as
a child of `a`. The check `currentName.empty()` is never true, because every segment start
is found by `find_first_not_of`. -/
theorem registerCategory_double_separator_returns :
    (∀ m : ScenarioManager, ∃ node,
      (m.registerCategory "a//b".toList).1 = .returned (some node)) ∧
    (ScenarioManager.empty.registerCategory "a//b".toList).1 = .returned (some 1) ∧
    (ScenarioManager.empty.registerCategory "a//b".toList).2.mAllCategories =
      [("a".toList, 0), ("a//b".toList, 1)] ∧
    (ScenarioManager.empty.registerCategory "a//b".toList).2.heap.map
        (fun c => (c.mName, c.mChildCategories)) =
      [("a".toList, [1]), ("b".toList, [])] :=
  ⟨fun m => @registerCategory_returns m _ 0 (by decide), by decide, by decide, by decide⟩

/-- C2. On paths with trailing separators, `a/` and `a/b//`, `registerCategory` raises
nothing: in every registry it returns a category, and on the empty registry the calls
return the category of `a` and of `a/b`, the trailing separators being skipped. -/
theorem registerCategory_trailing_separator_returns :
    (∀ m : ScenarioManager, ∃ node,
      (m.registerCategory "a/".toList).1 = .returned (some node)) ∧
    (∀ m : ScenarioManager, ∃ node,
      (m.registerCategory "a/b//".toList).1 = .returned (some node)) ∧
    (ScenarioManager.empty.registerCategory "a/".toList).1 = .returned (some 0) ∧
    (ScenarioManager.empty.registerCategory "a/".toList).2.mAllCategories =
      [("a".toList, 0)] ∧
    (ScenarioManager.empty.registerCategory "a/b//".toList).1 = .returned (some 1) ∧
    (ScenarioManager.empty.registerCategory "a/b//".toList).2.mAllCategories =
      [("a".toList, 0), ("a/b".toList, 1)] :=
  ⟨fun m => @registerCategory_returns m _ 0 (by decide),
    fun m => @registerCategory_returns m _ 0 (by decide),
    by decide, by decide, by decide, by decide⟩

/-! ## Outcome records -/

theorem runScenario_stream (stream : Str) (s : ScenarioBase) :
    runScenario stream s = (s.run.1, stream ++ outcomeRecord s) := by
  unfold runScenario outcomeRecord ScenarioBase.run ScenarioBase.passed
    ScenarioBase.description endl
  rcases h : s.runSteps s.info true with ⟨thrown, flag⟩
  cases thrown with
  | none => cases flag <;> simp
  | some t => cases t <;> simp

theorem runScenarios_stream (scenarios : List ScenarioBase) :
    ∀ stream : Str, runScenarios scenarios stream =
      (scenarios.map (fun s => s.run.1), stream ++ (scenarios.map outcomeRecord).flatten) := by
  induction scenarios with
  | nil => intro stream; simp [runScenarios]
  | cons s rest ih =>
    intro stream
    simp [runScenarios, runScenario_stream, ih]

/-- C10. Outcome classification and failure isolation in the scenario loop of
`Category::run`. For every list of owned scenarios the text written is the concatenation,
in order, of one record per scenario, and every scenario of the list has been run whatever
the earlier ones did. The record of a scenario is fixed by its own run alone: `Scenario
passed: d` when the run returns with the flag true, `Scenario failed: d` when it returns
with the flag false, `Scenario failed: d` followed by the message when it raises a
verification failure, `Scenario failed unexpectedly: d` when it raises anything else. -/
theorem runScenarios_records (scenarios : List ScenarioBase) (stream : Str) :
    (runScenarios scenarios stream).2 = stream ++ (scenarios.map outcomeRecord).flatten ∧
    (runScenarios scenarios stream).1 = scenarios.map (fun s => s.run.1) ∧
    (∀ s : ScenarioBase, s.run.2 = none → s.run.1.passed = some true →
      outcomeRecord s = "Scenario passed: ".toList ++ s.description ++ "\n".toList) ∧
    (∀ s : ScenarioBase, s.run.2 = none → s.run.1.passed = some false →
      outcomeRecord s = "Scenario failed: ".toList ++ s.description ++ "\n".toList) ∧
    (∀ (s : ScenarioBase) (ex : VerificationException),
      s.run.2 = some (.verification ex) →
      outcomeRecord s =
        "Scenario failed: ".toList ++ s.description ++ "\n".toList ++ ex.what) ∧
    (∀ s : ScenarioBase, s.run.2 = some .other →
      outcomeRecord s =
        "Scenario failed unexpectedly: ".toList ++ s.description ++ "\n".toList) := by
  refine ⟨by rw [runScenarios_stream], by rw [runScenarios_stream], ?_, ?_, ?_, ?_⟩
  · intro s h1 h2
    unfold ScenarioBase.run ScenarioBase.passed at *
    unfold outcomeRecord ScenarioBase.description
    rcases h : s.runSteps s.info true with ⟨thrown, flag⟩
    simp only [h, Option.some.injEq] at h1 h2
    subst h1 h2
    rfl
  · intro s h1 h2
    unfold ScenarioBase.run ScenarioBase.passed at *
    unfold outcomeRecord ScenarioBase.description
    rcases h : s.runSteps s.info true with ⟨thrown, flag⟩
    simp only [h, Option.some.injEq] at h1 h2
    subst h1 h2
    rfl
  · intro s ex h1
    unfold ScenarioBase.run at h1
    unfold outcomeRecord ScenarioBase.description
    rcases h : s.runSteps s.info true with ⟨thrown, flag⟩
    simp only [h] at h1
    subst h1
    rfl
  · intro s h1
    unfold ScenarioBase.run at h1
    unfold outcomeRecord ScenarioBase.description
    rcases h : s.runSteps s.info true with ⟨thrown, flag⟩
    simp only [h] at h1
    subst h1
    rfl

/-- Witness for C10: the list [S1 failing `verifyTrue`, S2 passing] writes S1 failed with
the Bool message and then S2 passed, and S2 has been run; the four kinds of record at
concrete scenarios; and a failure whose message holds a NUL character is written up to
that character, after which the next scenario is run and recorded. -/
theorem runScenarios_records_witness :
    (runScenarios [failingScenario "S1".toList, passingScenario "S2".toList] []).2 =
      ("Scenario failed: S1\n    Bool verification failed.\n        Expected: true\n" ++
        "Scenario passed: S2\n").toList ∧
    ((runScenarios [failingScenario "S1".toList, passingScenario "S2".toList] []).1.map
      ScenarioBase.passed) = [some false, some true] ∧
    outcomeRecord (passingScenario "S2".toList) =
      "Scenario passed: ".toList ++ (passingScenario "S2".toList).description ++
        "\n".toList ∧
    outcomeRecord (swallowingScenario "S3".toList) =
      "Scenario failed: ".toList ++ (swallowingScenario "S3".toList).description ++
        "\n".toList ∧
    outcomeRecord (failingScenario "S1".toList) =
      "Scenario failed: ".toList ++ (failingScenario "S1".toList).description ++
        "\n".toList ++ (VerificationException.bool true).what ∧
    outcomeRecord (throwingScenario "S4".toList) =
      "Scenario failed unexpectedly: ".toList ++
        (throwingScenario "S4".toList).description ++ "\n".toList ∧
    (runScenarios [embeddedNulScenario "S5".toList, passingScenario "S2".toList] []).2 =
      ("Scenario failed: S5\n    Equal verification failed.\n        Expected: a" ++
        "Scenario passed: S2\n").toList :=
  ⟨by
      rw [(runScenarios_records [failingScenario "S1".toList, passingScenario "S2".toList]
        []).1]
      decide,
    by
      rw [(runScenarios_records [failingScenario "S1".toList, passingScenario "S2".toList]
        []).2.1]
      decide,
    (runScenarios_records [] []).2.2.1 (passingScenario "S2".toList) rfl rfl,
    (runScenarios_records [] []).2.2.2.1 (swallowingScenario "S3".toList) rfl rfl,
    (runScenarios_records [] []).2.2.2.2.1 (failingScenario "S1".toList) (.bool true) rfl,
    (runScenarios_records [] []).2.2.2.2.2 (throwingScenario "S4".toList) rfl,
    by
      rw [(runScenarios_records [embeddedNulScenario "S5".toList,
        passingScenario "S2".toList] []).1]
      decide⟩

/-! ## Order of registration -/

theorem WellFormed.top_lt {m : ScenarioManager} (h : WellFormed m) {c : Nat}
    (hc : c ∈ m.mTopLevelCategories) : c < m.heap.length := by
  have : c ∈ m.slots := by simp [ScenarioManager.slots, hc]
  simpa using h.slots_perm.mem_iff.mp this

theorem WellFormed.child_lt {m : ScenarioManager} (h : WellFormed m) {i c : Nat}
    {cat : Category} (hi : m.heap[i]? = some cat) (hc : c ∈ cat.mChildCategories) :
    c < m.heap.length := by
  have : c ∈ m.slots := by
    simp only [ScenarioManager.slots, List.mem_append, List.mem_flatten, List.mem_map]
    exact Or.inr ⟨_, ⟨cat, List.mem_iff_getElem?.mpr ⟨i, hi⟩, rfl⟩, hc⟩
  simpa using h.slots_perm.mem_iff.mp this

theorem pairwise_concat_lt {l : List Nat} {n : Nat} (hl : l.Pairwise (· < ·))
    (hn : ∀ c ∈ l, c < n) : (l ++ [n]).Pairwise (· < ·) := by
  rw [List.pairwise_append]
  refine ⟨hl, by simp, ?_⟩
  intro a ha b hb
  simp only [List.mem_singleton] at hb
  subst hb
  exact hn a ha

theorem ordered_empty : Ordered ScenarioManager.empty where
  top := by simp [ScenarioManager.empty]
  children := by intro i cat h; simp [ScenarioManager.empty] at h

theorem lookupOrCreate_ordered {m : ScenarioManager} (h : WellFormed m) (ho : Ordered m)
    (prev : Option Nat) (key nm : Str) : Ordered (lookupOrCreate m prev key nm).2 := by
  cases hk : m.find key with
  | some id => rw [lookupOrCreate_found hk]; exact ho
  | none =>
    cases prev with
    | none =>
      rw [lookupOrCreate_new_none nm hk]
      refine ⟨pairwise_concat_lt ho.top (fun c hc => h.top_lt hc), ?_⟩
      intro i cat hi
      simp only [getElem?_append_new] at hi
      by_cases hlt : i < m.heap.length
      · simp only [hlt, if_true] at hi
        exact ho.children i cat hi
      · by_cases he : i = m.heap.length
        · simp only [he, lt_irrefl, if_false, if_true, Option.some.injEq] at hi
          subst hi
          simp [Category.new]
        · simp [hlt, he] at hi
    | some p =>
      rw [lookupOrCreate_new_some nm p hk]
      refine ⟨ho.top, ?_⟩
      intro i cat hi
      simp only [getElem?_updateAt, getElem?_append_new] at hi
      by_cases hlt : i < m.heap.length
      · simp only [hlt, if_true] at hi
        by_cases hip : i = p
        · simp only [hip, if_true] at hi
          obtain ⟨cat0, h0, rfl⟩ := Option.map_eq_some'.mp hi
          exact pairwise_concat_lt (ho.children p cat0 h0) (fun c hc => h.child_lt h0 hc)
        · simp only [hip, if_false] at hi
          exact ho.children i cat hi
      · by_cases he : i = m.heap.length
        · simp only [he, lt_irrefl, if_false, if_true] at hi
          by_cases hip : m.heap.length = p
          · simp only [hip, if_true, Option.map_some', Option.some.injEq] at hi
            subst hi
            simp [Category.new, Category.pushChild]
          · simp only [hip, if_false, Option.some.injEq] at hi
            subst hi
            simp [Category.new]
        · simp [hlt, he] at hi

theorem registerSegments_ordered (segs : List (Str × Str)) :
    ∀ (st : Option Nat × ScenarioManager), WellFormed st.2 → Ordered st.2 →
      (∀ p, st.1 = some p → p < st.2.heap.length) →
      (∀ seg ∈ segs, seg.2 = lastSegment seg.1) →
      Ordered (registerSegments segs st).2 := by
  induction segs with
  | nil => intro st _ ho _ _; exact ho
  | cons s segs ih =>
    intro st h ho hp hs
    rw [registerSegments_cons]
    obtain ⟨h1, h2⟩ := lookupOrCreate_wellFormed h hp (hs s (List.mem_cons_self _ _))
    exact ih _ h1 (lookupOrCreate_ordered h ho _ _ _) h2
      (fun seg hseg => hs seg (List.mem_cons_of_mem _ hseg))

theorem registerCategory_ordered {m : ScenarioManager} (h : WellFormed m) (ho : Ordered m)
    (name : Str) : Ordered (m.registerCategory name).2 := by
  cases hf : find_first_not_of name ['/'] 0 with
  | none => simpa [ScenarioManager.registerCategory, hf] using ho
  | some bp =>
    rw [registerCategory_eq_of_find hf]
    exact registerSegments_ordered _ (none, m) h ho (by simp) (scanPath_lastSegment hf)

theorem registerAll_ordered (paths : List Str) :
    ∀ {m : ScenarioManager}, WellFormed m → Ordered m → Ordered (m.registerAll paths) := by
  induction paths with
  | nil => intro m _ ho; exact ho
  | cons path paths ih =>
    intro m h ho
    exact ih (registerCategory_wellFormed h path) (registerCategory_ordered h ho path)

theorem mem_keys_of_find {m : ScenarioManager} {key : Str} {id : Nat}
    (h : m.find key = some id) : key ∈ m.mAllCategories.map Prod.fst :=
  List.mem_map.mpr ⟨(key, id), mem_of_lookup h, rfl⟩

theorem lookupOrCreate_keys (m : ScenarioManager) (prev : Option Nat) (key nm : Str) :
    (lookupOrCreate m prev key nm).2.mAllCategories.map Prod.fst =
      if key ∈ m.mAllCategories.map Prod.fst then m.mAllCategories.map Prod.fst
      else m.mAllCategories.map Prod.fst ++ [key] := by
  cases hk : m.find key with
  | some id => rw [lookupOrCreate_found hk, if_pos (mem_keys_of_find hk)]
  | none =>
    rw [(lookupOrCreate_new prev nm hk).2, if_neg (not_mem_keys_of_find_none hk)]
    simp

theorem registerSegments_keys (segs : List (Str × Str)) :
    ∀ st : Option Nat × ScenarioManager,
      (registerSegments segs st).2.mAllCategories.map Prod.fst =
        addNew (st.2.mAllCategories.map Prod.fst) (segs.map Prod.fst) := by
  induction segs with
  | nil => intro st; rfl
  | cons s segs ih =>
    intro st
    rw [registerSegments_cons, ih, lookupOrCreate_keys]
    rfl

theorem length_pathPrefixes (segs : List Str) : (pathPrefixes segs).length = segs.length := by
  induction segs with
  | nil => rfl
  | cons s rest ih => simp [pathPrefixes, ih]

theorem registerCategory_keys_valid (m : ScenarioManager) {segs : List Str}
    (h : ValidSegments segs) :
    (m.registerCategory (joinPath segs)).2.mAllCategories.map Prod.fst =
      addNew (m.mAllCategories.map Prod.fst) (pathPrefixes segs) := by
  rw [registerCategory_eq_of_find (find_first_not_of_joinPath h), scanPath_joinPath h,
    registerSegments_keys, List.map_fst_zip]
  rw [length_pathPrefixes]

theorem registerAll_keys_valid (segss : List (List Str)) :
    ∀ m : ScenarioManager, (∀ segs ∈ segss, ValidSegments segs) →
      (m.registerAll (segss.map joinPath)).mAllCategories.map Prod.fst =
        segss.foldl (fun seen segs => addNew seen (pathPrefixes segs))
          (m.mAllCategories.map Prod.fst) := by
  induction segss with
  | nil => intro m _; rfl
  | cons segs segss ih =>
    intro m h
    simp only [List.map_cons, List.foldl_cons, ScenarioManager.registerAll]
    have := ih (m.registerCategory (joinPath segs)).2
      (fun x hx => h x (List.mem_cons_of_mem _ hx))
    rw [registerCategory_keys_valid m (h segs (List.mem_cons_self _ _))] at this
    exact this

theorem WellFormed.length_table {m : ScenarioManager} (h : WellFormed m) :
    m.mAllCategories.length = m.heap.length := by
  have := congrArg List.length h.table_nodes
  simpa using this

theorem WellFormed.find_key_at {m : ScenarioManager} (h : WellFormed m) {id : Nat}
    (hid : id < m.heap.length) :
    m.find ((m.mAllCategories.map Prod.fst)[id]?.getD []) = some id := by
  have hlt : id < m.mAllCategories.length := by rw [h.length_table]; exact hid
  have hsnd : (m.mAllCategories.map Prod.snd)[id]? = some id := by
    rw [h.table_nodes]
    exact List.getElem?_range hid
  have hget : m.mAllCategories[id]? = some m.mAllCategories[id] :=
    List.getElem?_eq_getElem hlt
  rw [List.getElem?_map, hget] at hsnd
  simp only [Option.map_some', Option.some.injEq] at hsnd
  rw [List.getElem?_map, hget]
  simp only [Option.map_some', Option.getD_some]
  apply lookup_of_mem_of_nodup h.table_keys
  have hmem : m.mAllCategories[id] ∈ m.mAllCategories := List.getElem_mem _
  have e : m.mAllCategories[id] = ((m.mAllCategories[id]).1, id) :=
    Prod.ext rfl hsnd
  rw [← e]
  exact hmem

theorem map_getElem?_range_length (order : List Str) :
    (List.range order.length).map (fun i => order[i]?.getD []) = order := by
  apply List.ext_getElem?
  intro i
  by_cases hi : i < order.length
  · simp [List.getElem?_range hi, hi]
  · rw [List.getElem?_eq_none (by simpa using hi), List.getElem?_eq_none (by simpa using hi)]

/-- The full paths of the members of an increasing list of category pointers, taken in list
order, are a subsequence of the table keys taken in order of insertion. -/
theorem WellFormed.names_sublist {m : ScenarioManager} (h : WellFormed m) {l : List Nat}
    (hl : l.Pairwise (· < ·)) (hlt : ∀ c ∈ l, c < m.heap.length) :
    ∃ names : List Str, List.Forall₂ (fun id name => m.find name = some id) l names ∧
      names.Sublist (m.mAllCategories.map Prod.fst) := by
  have hsub : l.Sublist (List.range m.heap.length) := by
    apply List.sublist_of_subperm_of_sorted (r := (· < ·))
    · exact List.Nodup.subperm hl.nodup (fun c hc => by simpa using hlt c hc)
    · exact hl
    · exact List.sorted_lt_range _
  refine ⟨l.map (fun i => (m.mAllCategories.map Prod.fst)[i]?.getD []), ?_, ?_⟩
  · rw [List.forall₂_map_right_iff, List.forall₂_same]
    intro id hid
    exact h.find_key_at (hlt id hid)
  · have := hsub.map (fun i => (m.mAllCategories.map Prod.fst)[i]?.getD [])
    have e := map_getElem?_range_length (m.mAllCategories.map Prod.fst)
    rw [List.length_map, h.length_table] at e
    rw [e] at this
    exact this

/-- C7. Tree shape. From the empty registry, `a/b/c` followed by `a/b/d` gives one
top-level category `a` (pointer 0), whose only child is `b` (pointer 1), whose children are
`c` then `d` (pointers 2 and 3), these two without children. In general, after any sequence
of valid paths, the full paths of the members of the top-level list and of every child
list, taken in list order, form a subsequence of the duplicate-free list of full paths in
first-registration order. -/
theorem tree_shape :
    ((ScenarioManager.empty.registerAll
        ["a/b/c".toList, "a/b/d".toList]).mTopLevelCategories = [0] ∧
      (ScenarioManager.empty.registerAll ["a/b/c".toList, "a/b/d".toList]).heap.map
          (fun c => (c.mName, c.mChildCategories)) =
        [("a".toList, [1]), ("b".toList, [2, 3]), ("c".toList, []), ("d".toList, [])]) ∧
    (∀ segss : List (List Str), (∀ segs ∈ segss, ValidSegments segs) →
      (registrationOrder segss).Nodup ∧
      ∀ l : List Nat,
        (l = (ScenarioManager.empty.registerAll (segss.map joinPath)).mTopLevelCategories ∨
          ∃ cat ∈ (ScenarioManager.empty.registerAll (segss.map joinPath)).heap,
            l = cat.mChildCategories) →
        ∃ names : List Str,
          List.Forall₂
            (fun id name =>
              (ScenarioManager.empty.registerAll (segss.map joinPath)).find name = some id)
            l names ∧
          names.Sublist (registrationOrder segss)) := by
  refine ⟨⟨by decide, by decide⟩, ?_⟩
  intro segss hv
  have hw := registerAll_wellFormed (segss.map joinPath) wellFormed_empty
  have ho := registerAll_ordered (segss.map joinPath) wellFormed_empty ordered_empty
  have hkeys : (ScenarioManager.empty.registerAll (segss.map joinPath)).mAllCategories.map
      Prod.fst = registrationOrder segss := registerAll_keys_valid segss _ hv
  refine ⟨by rw [← hkeys]; exact hw.table_keys, ?_⟩
  intro l hl
  rw [← hkeys]
  rcases hl with rfl | ⟨cat, hcat, rfl⟩
  · exact hw.names_sublist ho.top (fun c hc => hw.top_lt hc)
  · obtain ⟨i, hi⟩ := List.mem_iff_getElem?.mp hcat
    exact hw.names_sublist (ho.children i cat hi) (fun c hc => hw.child_lt hi hc)

/-- Witness for C7 at the two paths of the claim, given by their segments: they are valid,
their first-registration order is `a`, `a/b`, `a/b/c`, `a/b/d`, and the children of `b`,
in order, are the categories of `a/b/c` and `a/b/d`. -/
theorem tree_shape_witness :
    (∀ segs ∈ [["a".toList, "b".toList, "c".toList], ["a".toList, "b".toList, "d".toList]],
      ValidSegments segs) ∧
    registrationOrder
        [["a".toList, "b".toList, "c".toList], ["a".toList, "b".toList, "d".toList]] =
      ["a".toList, "a/b".toList, "a/b/c".toList, "a/b/d".toList] ∧
    (registrationOrder
      [["a".toList, "b".toList, "c".toList], ["a".toList, "b".toList, "d".toList]]).Nodup ∧
    ∃ names : List Str,
      List.Forall₂
        (fun id name =>
          (ScenarioManager.empty.registerAll
            ([["a".toList, "b".toList, "c".toList],
              ["a".toList, "b".toList, "d".toList]].map joinPath)).find name = some id)
        [2, 3] names ∧
      names.Sublist (registrationOrder
        [["a".toList, "b".toList, "c".toList], ["a".toList, "b".toList, "d".toList]]) := by
  have hv : ∀ segs ∈
      [["a".toList, "b".toList, "c".toList], ["a".toList, "b".toList, "d".toList]],
      ValidSegments segs := by
    intro segs hs
    simp only [List.mem_cons, List.mem_singleton, List.not_mem_nil, or_false] at hs
    rcases hs with rfl | rfl <;> exact ⟨by decide, by decide⟩
  refine ⟨hv, by decide, (tree_shape.2 _ hv).1, ?_⟩
  have hheap : (ScenarioManager.empty.registerAll
      ([["a".toList, "b".toList, "c".toList],
        ["a".toList, "b".toList, "d".toList]].map joinPath)).heap =
      [⟨"a".toList, [1], []⟩, ⟨"b".toList, [2, 3], []⟩, ⟨"c".toList, [], []⟩,
        ⟨"d".toList, [], []⟩] := rfl
  exact (tree_shape.2 _ hv).2 [2, 3] (Or.inr ⟨⟨"b".toList, [2, 3], []⟩, by
    rw [hheap]
    exact List.mem_cons_of_mem _ (List.mem_cons_self _ _), rfl⟩)

/-! ## Effect of one call on the forest -/

theorem lookupOrCreate_childrenAt_new {m : ScenarioManager} {prev : Option Nat}
    (hp : ∀ p, prev = some p → p < m.heap.length) {key : Str} (nm : Str)
    (hk : m.find key = none) (x : Nat) :
    (lookupOrCreate m prev key nm).2.childrenAt x =
      if prev = some x then m.childrenAt x ++ [m.heap.length] else m.childrenAt x := by
  cases prev with
  | none =>
    rw [lookupOrCreate_new_none nm hk]
    simp only [ScenarioManager.childrenAt, getElem?_append_new, if_false]
    by_cases hlt : x < m.heap.length
    · simp [hlt]
    · by_cases he : x = m.heap.length
      · have : m.heap[x]? = none := List.getElem?_eq_none (by omega)
        simp [he, Category.new]
      · have : m.heap[x]? = none := List.getElem?_eq_none (by omega)
        simp [hlt, he, this]
  | some p =>
    have hpn := hp p rfl
    rw [lookupOrCreate_new_some nm p hk]
    simp only [ScenarioManager.childrenAt, getElem?_updateAt, getElem?_append_new,
      Option.some.injEq]
    by_cases hxp : x = p
    · subst hxp
      have hget : m.heap[x]? = some m.heap[x] := List.getElem?_eq_getElem hpn
      simp [hpn, hget, Category.pushChild]
    · have hpx : ¬ p = x := fun h => hxp h.symm
      simp only [hxp, hpx, if_false]
      by_cases hlt : x < m.heap.length
      · simp [hlt]
      · by_cases he : x = m.heap.length
        · have : m.heap[x]? = none := List.getElem?_eq_none (by omega)
          simp [he, Category.new]
        · have : m.heap[x]? = none := List.getElem?_eq_none (by omega)
          simp [hlt, he, this]

theorem lookupOrCreate_nameAt_old (m : ScenarioManager) (prev : Option Nat) (key nm : Str)
    {x : Nat} (hx : x < m.heap.length) :
    (lookupOrCreate m prev key nm).2.nameAt x = m.nameAt x := by
  cases hk : m.find key with
  | some id => rw [lookupOrCreate_found hk]
  | none =>
    have hget : m.heap[x]? = some m.heap[x] := List.getElem?_eq_getElem hx
    cases prev with
    | none =>
      rw [lookupOrCreate_new_none nm hk]
      simp [ScenarioManager.nameAt, getElem?_append_new, hx]
    | some p =>
      rw [lookupOrCreate_new_some nm p hk]
      simp only [ScenarioManager.nameAt, getElem?_updateAt, getElem?_append_new, hx, if_true,
        hget]
      by_cases hxp : x = p <;> simp [hxp, Category.pushChild]

theorem lookupOrCreate_nameAt_new {m : ScenarioManager} {prev : Option Nat}
    (hp : ∀ p, prev = some p → p < m.heap.length) {key : Str} (nm : Str)
    (hk : m.find key = none) :
    (lookupOrCreate m prev key nm).2.nameAt m.heap.length = some nm := by
  cases prev with
  | none =>
    rw [lookupOrCreate_new_none nm hk]
    simp [ScenarioManager.nameAt, getElem?_append_new, Category.new]
  | some p =>
    have hpn := hp p rfl
    rw [lookupOrCreate_new_some nm p hk]
    have : m.heap.length ≠ p := by omega
    simp [ScenarioManager.nameAt, getElem?_updateAt, getElem?_append_new, this, Category.new]

theorem lookupOrCreate_length_le (m : ScenarioManager) (prev : Option Nat) (key nm : Str) :
    m.heap.length ≤ (lookupOrCreate m prev key nm).2.heap.length := by
  cases hk : m.find key with
  | some id => rw [lookupOrCreate_found hk]
  | none =>
    cases prev with
    | none => rw [lookupOrCreate_new_none nm hk]; simp
    | some p => rw [lookupOrCreate_new_some nm p hk]; simp [length_updateAt]

theorem lookupOrCreate_top_some (m : ScenarioManager) (p : Nat) (key nm : Str) :
    (lookupOrCreate m (some p) key nm).2.mTopLevelCategories = m.mTopLevelCategories := by
  cases hk : m.find key with
  | some id => rw [lookupOrCreate_found hk]
  | none => rw [lookupOrCreate_new_some nm p hk]

theorem lookupOrCreate_find_other {m : ScenarioManager} (prev : Option Nat) {key : Str}
    (nm : Str) {k : Str} (hne : k ≠ key) :
    (lookupOrCreate m prev key nm).2.find k = m.find k := by
  cases hk : m.find key with
  | some id => rw [lookupOrCreate_found hk]
  | none =>
    have h2 := (lookupOrCreate_new prev nm hk).2
    simp only [ScenarioManager.find, h2, List.lookup_append]
    have : List.lookup k [(key, m.heap.length)] = none := by
      have hb : (k == key) = false := by simpa using hne
      simp [List.lookup_cons, hb]
    rw [this]
    cases List.lookup k m.mAllCategories <;> rfl

theorem lookupOrCreate_childrenAt_other {m : ScenarioManager} {prev : Option Nat}
    (hp : ∀ p, prev = some p → p < m.heap.length) (key nm : Str) {x : Nat}
    (hx : prev ≠ some x) :
    (lookupOrCreate m prev key nm).2.childrenAt x = m.childrenAt x := by
  cases hk : m.find key with
  | some id => rw [lookupOrCreate_found hk]
  | none => rw [lookupOrCreate_childrenAt_new hp nm hk, if_neg hx]

theorem registerSegments_length_le (segs : List (Str × Str)) :
    ∀ st : Option Nat × ScenarioManager,
      st.2.heap.length ≤ (registerSegments segs st).2.heap.length := by
  induction segs with
  | nil => intro st; exact le_refl _
  | cons s segs ih =>
    intro st
    rw [registerSegments_cons]
    exact le_trans (lookupOrCreate_length_le _ _ _ _) (ih _)

theorem registerSegments_nameAt_old (segs : List (Str × Str)) :
    ∀ (st : Option Nat × ScenarioManager) {x : Nat}, x < st.2.heap.length →
      (registerSegments segs st).2.nameAt x = st.2.nameAt x := by
  induction segs with
  | nil => intro st x _; rfl
  | cons s segs ih =>
    intro st x hx
    rw [registerSegments_cons,
      ih _ (lt_of_lt_of_le hx (lookupOrCreate_length_le _ _ _ _)),
      lookupOrCreate_nameAt_old _ _ _ _ hx]

theorem registerSegments_top_some (segs : List (Str × Str)) :
    ∀ (p : Nat) (m : ScenarioManager),
      (registerSegments segs (some p, m)).2.mTopLevelCategories = m.mTopLevelCategories := by
  induction segs with
  | nil => intro p m; rfl
  | cons s segs ih =>
    intro p m
    rw [registerSegments_cons]
    obtain ⟨id, h1, -⟩ := lookupOrCreate_find_self m (some p) s.1 s.2
    have e : lookupOrCreate m (some p) s.1 s.2 =
        (some id, (lookupOrCreate m (some p) s.1 s.2).2) := Prod.ext h1 rfl
    simp only
    rw [e, ih, lookupOrCreate_top_some]

/-- A category that is neither the previous category nor the category of a scanned full
name keeps its child list. -/
theorem registerSegments_childrenAt_frame (segs : List (Str × Str)) :
    ∀ (st : Option Nat × ScenarioManager) (x : Nat), WellFormed st.2 →
      (∀ p, st.1 = some p → p < st.2.heap.length) →
      (∀ seg ∈ segs, seg.2 = lastSegment seg.1) →
      st.1 ≠ some x →
      (∀ seg ∈ segs, (registerSegments segs st).2.find seg.1 ≠ some x) →
      (registerSegments segs st).2.childrenAt x = st.2.childrenAt x := by
  induction segs with
  | nil => intro st x _ _ _ _ _; rfl
  | cons s segs ih =>
    intro st x hw hp hs hx hfin
    rw [registerSegments_cons] at hfin ⊢
    obtain ⟨hw1, hp1⟩ := lookupOrCreate_wellFormed hw hp (hs s (List.mem_cons_self _ _))
    obtain ⟨id, h1, h2⟩ := lookupOrCreate_find_self st.2 st.1 s.1 s.2
    rw [ih _ x hw1 hp1 (fun seg hseg => hs seg (List.mem_cons_of_mem _ hseg)) ?_
      (fun seg hseg => hfin seg (List.mem_cons_of_mem _ hseg)),
      lookupOrCreate_childrenAt_other hp _ _ hx]
    rw [h1]
    intro hc
    cases hc
    exact hfin s (List.mem_cons_self _ _) (registerSegments_find_mono segs _ h2)

/-- A pointer to a category that existed before the steps is the entry of the same full
name before and after them. -/
theorem find_old_of_find {m fin : ScenarioManager} (hw : WellFormed m) (hfin : WellFormed fin)
    (hmono : ∀ k id, m.find k = some id → fin.find k = some id) {k : Str} {p : Nat}
    (hp : p < m.heap.length) (hk : fin.find k = some p) : m.find k = some p := by
  obtain ⟨kp, hkp⟩ := hw.exists_key hp
  have := hfin.find_injective hk (hmono kp p hkp)
  rw [this]
  exact hkp

/-- What the steps do for a scanned full name that was not a key: its category is newly
allocated, carries the scanned name, and is the one element appended to the list it belongs
to, the top-level list or the child list of the category of the preceding full name. -/
theorem registerSegments_new_nodes (segs : List (Str × Str)) :
    ∀ (st : Option Nat × ScenarioManager), WellFormed st.2 →
      (∀ p, st.1 = some p → p < st.2.heap.length) →
      (segs.map Prod.fst).Nodup →
      (∀ seg ∈ segs, seg.2 = lastSegment seg.1) →
      (∀ seg ∈ segs, ∀ p, st.1 = some p → st.2.find seg.1 ≠ some p) →
      ∀ (i : Nat) (seg : Str × Str), segs[i]? = some seg → st.2.find seg.1 = none →
        ∃ id, (registerSegments segs st).2.find seg.1 = some id ∧
          st.2.heap.length ≤ id ∧
          (registerSegments segs st).2.nameAt id = some seg.2 ∧
          (i = 0 →
            (st.1 = none → (registerSegments segs st).2.mTopLevelCategories =
              st.2.mTopLevelCategories ++ [id]) ∧
            (∀ p, st.1 = some p → (registerSegments segs st).2.childrenAt p =
              st.2.childrenAt p ++ [id])) ∧
          (∀ (j : Nat) (segp : Str × Str), i = j + 1 → segs[j]? = some segp →
            ∃ parent, (registerSegments segs st).2.find segp.1 = some parent ∧
              (registerSegments segs st).2.childrenAt parent =
                st.2.childrenAt parent ++ [id]) := by
  induction segs with
  | nil => intro st _ _ _ _ _ i seg hi; simp at hi
  | cons s rest ih =>
    intro st hw hp hnd hs hprev i seg hi hk
    have hwfin := (registerSegments_wellFormed (s :: rest) st hw hp hs).1
    have hmono : ∀ k id, st.2.find k = some id →
        (registerSegments (s :: rest) st).2.find k = some id :=
      fun k id h => registerSegments_find_mono (s :: rest) st h
    obtain ⟨hw1, hp1⟩ := lookupOrCreate_wellFormed hw hp (hs s (List.mem_cons_self _ _))
    obtain ⟨id0, h1, h2⟩ := lookupOrCreate_find_self st.2 st.1 s.1 s.2
    have hsrest : ∀ seg ∈ rest, seg.2 = lastSegment seg.1 :=
      fun seg hseg => hs seg (List.mem_cons_of_mem _ hseg)
    simp only [List.map_cons, List.nodup_cons] at hnd
    have hst1 : lookupOrCreate st.2 st.1 s.1 s.2 =
        (some id0, (lookupOrCreate st.2 st.1 s.1 s.2).2) := Prod.ext h1 rfl
    -- the previous category is never the category of the first full name
    have hprev0 : st.1 ≠ some id0 := by
      intro hc
      cases hkf : st.2.find s.1 with
      | some idf =>
        rw [lookupOrCreate_found hkf] at h1
        cases h1
        exact hprev s (List.mem_cons_self _ _) _ hc hkf
      | none =>
        rw [(lookupOrCreate_new st.1 s.2 hkf).1] at h1
        cases h1
        have := hp _ hc
        omega
    rw [registerSegments_cons] at hwfin hmono ⊢
    cases i with
    | zero =>
      simp only [List.getElem?_cons_zero, Option.some.injEq] at hi
      subst hi
      have hn := (lookupOrCreate_new st.1 s.2 hk).1
      rw [h1] at hn
      cases hn
      refine ⟨st.2.heap.length, registerSegments_find_mono rest _ h2, le_refl _, ?_, ?_, ?_⟩
      · rw [registerSegments_nameAt_old rest _ (hp1 _ h1)]
        exact lookupOrCreate_nameAt_new hp s.2 hk
      · intro _
        refine ⟨?_, ?_⟩
        · intro hnone
          rw [hst1, registerSegments_top_some]
          rw [hnone, lookupOrCreate_new_none s.2 hk]
        · intro p hpp
          have hplt := hp p hpp
          rw [registerSegments_childrenAt_frame rest _ p hw1 hp1 hsrest]
          · rw [lookupOrCreate_childrenAt_new hp s.2 hk, if_pos hpp]
          · rw [h1]
            intro hc
            cases hc
            omega
          · intro seg hseg hc
            exact hprev seg (List.mem_cons_of_mem _ hseg) p hpp
              (find_old_of_find hw hwfin hmono hplt hc)
      · intro j segp hj
        omega
    | succ j =>
      simp only [List.getElem?_cons_succ] at hi
      have hmem : seg ∈ rest := List.mem_iff_getElem?.mpr ⟨_, hi⟩
      have hne : seg.1 ≠ s.1 := by
        intro hc
        exact hnd.1 (List.mem_map.mpr ⟨seg, hmem, hc⟩)
      have hk1 : (lookupOrCreate st.2 st.1 s.1 s.2).2.find seg.1 = none := by
        rw [lookupOrCreate_find_other st.1 s.2 hne]
        exact hk
      have hprev1 : ∀ seg2 ∈ rest, ∀ p, (lookupOrCreate st.2 st.1 s.1 s.2).1 = some p →
          (lookupOrCreate st.2 st.1 s.1 s.2).2.find seg2.1 ≠ some p := by
        intro seg2 hseg2 p hpp hc
        rw [h1] at hpp
        cases hpp
        have := hw1.find_injective hc h2
        exact hnd.1 (List.mem_map.mpr ⟨seg2, hseg2, this⟩)
      obtain ⟨id, hf, hle, hname, hzero, hsucc⟩ :=
        ih _ hw1 hp1 hnd.2 hsrest hprev1 j seg hi hk1
      refine ⟨id, hf, le_trans (lookupOrCreate_length_le _ _ _ _) hle, hname, ?_, ?_⟩
      · intro hc
        omega
      · intro j2 segp hj2 hsegp
        have hjj : j2 = j := by omega
        subst hjj
        cases j2 with
        | zero =>
          simp only [List.getElem?_cons_zero, Option.some.injEq] at hsegp
          subst hsegp
          refine ⟨id0, registerSegments_find_mono rest _ h2, ?_⟩
          rw [(hzero rfl).2 id0 h1, lookupOrCreate_childrenAt_other hp _ _ hprev0]
        | succ j3 =>
          simp only [List.getElem?_cons_succ] at hsegp
          obtain ⟨parent, hpf, hpc⟩ := hsucc j3 segp rfl hsegp
          refine ⟨parent, hpf, ?_⟩
          rw [hpc, lookupOrCreate_childrenAt_other hp]
          intro hc
          have hplt := hp parent hc
          exact hprev segp (List.mem_cons_of_mem _ (List.mem_iff_getElem?.mpr ⟨_, hsegp⟩)) parent hc
            (find_old_of_find hw hwfin hmono hplt hpf)

/-! ## Registries built through the public calls -/

theorem registerScenario_wellFormed {m : ScenarioManager} (h : WellFormed m) (category : Nat)
    (scenario : ScenarioBase) : WellFormed (m.registerScenario category scenario) where
  table_nodes := by simp [ScenarioManager.registerScenario, length_updateAt, h.table_nodes]
  table_keys := h.table_keys
  child_later := by
    intro i c cat hi hc
    simp only [ScenarioManager.registerScenario, getElem?_updateAt] at hi
    by_cases hic : i = category
    · simp only [hic, if_true] at hi
      obtain ⟨cat0, h0, rfl⟩ := Option.map_eq_some'.mp hi
      rw [hic]
      exact h.child_later _ c cat0 h0 hc
    · simp only [hic, if_false] at hi
      exact h.child_later i c cat hi hc
  slots_perm := by
    have e : (updateAt (fun c => (c.registerScenario scenario).2) m.heap category).map
        Category.mChildCategories = m.heap.map Category.mChildCategories :=
      map_updateAt_of_eq (fun c => (c.registerScenario scenario).2) Category.mChildCategories
        (fun a => rfl) _ _
    simp only [ScenarioManager.slots, ScenarioManager.registerScenario, e, length_updateAt]
    exact h.slots_perm
  names := by
    intro key id hmem
    obtain ⟨cat, hc, hname⟩ := h.names key id hmem
    simp only [ScenarioManager.registerScenario, getElem?_updateAt]
    by_cases hic : id = category
    · subst hic
      exact ⟨(cat.registerScenario scenario).2, by simp [hc], hname⟩
    · exact ⟨cat, by simp [hic, hc], hname⟩

theorem call_wellFormed {m : ScenarioManager} (h : WellFormed m) (c : RegistryCall) :
    WellFormed (m.call c) := by
  cases c with
  | registerCategory path => exact registerCategory_wellFormed h path
  | registerScenario category scenario => exact registerScenario_wellFormed h category scenario

theorem foldl_call_wellFormed (calls : List RegistryCall) :
    ∀ {m : ScenarioManager}, WellFormed m →
      WellFormed (calls.foldl ScenarioManager.call m) := by
  induction calls with
  | nil => intro m h; exact h
  | cons c calls ih => intro m h; exact ih (call_wellFormed h c)

/-- Every registry built through the public calls is well formed. -/
theorem build_wellFormed (calls : List RegistryCall) :
    WellFormed (ScenarioManager.build calls) :=
  foldl_call_wellFormed calls wellFormed_empty

/-! ## Registering a valid path -/

theorem nodup_pathPrefixes (segs : List Str) : (pathPrefixes segs).Nodup := by
  induction segs with
  | nil => simp [pathPrefixes]
  | cons s rest ih =>
    simp only [pathPrefixes, List.nodup_cons]
    refine ⟨?_, ?_⟩
    · intro hmem
      obtain ⟨p, -, hp⟩ := List.mem_map.mp hmem
      have := congrArg List.length hp
      simp at this
    · apply List.Nodup.map _ ih
      intro a b hab
      simpa using hab

theorem getLast?_pathPrefixes (segs : List Str) (h : segs ≠ []) :
    (pathPrefixes segs).getLast? = some (joinPath segs) := by
  induction segs with
  | nil => exact absurd rfl h
  | cons s rest ih =>
    cases rest with
    | nil => simp [pathPrefixes, joinPath]
    | cons t rest2 =>
      have h1 := ih (by simp)
      have e : pathPrefixes (s :: t :: rest2) =
          s :: (pathPrefixes (t :: rest2)).map (fun p => s ++ '/' :: p) := rfl
      have hne : (pathPrefixes (t :: rest2)).map (fun p => s ++ '/' :: p) ≠ [] := by
        simp [pathPrefixes]
      rw [e, List.getLast?_cons, List.getLast?_map, h1]
      simp [joinPath]

theorem addNew_eq_filter (keys : List Str) :
    ∀ seen : List Str, keys.Nodup →
      addNew seen keys = seen ++ keys.filter (fun k => decide (k ∉ seen)) := by
  induction keys with
  | nil => intro seen _; simp [addNew]
  | cons k keys ih =>
    intro seen hnd
    simp only [List.nodup_cons] at hnd
    have hstep : addNew seen (k :: keys) =
        addNew (if k ∈ seen then seen else seen ++ [k]) keys := rfl
    rw [hstep, ih _ hnd.2]
    by_cases hk : k ∈ seen
    · simp [hk]
    · simp only [hk, if_false, List.filter_cons, not_false_eq_true, decide_True, if_true,
        List.append_assoc, List.singleton_append]
      congr 2
      apply List.filter_congr
      intro x hx
      have : x ≠ k := by
        rintro rfl
        exact hnd.1 hx
      simp [this]

theorem registerSegments_table_append (segs : List (Str × Str)) :
    ∀ st : Option Nat × ScenarioManager,
      ∃ added, (registerSegments segs st).2.mAllCategories = st.2.mAllCategories ++ added := by
  induction segs with
  | nil => intro st; exact ⟨[], by simp [registerSegments]⟩
  | cons s segs ih =>
    intro st
    rw [registerSegments_cons]
    obtain ⟨added, hadd⟩ := ih (lookupOrCreate st.2 st.1 s.1 s.2)
    cases hk : st.2.find s.1 with
    | some id =>
      rw [lookupOrCreate_found hk] at hadd ⊢
      exact ⟨added, hadd⟩
    | none =>
      rw [hadd, (lookupOrCreate_new st.1 s.2 hk).2]
      exact ⟨(s.1, st.2.heap.length) :: added, by simp⟩

theorem mem_keys_iff_find {m : ScenarioManager} {k : Str} :
    k ∈ m.mAllCategories.map Prod.fst ↔ (m.find k).isSome = true := by
  constructor
  · intro h
    cases hk : m.find k with
    | some id => rfl
    | none => exact absurd h (not_mem_keys_of_find_none hk)
  · intro h
    cases hk : m.find k with
    | some id => exact mem_keys_of_find hk
    | none => simp [hk] at h

theorem getElem?_zip_pathPrefixes {segs : List Str} {i : Nat} {key : Str}
    (h : (pathPrefixes segs)[i]? = some key) :
    ∃ seg, segs[i]? = some seg ∧ ((pathPrefixes segs).zip segs)[i]? = some (key, seg) := by
  have hi : i < segs.length := by
    rw [← length_pathPrefixes]
    exact (List.getElem?_eq_some_iff.mp h).1
  refine ⟨segs[i], List.getElem?_eq_getElem hi, ?_⟩
  rw [List.getElem?_zip_eq_some]
  exact ⟨h, List.getElem?_eq_getElem hi⟩

theorem getLast?_zip_pathPrefixes {segs : List Str} (h : segs ≠ []) :
    ∃ last, segs.getLast? = some last ∧
      ((pathPrefixes segs).zip segs).getLast? = some (joinPath segs, last) := by
  have hlen : ((pathPrefixes segs).zip segs).length = segs.length := by
    simp [List.length_zip, length_pathPrefixes]
  have hpp := getLast?_pathPrefixes segs h
  rw [List.getLast?_eq_getElem?, length_pathPrefixes] at hpp
  obtain ⟨seg, hseg, hz⟩ := getElem?_zip_pathPrefixes hpp
  refine ⟨seg, ?_, ?_⟩
  · rw [List.getLast?_eq_getElem?]
    exact hseg
  · rw [List.getLast?_eq_getElem?, hlen]
    exact hz

/-- C5. Registering a valid path `P` (non-empty segments without `/`, joined by single
`/`) in a registry built through the public calls. The call returns the category that the
table holds for `P` afterwards, and that category is named after the last segment. The
table afterwards is the table before followed by new entries whose keys are exactly the
segment-boundary prefixes of `P` that were not keys, in order. For each such prefix, the
`i`-th, its category is newly allocated, is named after the `i`-th segment, and is the one
element appended to the top-level list when `i = 0`, and otherwise to the child list of the
category of the preceding prefix. -/
theorem registerCategory_valid_path (calls : List RegistryCall) (segs : List Str)
    (m : ScenarioManager) (r : RegisterOutcome × ScenarioManager)
    (hv : ValidSegments segs) (hm : m = ScenarioManager.build calls)
    (hr : r = m.registerCategory (joinPath segs)) :
    ∃ node, r.1 = .returned (some node) ∧ r.2.find (joinPath segs) = some node ∧
      r.2.nameAt node = segs.getLast? ∧
      (∃ added, r.2.mAllCategories = m.mAllCategories ++ added ∧
        added.map Prod.fst = (pathPrefixes segs).filter (fun k => (m.find k).isNone)) ∧
      (∀ (i : Nat) (key : Str), (pathPrefixes segs)[i]? = some key → m.find key = none →
        ∃ id, r.2.find key = some id ∧ m.heap.length ≤ id ∧ r.2.nameAt id = segs[i]? ∧
          (i = 0 → r.2.mTopLevelCategories = m.mTopLevelCategories ++ [id]) ∧
          (∀ (j : Nat) (parentKey : Str), i = j + 1 →
            (pathPrefixes segs)[j]? = some parentKey →
            ∃ parent, r.2.find parentKey = some parent ∧
              r.2.childrenAt parent = m.childrenAt parent ++ [id])) := by
  have hw : WellFormed m := by rw [hm]; exact build_wellFormed calls
  have hf := find_first_not_of_joinPath hv
  have hlast : ∀ seg ∈ (pathPrefixes segs).zip segs, seg.2 = lastSegment seg.1 := by
    have := scanPath_lastSegment hf
    rwa [scanPath_joinPath hv] at this
  rw [registerCategory_eq_of_find hf, scanPath_joinPath hv] at hr
  have hwfin := (registerSegments_wellFormed ((pathPrefixes segs).zip segs) (none, m) hw
    (by simp) hlast).1
  have hfst : ((pathPrefixes segs).zip segs).map Prod.fst = pathPrefixes segs := by
    rw [List.map_fst_zip]
    rw [length_pathPrefixes]
  subst hr
  obtain ⟨last, hl1, hl2⟩ := getLast?_zip_pathPrefixes hv.1
  have hmemlast : (joinPath segs, last) ∈ (pathPrefixes segs).zip segs :=
    List.mem_of_getLast?_eq_some hl2
  obtain ⟨node, hnode⟩ := registerSegments_found ((pathPrefixes segs).zip segs) (none, m)
    _ hmemlast
  have hres := registerSegments_result ((pathPrefixes segs).zip segs) (none, m)
  simp only [lastFind, hl2] at hres
  refine ⟨node, ?_, hnode, ?_, ?_, ?_⟩
  · simp only [hres, hnode]
  · obtain ⟨cat, hc, hname⟩ := hwfin.names _ _ (mem_of_lookup hnode)
    simp only [ScenarioManager.nameAt, hc, hname, hl1]
    rw [← hlast _ hmemlast]
  · obtain ⟨added, hadd⟩ := registerSegments_table_append ((pathPrefixes segs).zip segs)
      (none, m)
    refine ⟨added, hadd, ?_⟩
    have hkeys := registerSegments_keys ((pathPrefixes segs).zip segs) (none, m)
    rw [hfst, addNew_eq_filter _ _ (nodup_pathPrefixes segs), hadd, List.map_append] at hkeys
    have := List.append_cancel_left hkeys
    rw [this]
    apply List.filter_congr
    intro k _
    have := @mem_keys_iff_find m k
    cases hk : m.find k with
    | some id =>
      have h1 : k ∈ m.mAllCategories.map Prod.fst := this.mpr (by simp [hk])
      simp [h1]
    | none =>
      have h1 : k ∉ m.mAllCategories.map Prod.fst := fun hc => by
        have := this.mp hc
        simp [hk] at this
      simp [h1]
  · intro i key hi hk
    obtain ⟨seg, hseg, hz⟩ := getElem?_zip_pathPrefixes hi
    obtain ⟨id, h1, h2, h3, h4, h5⟩ :=
      registerSegments_new_nodes ((pathPrefixes segs).zip segs) (none, m) hw (by simp)
        (by rw [hfst]; exact nodup_pathPrefixes segs) hlast (by simp) i (key, seg) hz hk
    refine ⟨id, h1, h2, by rw [h3, hseg], fun h0 => (h4 h0).1 rfl, ?_⟩
    intro j parentKey hij hj
    obtain ⟨segp, -, hzp⟩ := getElem?_zip_pathPrefixes hj
    exact h5 j (parentKey, segp) hij hzp

/-- Witness for C5: registering `a/b/d` after `a/b/c`. The prefixes `a` and `a/b` are
keys already, the only new entry is `a/b/d`, with category 3 named `d`, appended to the
children of the category of `a/b`. -/
theorem registerCategory_valid_path_witness :
    ValidSegments ["a".toList, "b".toList, "d".toList] ∧
    ∃ node,
      ((ScenarioManager.build [.registerCategory "a/b/c".toList]).registerCategory
        (joinPath ["a".toList, "b".toList, "d".toList])).1 = .returned (some node) ∧
      ((ScenarioManager.build [.registerCategory "a/b/c".toList]).registerCategory
        (joinPath ["a".toList, "b".toList, "d".toList])).2.nameAt node = some "d".toList :=
  ⟨⟨by decide, by decide⟩, by
    obtain ⟨node, h1, -, h3, -⟩ := registerCategory_valid_path
      [.registerCategory "a/b/c".toList] ["a".toList, "b".toList, "d".toList] _ _
      ⟨by decide, by decide⟩ rfl rfl
    exact ⟨node, h1, h3⟩⟩

/-! ## The run sweep -/

theorem outcomeRecord_run (s : ScenarioBase) : outcomeRecord s.run.1 = outcomeRecord s := rfl

theorem run_run (s : ScenarioBase) : s.run.1.run.1 = s.run.1 := rfl

theorem Category.ran_ran (c : Category) : c.ran.ran = c.ran := by
  simp [Category.ran, List.map_map, Function.comp_def, run_run]

theorem categoryText_ran (c : Category) : categoryText c.ran = categoryText c := by
  simp [categoryText, Category.ran, List.map_map, Function.comp_def, outcomeRecord_run]

theorem textAt_map_ran (heap : List Category) (id : Nat) :
    textAt (heap.map Category.ran) id = textAt heap id := by
  unfold textAt
  rw [List.getElem?_map]
  cases heap[id]? with
  | none => rfl
  | some c => exact categoryText_ran c

theorem childrenIn_map_ran (heap : List Category) (id : Nat) :
    childrenIn (heap.map Category.ran) id = childrenIn heap id := by
  unfold childrenIn
  rw [List.getElem?_map]
  cases heap[id]? with
  | none => rfl
  | some c => rfl

/-- The effect of one visit on the heap, once the children are done: the category is as
after one run of each of its scenarios, the others are untouched. -/
theorem visit_self_heap {H h1 : List Category} (hH : h1.map Category.ran = H) {id : Nat}
    {c1 : Category} (hc1 : h1[id]? = some c1) :
    (updateAt
      (fun x => { x with mChildScenarios := c1.mChildScenarios.map (fun s => s.run.1) })
      h1 id).map Category.ran = H ∧
    (updateAt
      (fun x => { x with mChildScenarios := c1.mChildScenarios.map (fun s => s.run.1) })
      h1 id)[id]? = H[id]? ∧
    ∀ j : Nat, h1[j]? = H[j]? →
      (updateAt
        (fun x => { x with mChildScenarios := c1.mChildScenarios.map (fun s => s.run.1) })
        h1 id)[j]? = H[j]? := by
  subst hH
  refine ⟨?_, ?_, ?_⟩
  · apply List.ext_getElem?
    intro j
    simp only [List.getElem?_map, getElem?_updateAt]
    by_cases hj : j = id
    · subst hj
      simp only [if_true, hc1, Option.map_some']
      congr 1
      have := Category.ran_ran c1
      simpa [Category.ran, List.map_map, Function.comp_def] using this
    · simp [hj]
  · simp only [List.getElem?_map, getElem?_updateAt, if_true, hc1, Option.map_some']
    rfl
  · intro j hj
    simp only [getElem?_updateAt]
    by_cases hji : j = id
    · subst hji
      simp only [if_true, hc1, Option.map_some', List.getElem?_map]
      rfl
    · simp only [hji, if_false]
      exact hj

theorem visit_self_text {H h1 : List Category} (hH : h1.map Category.ran = H) {id : Nat}
    {c1 : Category} (hc1 : h1[id]? = some c1) (out1 : Str) :
    out1 ++ "---- Running scenarios in: ".toList ++ c1.mName ++ endl ++
      (c1.mChildScenarios.map outcomeRecord).flatten = out1 ++ textAt H id := by
  subst hH
  simp only [textAt, List.getElem?_map, hc1, Option.map_some', categoryText_ran]
  simp [categoryText, List.append_assoc]

theorem RunsTo.nil {H : List Category} {st : List Category × Str}
    (h : st.1.map Category.ran = H) : RunsTo H [] st st :=
  ⟨by simp, h, fun _ hj => hj, by simp⟩

theorem RunsTo.append {H : List Category} {v1 v2 : List Nat}
    {st st1 st2 : List Category × Str} (h1 : RunsTo H v1 st st1) (h2 : RunsTo H v2 st1 st2) :
    RunsTo H (v1 ++ v2) st st2 := by
  obtain ⟨a1, _, c1, d1⟩ := h1
  obtain ⟨a2, b2, c2, d2⟩ := h2
  refine ⟨by rw [a2, a1]; simp, b2, fun j hj => c2 j (c1 j hj), ?_⟩
  intro j hj
  rcases List.mem_append.mp hj with hj | hj
  · exact c2 j (d1 j hj)
  · exact d2 j hj

theorem runCategories_runsTo {H : List Category}
    (run : Nat → List Category × Str → Option (List Category × Str))
    (visit : Nat → List Nat) (L : List Nat) :
    ∀ st : List Category × Str, st.1.map Category.ran = H →
      (∀ c ∈ L, ∀ st1 : List Category × Str, st1.1.map Category.ran = H →
        ∃ st2, run c st1 = some st2 ∧ RunsTo H (visit c) st1 st2) →
      ∃ st2, runCategories run L st = some st2 ∧ RunsTo H (L.flatMap visit) st st2 := by
  induction L with
  | nil => intro st h _; exact ⟨st, rfl, RunsTo.nil h⟩
  | cons c L ih =>
    intro st h hrun
    obtain ⟨st1, hr1, ht1⟩ := hrun c (List.mem_cons_self _ _) st h
    obtain ⟨st2, hr2, ht2⟩ := ih st1 ht1.2.1
      (fun c2 hc2 => hrun c2 (List.mem_cons_of_mem _ hc2))
    refine ⟨st2, ?_, ?_⟩
    · simp only [runCategories, hr1]
      exact hr2
    · rw [List.flatMap_cons]
      exact ht1.append ht2

/-- With enough fuel `Category::run` returns, having visited the categories of
`visitOrder`. -/
theorem Category_run_runsTo {H : List Category} (hcl : ChildLater H) :
    ∀ (fuel id : Nat) (st : List Category × Str), st.1.map Category.ran = H →
      id < H.length → H.length ≤ fuel + id →
      ∃ st2, Category.run fuel id st = some st2 ∧
        RunsTo H (visitOrder (childrenIn H) fuel id) st st2 := by
  intro fuel
  induction fuel with
  | zero => intro id st _ h1 h2; omega
  | succ fuel ih =>
    intro id st hst hid hfuel
    have hlen : st.1.length = H.length := by rw [← hst]; simp
    have hget : st.1[id]? = some st.1[id] := List.getElem?_eq_getElem (by omega)
    have hch : (st.1[id]).mChildCategories = childrenIn H id := by
      subst hst
      simp [childrenIn, hget, Category.ran]
    obtain ⟨st1, hr1, ht1⟩ := runCategories_runsTo (Category.run fuel)
      (visitOrder (childrenIn H) fuel) (st.1[id]).mChildCategories st hst (by
        intro c hc st1 hst1
        rw [hch] at hc
        have := hcl id c hc
        exact ih c st1 hst1 this.2 (by omega))
    have hlen1 : st1.1.length = H.length := by rw [← ht1.2.1]; simp
    have hget1 : st1.1[id]? = some st1.1[id] := List.getElem?_eq_getElem (by omega)
    have hheap := visit_self_heap ht1.2.1 hget1
    refine ⟨(updateAt
        (fun x => { x with mChildScenarios :=
          (st1.1[id]).mChildScenarios.map (fun s => s.run.1) })
        st1.1 id,
      st1.2 ++ "---- Running scenarios in: ".toList ++ (st1.1[id]).mName ++ endl ++
        ((st1.1[id]).mChildScenarios.map outcomeRecord).flatten), ?_, ?_⟩
    · simp only [Category.run, hget, hr1, hget1, runScenarios_stream]
    · simp only [visitOrder]
      rw [← hch]
      refine ht1.append ⟨?_, hheap.1, hheap.2.2, ?_⟩
      · simp only [List.map_cons, List.map_nil, List.flatten_cons, List.flatten_nil,
          List.append_nil]
        exact visit_self_text ht1.2.1 hget1 st1.2
      · intro j hj
        simp only [List.mem_singleton] at hj
        subst hj
        exact hheap.2.1

/-! ## Every category is visited exactly once -/

theorem flatMap_append_self_perm (g : Nat → List Nat) (L : List Nat) :
    (L.flatMap (fun i => g i ++ [i])).Perm (L ++ L.flatMap g) := by
  induction L with
  | nil => simp
  | cons a L ih =>
    simp only [List.flatMap_cons, List.cons_append]
    have h1 : ((g a ++ [a]) ++ L.flatMap (fun i => g i ++ [i])).Perm
        ((g a ++ [a]) ++ (L ++ L.flatMap g)) := List.Perm.append_left _ ih
    refine h1.trans ?_
    simp only [List.append_assoc, List.singleton_append]
    refine List.perm_middle.trans (List.Perm.cons _ ?_)
    rw [← List.append_assoc, ← List.append_assoc]
    exact List.Perm.append_right _ List.perm_append_comm

theorem visitOrder_perm_levels (ch : Nat → List Nat) :
    ∀ (f : Nat) (L : List Nat), (L.flatMap (visitOrder ch f)).Perm (levels ch L f) := by
  intro f
  induction f with
  | zero =>
    intro L
    have : L.flatMap (visitOrder ch 0) = [] := by
      induction L with
      | nil => rfl
      | cons a L ih => simp [visitOrder, ih]
    rw [this]
    exact List.Perm.refl _
  | succ f ih =>
    intro L
    have e : visitOrder ch (f + 1) = fun i => (ch i).flatMap (visitOrder ch f) ++ [i] := by
      funext i
      rfl
    rw [e]
    refine (flatMap_append_self_perm _ L).trans ?_
    simp only [levels]
    apply List.Perm.append_left
    rw [← List.flatMap_assoc]
    exact ih _

theorem levels_flatMap (ch : Nat → List Nat) :
    ∀ (f : Nat) (L : List Nat), (levels ch L f).flatMap ch = levels ch (L.flatMap ch) f := by
  intro f
  induction f with
  | zero => intro L; rfl
  | succ f ih =>
    intro L
    simp only [levels, List.flatMap_append, ih]

theorem levels_stable {ch : Nat → List Nat} {n : Nat}
    (hch : ∀ i c : Nat, c ∈ ch i → i < c ∧ c < n) :
    ∀ (f : Nat) (L : List Nat) (k : Nat), (∀ x ∈ L, k ≤ x ∧ x < n) → n ≤ k + f →
      levels ch L (f + 1) = levels ch L f := by
  intro f
  induction f with
  | zero =>
    intro L k hL hk
    have : L = [] := by
      cases L with
      | nil => rfl
      | cons a L =>
        have := hL a (List.mem_cons_self _ _)
        omega
    simp [this, levels]
  | succ f ih =>
    intro L k hL hk
    have hstep : levels ch L (f + 1 + 1) = L ++ levels ch (L.flatMap ch) (f + 1) := rfl
    have hstep2 : levels ch L (f + 1) = L ++ levels ch (L.flatMap ch) f := rfl
    rw [hstep, hstep2, ih (L.flatMap ch) (k + 1) ?_ (by omega)]
    intro x hx
    obtain ⟨a, ha, hxa⟩ := List.mem_flatMap.mp hx
    have h1 := hL a ha
    have h2 := hch a x hxa
    omega

theorem count_flatMap_of_lt {ch : Nat → List Nat} (hch : ∀ i c : Nat, c ∈ ch i → i < c)
    {X R : List Nat} (j : Nat) (h : ∀ i, i < j → X.count i = R.count i) :
    (X.flatMap ch).count j = (R.flatMap ch).count j := by
  have split : ∀ Y : List Nat, (Y.flatMap ch).count j =
      ((Y.filter (fun x => decide (x < j))).flatMap ch).count j := by
    intro Y
    have hp := List.filter_append_perm (fun x => decide (x < j)) Y
    have hp2 := (hp.flatMap_right ch).count_eq j
    rw [← hp2, List.flatMap_append, List.count_append]
    have : ((Y.filter (fun x => !decide (x < j))).flatMap ch).count j = 0 := by
      apply List.count_eq_zero_of_not_mem
      intro hmem
      obtain ⟨a, ha, hja⟩ := List.mem_flatMap.mp hmem
      have h1 := (List.mem_filter.mp ha).2
      have h2 := hch a j hja
      simp at h1
      omega
    rw [this]
    simp
  rw [split X, split R]
  apply List.Perm.count_eq
  apply List.Perm.flatMap_right
  rw [List.perm_iff_count]
  intro i
  by_cases hi : i < j
  · rw [List.count_filter (by simpa using hi), List.count_filter (by simpa using hi)]
    exact h i hi
  · rw [List.count_eq_zero_of_not_mem, List.count_eq_zero_of_not_mem]
    · intro hmem
      have := (List.mem_filter.mp hmem).2
      simp at this
      omega
    · intro hmem
      have := (List.mem_filter.mp hmem).2
      simp at this
      omega

/-- Two lists that both consist of the roots and of the children of their own members have
the same members with the same multiplicities, when children are larger than parents. -/
theorem perm_of_closed {ch : Nat → List Nat} (hch : ∀ i c : Nat, c ∈ ch i → i < c)
    {top X R : List Nat} (hX : X.Perm (top ++ X.flatMap ch))
    (hR : R.Perm (top ++ R.flatMap ch)) : X.Perm R := by
  rw [List.perm_iff_count]
  intro j
  induction j using Nat.strong_induction_on with
  | _ j ih =>
    rw [hX.count_eq, hR.count_eq, List.count_append, List.count_append,
      count_flatMap_of_lt hch j ih]

theorem range_flatMap_childrenIn (h : List Category) :
    (List.range h.length).flatMap (childrenIn h) =
      (h.map Category.mChildCategories).flatten := by
  rw [List.flatMap_def]
  congr 1
  apply List.ext_getElem?
  intro i
  simp only [List.getElem?_map]
  by_cases hi : i < h.length
  · rw [List.getElem?_range hi, List.getElem?_eq_getElem hi]
    simp [childrenIn, List.getElem?_eq_getElem hi]
  · rw [List.getElem?_eq_none (by simpa using hi), List.getElem?_eq_none (by simpa using hi)]
    rfl

theorem WellFormed.childLater {m : ScenarioManager} (h : WellFormed m) :
    ChildLater (m.heap.map Category.ran) := by
  intro i c hc
  rw [childrenIn_map_ran] at hc
  unfold childrenIn at hc
  cases hi : m.heap[i]? with
  | none => simp [hi] at hc
  | some cat =>
    simp only [hi] at hc
    exact ⟨h.child_later i c cat hi hc, by simpa using h.child_lt hi hc⟩

/-- In a well-formed registry the sweep from the top-level categories visits every
allocated category exactly once. -/
theorem WellFormed.visit_perm {m : ScenarioManager} (h : WellFormed m) :
    (m.mTopLevelCategories.flatMap
      (visitOrder (childrenIn (m.heap.map Category.ran)) m.heap.length)).Perm
      (List.range m.heap.length) := by
  have hcl := h.childLater
  have hch : ∀ i c : Nat, c ∈ childrenIn (m.heap.map Category.ran) i →
      i < c ∧ c < m.heap.length := by
    intro i c hc
    simpa using hcl i c hc
  refine (visitOrder_perm_levels _ _ _).trans ?_
  have hstable := levels_stable hch m.heap.length m.mTopLevelCategories 0
    (fun x hx => ⟨Nat.zero_le _, h.top_lt hx⟩) (by omega)
  have hclosed : (levels (childrenIn (m.heap.map Category.ran)) m.mTopLevelCategories
      m.heap.length).Perm
      (m.mTopLevelCategories ++
        (levels (childrenIn (m.heap.map Category.ran)) m.mTopLevelCategories
          m.heap.length).flatMap (childrenIn (m.heap.map Category.ran))) := by
    rw [levels_flatMap]
    have e : levels (childrenIn (m.heap.map Category.ran)) m.mTopLevelCategories
        (m.heap.length + 1) = m.mTopLevelCategories ++
          levels (childrenIn (m.heap.map Category.ran))
            (m.mTopLevelCategories.flatMap (childrenIn (m.heap.map Category.ran)))
            m.heap.length := rfl
    rw [← e, hstable]
  have hrange : (List.range m.heap.length).Perm
      (m.mTopLevelCategories ++
        (List.range m.heap.length).flatMap (childrenIn (m.heap.map Category.ran))) := by
    have e : childrenIn (m.heap.map Category.ran) = childrenIn m.heap := by
      funext i
      exact childrenIn_map_ran _ _
    rw [e, range_flatMap_childrenIn]
    exact h.slots_perm.symm
  exact perm_of_closed (fun i c hc => (hch i c hc).1) hclosed hrange

/-- C9. For every registry built by `registerCategory` and `registerScenario` calls and
every behaviour of the scenario bodies, `ScenarioManager::run` returns, with nothing
raised. There is an order of visit that is a permutation of all allocated categories, so
each is visited exactly once, and the text written is, category after category in that
order, the header line of the category followed by exactly one outcome record for each of
its scenarios; afterwards every scenario of every category has been run once. -/
theorem run_total (calls : List RegistryCall) (stream : Str) :
    ∃ order : List Nat,
      order.Perm (List.range (ScenarioManager.build calls).heap.length) ∧
      (ScenarioManager.build calls).run stream =
        some
          ({ ScenarioManager.build calls with
              heap := (ScenarioManager.build calls).heap.map Category.ran },
            stream ++ (order.map (textAt (ScenarioManager.build calls).heap)).flatten) := by
  have hw := build_wellFormed calls
  generalize ScenarioManager.build calls = m at hw ⊢
  have hperm := hw.visit_perm
  refine ⟨_, hperm, ?_⟩
  obtain ⟨st2, hrun, hout, hshape, -, hvisited⟩ :=
    runCategories_runsTo (H := m.heap.map Category.ran) (Category.run m.heap.length)
      (visitOrder (childrenIn (m.heap.map Category.ran)) m.heap.length)
      m.mTopLevelCategories (m.heap, stream) rfl (by
        intro c hc st1 hst1
        exact Category_run_runsTo hw.childLater m.heap.length c st1 hst1
          (by simpa using hw.top_lt hc) (by simp))
  have hheap : st2.1 = m.heap.map Category.ran := by
    apply List.ext_getElem?
    intro j
    by_cases hj : j < m.heap.length
    · exact hvisited j (hperm.mem_iff.mpr (by simpa using hj))
    · have hlen : st2.1.length = m.heap.length := by
        have := congrArg List.length hshape
        simpa using this
      rw [List.getElem?_eq_none (by omega), List.getElem?_eq_none (by simp; omega)]
  have htext : textAt (m.heap.map Category.ran) = textAt m.heap := by
    funext i
    exact textAt_map_ran _ _
  simp only [ScenarioManager.run, hrun]
  rw [hheap, hout, htext]

/-- Witness for C9: category `a` with child `b`, scenario S3 under `a`, scenarios S1
(failing `verifyTrue`) and S2 (passing) under `b`. The sweep returns and writes the text of
`b`, then that of `a`, with one record per scenario. -/
theorem run_total_witness :
    (∃ order : List Nat,
      order.Perm (List.range (ScenarioManager.build
        [.registerCategory "a/b".toList,
          .registerScenario 1 (failingScenario "S1".toList),
          .registerScenario 1 (passingScenario "S2".toList),
          .registerScenario 0 (passingScenario "S3".toList)]).heap.length) ∧
      (ScenarioManager.build
        [.registerCategory "a/b".toList,
          .registerScenario 1 (failingScenario "S1".toList),
          .registerScenario 1 (passingScenario "S2".toList),
          .registerScenario 0 (passingScenario "S3".toList)]).run [] =
        some
          ({ ScenarioManager.build
              [.registerCategory "a/b".toList,
                .registerScenario 1 (failingScenario "S1".toList),
                .registerScenario 1 (passingScenario "S2".toList),
                .registerScenario 0 (passingScenario "S3".toList)] with
              heap := (ScenarioManager.build
                [.registerCategory "a/b".toList,
                  .registerScenario 1 (failingScenario "S1".toList),
                  .registerScenario 1 (passingScenario "S2".toList),
                  .registerScenario 0 (passingScenario "S3".toList)]).heap.map
                    Category.ran },
            [] ++ (order.map (textAt (ScenarioManager.build
              [.registerCategory "a/b".toList,
                .registerScenario 1 (failingScenario "S1".toList),
                .registerScenario 1 (passingScenario "S2".toList),
                .registerScenario 0 (passingScenario "S3".toList)]).heap)).flatten)) ∧
    ((ScenarioManager.build
        [.registerCategory "a/b".toList,
          .registerScenario 1 (failingScenario "S1".toList),
          .registerScenario 1 (passingScenario "S2".toList),
          .registerScenario 0 (passingScenario "S3".toList)]).run []).map Prod.snd =
      some ("---- Running scenarios in: b\n" ++
        "Scenario failed: S1\n    Bool verification failed.\n        Expected: true\n" ++
        "Scenario passed: S2\n" ++
        "---- Running scenarios in: a\n" ++
        "Scenario passed: S3\n").toList :=
  ⟨run_total _ [], by rfl⟩

/-! ## Verification operations -/

/-- C13. `verifyTrue(actual)` raises exactly when `actual` is false and `verifyFalse(actual)`
exactly when it is true. When one raises, the flag has been cleared and the failure is the
Bool one, with expected text `true` for `verifyTrue` and `false` for `verifyFalse` and the
message `    Bool verification failed.` followed by the line `        Expected: ` with that
text. When none raises, the flag is as it was. -/
theorem verifyTrue_verifyFalse_spec (actualValue passed : Bool) :
    ((verifyTrue actualValue passed).1 ≠ none ↔ actualValue = false) ∧
    ((verifyFalse actualValue passed).1 ≠ none ↔ actualValue = true) ∧
    (actualValue = false →
      verifyTrue actualValue passed = (some (.verification (.bool true)), false)) ∧
    (actualValue = true →
      verifyFalse actualValue passed = (some (.verification (.bool false)), false)) ∧
    (actualValue = true → verifyTrue actualValue passed = (none, passed)) ∧
    (actualValue = false → verifyFalse actualValue passed = (none, passed)) ∧
    boolExpectedValue true = "true".toList ∧
    boolExpectedValue false = "false".toList ∧
    (VerificationException.bool true).what =
      "    Bool verification failed.\n        Expected: true\n".toList ∧
    (VerificationException.bool false).what =
      "    Bool verification failed.\n        Expected: false\n".toList := by
  refine ⟨?_, ?_, ?_, ?_, ?_, ?_, by decide, by decide, by decide, by decide⟩ <;>
    cases actualValue <;> simp [verifyTrue, verifyFalse]

/-- Witness for C13 at the four calls. -/
theorem verifyTrue_verifyFalse_spec_witness :
    verifyTrue false true = (some (.verification (.bool true)), false) ∧
    verifyFalse true true = (some (.verification (.bool false)), false) ∧
    verifyTrue true true = (none, true) ∧
    verifyFalse false false = (none, false) :=
  ⟨(verifyTrue_verifyFalse_spec false true).2.2.1 rfl,
    (verifyTrue_verifyFalse_spec true true).2.2.2.1 rfl,
    (verifyTrue_verifyFalse_spec true true).2.2.2.2.1 rfl,
    (verifyTrue_verifyFalse_spec false false).2.2.2.2.2.1 rfl⟩

/-- C14. For all integers `e` and `a`, those of the `int` range included, `verifyEqual(e, a)`
raises exactly when `e` differs from `a`. When it raises, the flag has been cleared and the
failure is the Equal one whose expected text is the decimal text of `e` and whose actual text
is the decimal text of `a`; when it does not, the flag is as it was. `verifyEqual(5, 5)`
passes and `verifyEqual(5, 6)` fails with expected `5` and actual `6`. -/
theorem verifyEqualInt_spec (e a : Int) (passed : Bool) :
    ((verifyEqualInt e a passed).1 ≠ none ↔ e ≠ a) ∧
    (e ≠ a → verifyEqualInt e a passed =
      (some (.verification (.equal (to_string e) (to_string a))), false)) ∧
    (e = a → verifyEqualInt e a passed = (none, passed)) ∧
    verifyEqualInt 5 5 passed = (none, passed) ∧
    verifyEqualInt 5 6 passed =
      (some (.verification (.equal "5".toList "6".toList)), false) := by
  refine ⟨?_, ?_, ?_, ?_, ?_⟩
  · by_cases h : a = e
    · simp [verifyEqualInt, h]
    · have h2 : ¬ e = a := fun hc => h hc.symm
      simp [verifyEqualInt, h, h2]
  · intro h
    have h2 : ¬ a = e := fun hc => h hc.symm
    simp [verifyEqualInt, h2]
  · intro h
    simp [verifyEqualInt, h]
  · simp [verifyEqualInt]
  · have h1 : to_string 5 = "5".toList := by decide
    have h2 : to_string 6 = "6".toList := by decide
    simp [verifyEqualInt, h1, h2]

/-- Witness for C14: the two calls of the claim, and a negative value at the lower end of
the `int` range. -/
theorem verifyEqualInt_spec_witness :
    verifyEqualInt 5 5 true = (none, true) ∧
    verifyEqualInt 5 6 true = (some (.verification (.equal "5".toList "6".toList)), false) ∧
    verifyEqualInt (-2147483648) 7 true =
      (some (.verification (.equal (to_string (-2147483648)) (to_string 7))), false) ∧
    to_string (-2147483648) = "-2147483648".toList :=
  ⟨(verifyEqualInt_spec 5 5 true).2.2.1 rfl, (verifyEqualInt_spec 5 6 true).2.2.2.2,
    (verifyEqualInt_spec (-2147483648) 7 true).2.1 (by decide), by decide⟩

/-- C15. The wide-text `verifyEqual` compares the wide values themselves, whatever the
locale's `narrow` does and whatever lies in memory behind the buffers of `narrow`. For every
wide string `w`, `verifyEqual(w, w)` raises nothing and leaves the flag as it was, as for
`L"Wide"` against `L"Wide"`. For all wide strings `e` and `a` it raises exactly when they
differ, and the flag is then false. What it raises then is the Equal failure built from the
two texts read back from the buffers when both strings are non-empty, and the error of
`narrow` when one of them is empty. It raises also when both texts read back are the same:
with the classic facet and the same memory behind both buffers the one-letter strings `Ω`
and `Ψ` give the same text, and the call fails with that text as expected and as actual. -/
theorem verifyEqualWString_spec (ctypeNarrow : Char → Char → Char)
    (afterExpected afterActual : Str) (e a : WStr) (passed : Bool) :
    verifyEqualWString ctypeNarrow afterExpected afterActual e e passed = (none, passed) ∧
    ((verifyEqualWString ctypeNarrow afterExpected afterActual e a passed).1 ≠ none ↔
      e ≠ a) ∧
    (e ≠ a →
      (verifyEqualWString ctypeNarrow afterExpected afterActual e a passed).2 = false) ∧
    (e ≠ a → e ≠ [] → a ≠ [] →
      verifyEqualWString ctypeNarrow afterExpected afterActual e a passed =
        (some (.verification (.equal
          (c_str (e.map (fun c => ctypeNarrow c '?') ++ afterExpected))
          (c_str (a.map (fun c => ctypeNarrow c '?') ++ afterActual)))), false)) ∧
    (e ≠ a → (e = [] ∨ a = []) →
      verifyEqualWString ctypeNarrow afterExpected afterActual e a passed =
        (some .other, false)) ∧
    verifyEqualWString ctypeNarrow afterExpected afterActual "Wide".toList "Wide".toList
      passed = (none, passed) ∧
    narrow classicNarrow afterExpected "Ω".toList =
      narrow classicNarrow afterExpected "Ψ".toList ∧
    verifyEqualWString classicNarrow afterExpected afterExpected "Ω".toList "Ψ".toList
      passed =
      (some (.verification
        (.equal (c_str ('?' :: afterExpected)) (c_str ('?' :: afterExpected)))), false) := by
  refine ⟨by simp [verifyEqualWString], ?_, ?_, ?_, ?_, by simp [verifyEqualWString], rfl,
    ?_⟩
  · by_cases h : a = e
    · simp [verifyEqualWString, h]
    · have h2 : ¬ e = a := fun hc => h hc.symm
      have h3 : (a != e) = true := by simpa using h
      unfold verifyEqualWString
      rw [if_pos h3]
      cases narrow ctypeNarrow afterExpected e <;>
        cases narrow ctypeNarrow afterActual a <;> simp [h2]
  · intro h
    have h3 : (a != e) = true := by simpa using fun hc : a = e => h hc.symm
    unfold verifyEqualWString
    rw [if_pos h3]
    cases narrow ctypeNarrow afterExpected e <;>
      cases narrow ctypeNarrow afterActual a <;> rfl
  · intro h he ha
    have h3 : (a != e) = true := by simpa using fun hc : a = e => h hc.symm
    cases e with
    | nil => exact absurd rfl he
    | cons x xs =>
      cases a with
      | nil => exact absurd rfl ha
      | cons y ys =>
        unfold verifyEqualWString
        rw [if_pos h3]
        rfl
  · intro h hea
    have h3 : (a != e) = true := by simpa using fun hc : a = e => h hc.symm
    unfold verifyEqualWString
    rw [if_pos h3]
    rcases hea with he | ha
    · subst he
      rfl
    · subst ha
      cases e <;> rfl
  · have h3 : ("Ψ".toList != "Ω".toList) = true := by decide
    unfold verifyEqualWString
    rw [if_pos h3]
    rfl

/-- Witness for C15: distinct wide strings whose texts read back are the same still fail,
also when the read runs into the memory behind the buffer; a mismatch against the empty
wide string raises the error of `narrow`; and the scenario declared under
`Verification/Types`, whose body is `verifyEqual(L"Wide", L"Wide")`, runs to the end with
the flag true. -/
theorem verifyEqualWString_spec_witness :
    "Ω".toList ≠ "Ψ".toList ∧
    verifyEqualWString classicNarrow [] [] "Ω".toList "Ψ".toList true =
      (some (.verification (.equal "?".toList "?".toList)), false) ∧
    verifyEqualWString classicNarrow ['x', Char.ofNat 0, 'y'] ['x', Char.ofNat 0, 'y']
        "Ω".toList "Ψ".toList true =
      (some (.verification (.equal "?x".toList "?x".toList)), false) ∧
    verifyEqualWString classicNarrow [] [] [] "a".toList true = (some .other, false) ∧
    ((declaredScenario "Verification/Types".toList
        "Verification supports wide character equality.".toList
        (fun _ => verifyEqualWString classicNarrow [] [] "Wide".toList "Wide".toList)).run.2 =
        none ∧
      (declaredScenario "Verification/Types".toList
        "Verification supports wide character equality.".toList
        (fun _ => verifyEqualWString classicNarrow [] [] "Wide".toList
          "Wide".toList)).run.1.passed = some true) :=
  ⟨by decide,
    (verifyEqualWString_spec classicNarrow [] [] "Ω".toList "Ψ".toList true).2.2.2.2.2.2.2,
    (verifyEqualWString_spec classicNarrow ['x', Char.ofNat 0, 'y'] ['x', Char.ofNat 0, 'y']
      "Ω".toList "Ψ".toList true).2.2.2.2.2.2.2,
    (verifyEqualWString_spec classicNarrow [] [] [] "a".toList true).2.2.2.2.1 (by decide)
      (Or.inl rfl),
    ⟨congrArg Prod.fst
        (verifyEqualWString_spec classicNarrow [] [] "Wide".toList "Wide".toList true).1,
      congrArg (fun r : Option Thrown × Bool => some r.2)
        (verifyEqualWString_spec classicNarrow [] [] "Wide".toList "Wide".toList true).1⟩⟩

/-- C16. `Category::registerScenario(prototype)` appends exactly one scenario at the end of
the owned list and returns that scenario. It is a copy of the prototype with the same
category path, description, `exceptionExpected` flag and body, with a passed flag not yet
assigned. The name of the category, its child categories and the scenarios it owned, in
their order and with their flags, are unchanged; nothing has been run. -/
theorem registerScenario_spec (c : Category) (prototype : ScenarioBase) :
    (c.registerScenario prototype).2.mChildScenarios =
      c.mChildScenarios ++ [(c.registerScenario prototype).1] ∧
    (c.registerScenario prototype).1.mCategoryFullName = prototype.mCategoryFullName ∧
    (c.registerScenario prototype).1.mDescription = prototype.mDescription ∧
    (c.registerScenario prototype).1.mExceptionExpected = prototype.mExceptionExpected ∧
    (c.registerScenario prototype).1.runSteps = prototype.runSteps ∧
    (c.registerScenario prototype).1.mRunPassed = none ∧
    (c.registerScenario prototype).2.mName = c.mName ∧
    (c.registerScenario prototype).2.mChildCategories = c.mChildCategories ∧
    (c.registerScenario prototype).2.mChildScenarios.length =
      c.mChildScenarios.length + 1 ∧
    (c.registerScenario prototype).2.mChildScenarios.take c.mChildScenarios.length =
      c.mChildScenarios :=
  ⟨rfl, rfl, rfl, rfl, rfl, rfl, rfl, rfl, by simp [Category.registerScenario],
    by simp [Category.registerScenario]⟩

/-! ## Fail-fast bodies -/

/-- Every `verify` member is a verification call in the sense of `VerificationCall`; the
wide-text one is when both operands are non-empty, so that `narrow` returns. -/
theorem verify_members_are_calls :
    (∀ a : Bool, verifyTrue a = VerificationCall.step ⟨!a, .bool true⟩) ∧
    (∀ a : Bool, verifyFalse a = VerificationCall.step ⟨a, .bool false⟩) ∧
    (∀ e a : Bool, verifyEqualBool e a =
      VerificationCall.step ⟨a != e, .equal (to_string_bool e) (to_string_bool a)⟩) ∧
    (∀ e a : Int, verifyEqualInt e a =
      VerificationCall.step ⟨a != e, .equal (to_string e) (to_string a)⟩) ∧
    (∀ e a : Int, verifyEqualLong e a =
      VerificationCall.step ⟨a != e, .equal (to_string e) (to_string a)⟩) ∧
    (∀ e a : Str, verifyEqualString e a = VerificationCall.step ⟨a != e, .equal e a⟩) ∧
    (∀ (f : Char → Char → Char) (t u : Str) (e a : WStr), e ≠ [] → a ≠ [] →
      verifyEqualWString f t u e a =
        VerificationCall.step ⟨a != e,
          .equal (c_str (e.map (fun c => f c '?') ++ t))
            (c_str (a.map (fun c => f c '?') ++ u))⟩) ∧
    (∀ e a : Nat, verifySame e a = VerificationCall.step ⟨a != e, .same⟩) := by
  refine ⟨fun _ => rfl, fun _ => rfl, fun _ _ => rfl, fun _ _ => rfl, fun _ _ => rfl,
    fun _ _ => rfl, ?_, fun _ _ => rfl⟩
  intro f t u e a he ha
  cases e with
  | nil => exact absurd rfl he
  | cons x xs =>
    cases a with
    | nil => exact absurd rfl ha
    | cons y ys => rfl

theorem runCalls_all_match (calls : List VerificationCall) :
    ∀ passed : Bool, (∀ v ∈ calls, v.mismatch = false) →
      runCalls calls passed = (calls, none, passed) := by
  induction calls with
  | nil => intro passed _; rfl
  | cons v rest ih =>
    intro passed h
    have hv := h v (List.mem_cons_self _ _)
    simp [runCalls, VerificationCall.step, hv,
      ih passed (fun u hu => h u (List.mem_cons_of_mem _ hu))]

theorem runCalls_first_mismatch (pre : List VerificationCall) (v : VerificationCall)
    (post : List VerificationCall) :
    ∀ passed : Bool, (∀ u ∈ pre, u.mismatch = false) → v.mismatch = true →
      runCalls (pre ++ v :: post) passed =
        (pre ++ [v], some (.verification v.failure), false) := by
  induction pre with
  | nil =>
    intro passed _ hv
    simp [runCalls, VerificationCall.step, hv]
  | cons u pre ih =>
    intro passed h hv
    have hu := h u (List.mem_cons_self _ _)
    simp [runCalls, VerificationCall.step, hu,
      ih passed (fun w hw => h w (List.mem_cons_of_mem _ hw)) hv]

/-- C12. `ScenarioBase::run` on a body made of verification calls, `calls` being the calls
the body makes on this object. Whatever the flag was before, the body starts with the flag
true. When no call of the body finds a mismatch, all calls are executed and `run` returns
normally with the flag true. Otherwise `run` raises the failure of the first call that
finds a mismatch, the flag is false afterwards, and the calls executed are those up to and
including that call, none after it. -/
theorem run_failFast (s : ScenarioBase) (calls : List VerificationCall)
    (hbody : s.runSteps s.info = callsBody calls s.info) :
    (∀ prior : Option Bool, ({ s with mRunPassed := prior } : ScenarioBase).run = s.run) ∧
    ((∀ v ∈ calls, v.mismatch = false) →
      s.run = ({ s with mRunPassed := some true }, none) ∧
      (runCalls calls true).1 = calls) ∧
    (∀ (pre : List VerificationCall) (v : VerificationCall) (post : List VerificationCall),
      calls = pre ++ v :: post → (∀ u ∈ pre, u.mismatch = false) → v.mismatch = true →
      s.run = ({ s with mRunPassed := some false }, some (.verification v.failure)) ∧
      (runCalls calls true).1 = pre ++ [v]) := by
  refine ⟨fun _ => rfl, ?_, ?_⟩
  · intro h
    have hr := runCalls_all_match calls true h
    refine ⟨?_, by rw [hr]⟩
    simp [ScenarioBase.run, hbody, callsBody, hr]
  · intro pre v post hcalls hpre hv
    have hr := runCalls_first_mismatch pre v post true hpre hv
    rw [← hcalls] at hr
    refine ⟨?_, by rw [hr]⟩
    simp [ScenarioBase.run, hbody, callsBody, hr]

/-- Witness for C12: the body `verifyTrue(true); verifyEqual(5, 6); verifyTrue(false)` run
on a scenario whose flag was true. `run` raises the Equal failure of the second call, the
flag is false afterwards and the third call is not executed. Also the body
`verifyFalse(exceptionExpected())` on a scenario constructed with the flag true: its one
call finds a mismatch, and `run` raises that Bool failure. -/
theorem run_failFast_witness :
    (declaredScenario [] "S".toList
        (callsBody [⟨!true, .bool true⟩,
          ⟨(6 : Int) != 5, .equal (to_string 5) (to_string 6)⟩,
          ⟨!false, .bool true⟩])).runSteps =
      callsBody [⟨!true, .bool true⟩,
        ⟨(6 : Int) != 5, .equal (to_string 5) (to_string 6)⟩, ⟨!false, .bool true⟩] ∧
    ({ declaredScenario [] "S".toList
        (callsBody [⟨!true, .bool true⟩,
          ⟨(6 : Int) != 5, .equal (to_string 5) (to_string 6)⟩,
          ⟨!false, .bool true⟩]) with mRunPassed := some true } : ScenarioBase).run.2 =
      some (.verification (.equal (to_string 5) (to_string 6))) ∧
    ({ declaredScenario [] "S".toList
        (callsBody [⟨!true, .bool true⟩,
          ⟨(6 : Int) != 5, .equal (to_string 5) (to_string 6)⟩,
          ⟨!false, .bool true⟩]) with mRunPassed := some true } : ScenarioBase).run.1.passed =
      some false ∧
    (runCalls [⟨!true, .bool true⟩,
        ⟨(6 : Int) != 5, .equal (to_string 5) (to_string 6)⟩,
        ⟨!false, .bool true⟩] true).1.length = 2 ∧
    (flagReadingScenario "S".toList true).run.2 = some (.verification (.bool false)) ∧
    (flagReadingScenario "S".toList true).run.1.passed = some false := by
  have h := run_failFast
    ({ declaredScenario [] "S".toList
        (callsBody [⟨!true, .bool true⟩,
          ⟨(6 : Int) != 5, .equal (to_string 5) (to_string 6)⟩,
          ⟨!false, .bool true⟩]) with mRunPassed := some true } : ScenarioBase)
    [⟨!true, .bool true⟩, ⟨(6 : Int) != 5, .equal (to_string 5) (to_string 6)⟩,
      ⟨!false, .bool true⟩] rfl
  obtain ⟨h1, h2⟩ := h.2.2 [⟨!true, .bool true⟩]
    ⟨(6 : Int) != 5, .equal (to_string 5) (to_string 6)⟩ [⟨!false, .bool true⟩] rfl
    (by simp) (by decide)
  obtain ⟨h3, _⟩ := (run_failFast (flagReadingScenario "S".toList true)
    [⟨true, .bool false⟩] rfl).2.2 [] ⟨true, .bool false⟩ [] rfl (by simp) rfl
  exact ⟨rfl, by rw [h1], by rw [h1]; rfl, by rw [h2]; rfl, by rw [h3], by rw [h3]; rfl⟩

/-! ## What `registerCategory` accepts, and its keys -/

theorem registerCategory_outcome_cases (m : ScenarioManager) (P : Str) :
    ((∀ c ∈ P, c = '/') ∧ m.registerCategory P =
      (.invalid_argument "Category names cannot consist entirely of / characters.", m)) ∨
    ((∃ c ∈ P, c ≠ '/') ∧ ∃ node, (m.registerCategory P).1 = .returned (some node)) := by
  by_cases h : ∀ c ∈ P, c = '/'
  · left
    refine ⟨h, ?_⟩
    simp [ScenarioManager.registerCategory, find_first_not_of_eq_none_of_all h]
  · right
    have h2 : ∃ c ∈ P, c ≠ '/' := by
      by_contra hc
      apply h
      intro c hcP
      by_contra hne
      exact hc ⟨c, hcP, hne⟩
    obtain ⟨bp, hbp⟩ := find_first_not_of_of_exists h2
    exact ⟨h2, registerCategory_returns m hbp⟩

/-- C19. `registerCategory` raises exactly when the path has no character other than `/`.
For every path with such a character it returns a category: the branch `Category names
cannot be empty.` is never taken, every segment start being found with `find_first_not_of`,
and the loop never lacks fuel. Whenever the call raises, it is with the message of the first
check and the registry (path table, top-level list, all categories with their child lists)
is unchanged. -/
theorem registerCategory_raises_iff (m : ScenarioManager) (P : Str) :
    ((∃ w, (m.registerCategory P).1 = .invalid_argument w) ↔ ∀ c ∈ P, c = '/') ∧
    ((∃ c ∈ P, c ≠ '/') → ∃ node, (m.registerCategory P).1 = .returned (some node)) ∧
    (∀ w, (m.registerCategory P).1 = .invalid_argument w →
      w = "Category names cannot consist entirely of / characters." ∧
      (m.registerCategory P).2 = m) ∧
    (m.registerCategory P).1 ≠ .invalid_argument "Category names cannot be empty." ∧
    (m.registerCategory P).1 ≠ .outOfFuel := by
  rcases registerCategory_outcome_cases m P with ⟨hall, hr⟩ | ⟨hex, node, hnode⟩
  · refine ⟨⟨fun _ => hall, fun _ => ⟨_, by rw [hr]⟩⟩, ?_, ?_, ?_, ?_⟩
    · rintro ⟨c, hc, hne⟩
      exact absurd (hall c hc) hne
    · intro w hw
      rw [hr] at hw ⊢
      simp only [RegisterOutcome.invalid_argument.injEq] at hw
      exact ⟨hw.symm, rfl⟩
    · rw [hr]
      simp
    · rw [hr]
      simp
  · refine ⟨⟨?_, ?_⟩, fun _ => ⟨node, hnode⟩, ?_, ?_, ?_⟩
    · rintro ⟨w, hw⟩
      rw [hnode] at hw
      cases hw
    · intro hall
      obtain ⟨c, hc, hne⟩ := hex
      exact absurd (hall c hc) hne
    · intro w hw
      rw [hnode] at hw
      cases hw
    · rw [hnode]
      simp
    · rw [hnode]
      simp

/-- Witness for C19: `a//b` and `a/` have a character other than `/` and are accepted;
`///` has none and is rejected with the registry unchanged. -/
theorem registerCategory_raises_iff_witness :
    (∃ node, (ScenarioManager.empty.registerCategory "a//b".toList).1 =
      .returned (some node)) ∧
    (∃ node, (ScenarioManager.empty.registerCategory "a/".toList).1 =
      .returned (some node)) ∧
    (∃ w, (ScenarioManager.empty.registerCategory "///".toList).1 = .invalid_argument w) ∧
    (ScenarioManager.empty.registerCategory "///".toList).2 = ScenarioManager.empty :=
  ⟨(registerCategory_raises_iff ScenarioManager.empty "a//b".toList).2.1 (by decide),
    (registerCategory_raises_iff ScenarioManager.empty "a/".toList).2.1 (by decide),
    (registerCategory_raises_iff ScenarioManager.empty "///".toList).1.mpr (by decide),
    ((registerCategory_raises_iff ScenarioManager.empty "///".toList).2.2.1 _ rfl).2⟩

theorem scanSegments_raw (name : Str) (bp : Nat) :
    ∀ (fuel : Nat) (cb : Option Nat),
      (∀ c, cb = some c → SegStart name c ∧ bp ≤ c) →
      ∀ seg ∈ scanSegments name bp fuel cb,
        ∃ c, bp ≤ c ∧ SegStart name c ∧
          seg = (substr name bp (segmentEnd name c - bp),
            substr name c (segmentEnd name c - c)) := by
  intro fuel
  induction fuel with
  | zero => intro cb _ seg hseg; cases cb <;> simp [scanSegments] at hseg
  | succ fuel ih =>
    intro cb h seg hseg
    cases cb with
    | none => simp [scanSegments] at hseg
    | some c =>
      obtain ⟨hs, hbc⟩ := h c rfl
      simp only [scanSegments, List.mem_cons] at hseg
      rcases hseg with rfl | hseg
      · exact ⟨c, hbc, hs, rfl⟩
      · refine ih _ ?_ seg hseg
        intro c2 hc2
        refine ⟨(find_first_not_of_spec hc2).2, ?_⟩
        have h1 := find_first_not_of_ge hc2
        have h2 := hs.lt_segmentEnd
        omega

theorem mem_addNew (keys : List Str) :
    ∀ (seen : List Str) (k : Str), k ∈ addNew seen keys → k ∈ seen ∨ k ∈ keys := by
  induction keys with
  | nil => intro seen k h; exact Or.inl h
  | cons a keys ih =>
    intro seen k h
    have hstep : addNew seen (a :: keys) =
        addNew (if a ∈ seen then seen else seen ++ [a]) keys := rfl
    rw [hstep] at h
    rcases ih _ k h with h1 | h1
    · by_cases ha : a ∈ seen
      · rw [if_pos ha] at h1
        exact Or.inl h1
      · rw [if_neg ha] at h1
        rcases List.mem_append.mp h1 with h2 | h2
        · exact Or.inl h2
        · right
          simp only [List.mem_singleton] at h2
          rw [h2]
          exact List.mem_cons_self _ _
    · exact Or.inr (List.mem_cons_of_mem _ h1)

/-- C20. Deduplication is by raw substring. For a path whose first character other than `/`
is at `bp`, every key the table gains is the input text from `bp` up to the end of the
segment of its category, interior separators included, whatever their number. So from the
empty registry `a/b` followed by `a//b` returns two different categories, with the keys
`a/b` and `a//b`, both named `b` and both children of the one category `a`. -/
theorem registerCategory_raw_keys (m : ScenarioManager) (P : Str) (bp : Nat)
    (hbp : find_first_not_of P ['/'] 0 = some bp) :
    (∀ key ∈ (m.registerCategory P).2.mAllCategories.map Prod.fst,
      key ∈ m.mAllCategories.map Prod.fst ∨
      ∃ c, bp ≤ c ∧ SegStart P c ∧ key = substr P bp (segmentEnd P c - bp)) ∧
    ((ScenarioManager.empty.registerCategory "a/b".toList).1 = .returned (some 1) ∧
      ((ScenarioManager.empty.registerCategory "a/b".toList).2.registerCategory
        "a//b".toList).1 = .returned (some 2) ∧
      ((ScenarioManager.empty.registerCategory "a/b".toList).2.registerCategory
        "a//b".toList).2.mAllCategories =
        [("a".toList, 0), ("a/b".toList, 1), ("a//b".toList, 2)] ∧
      ((ScenarioManager.empty.registerCategory "a/b".toList).2.registerCategory
        "a//b".toList).2.heap.map (fun c => (c.mName, c.mChildCategories)) =
        [("a".toList, [1, 2]), ("b".toList, []), ("b".toList, [])] ∧
      ((ScenarioManager.empty.registerCategory "a/b".toList).2.registerCategory
        "a//b".toList).2.mTopLevelCategories = [0]) := by
  refine ⟨?_, by decide, by decide, by decide, by decide, by decide⟩
  intro key hkey
  rw [registerCategory_eq_of_find hbp, registerSegments_keys] at hkey
  rcases mem_addNew _ _ _ hkey with h | h
  · exact Or.inl h
  · right
    obtain ⟨seg, hseg, rfl⟩ := List.mem_map.mp h
    obtain ⟨c, hbc, hs, hc⟩ := scanSegments_raw P bp P.length (some bp)
      (by
        intro c hc
        cases hc
        exact ⟨(find_first_not_of_spec hbp).2, le_refl _⟩) seg hseg
    exact ⟨c, hbc, hs, by rw [hc]⟩

/-- Witness for C20 on `a//b` registered after `a/b`: the key gained is the raw text
`a//b`, which is the text from position 0 to the end of the segment that starts at
position 3. -/
theorem registerCategory_raw_keys_witness :
    find_first_not_of "a//b".toList ['/'] 0 = some 0 ∧
    "a//b".toList ∈ ((ScenarioManager.empty.registerCategory "a/b".toList).2.registerCategory
      "a//b".toList).2.mAllCategories.map Prod.fst ∧
    ("a//b".toList ∈
        (ScenarioManager.empty.registerCategory "a/b".toList).2.mAllCategories.map Prod.fst ∨
      ∃ c, 0 ≤ c ∧ SegStart "a//b".toList c ∧
        "a//b".toList = substr "a//b".toList 0 (segmentEnd "a//b".toList c - 0)) ∧
    "a//b".toList = substr "a//b".toList 0 (segmentEnd "a//b".toList 3 - 0) :=
  ⟨by decide, by decide,
    (registerCategory_raw_keys (ScenarioManager.empty.registerCategory "a/b".toList).2
      "a//b".toList 0 (by decide)).1 "a//b".toList (by decide),
    by decide⟩

/-! ## The `exceptionExpected` flag and the run loop -/

theorem map_updateAt_comm {α β : Type} (f : α → α) (f2 : β → β) (g : α → β)
    (h : ∀ a, g (f a) = f2 (g a)) (l : List α) (i : Nat) :
    (updateAt f l i).map g = updateAt f2 (l.map g) i := by
  induction l generalizing i with
  | nil => rfl
  | cons a as ih => cases i <;> simp [updateAt, ih, h]

theorem mem_updateAt {α : Type} (f : α → α) (x : α) :
    ∀ (l : List α) (i : Nat), x ∈ updateAt f l i → x ∈ l ∨ ∃ a ∈ l, x = f a := by
  intro l
  induction l with
  | nil => intro i h; simp [updateAt] at h
  | cons a as ih =>
    intro i h
    cases i with
    | zero =>
      simp only [updateAt, List.mem_cons] at h
      rcases h with h | h
      · exact Or.inr ⟨a, List.mem_cons_self _ _, h⟩
      · exact Or.inl (List.mem_cons_of_mem _ h)
    | succ i =>
      simp only [updateAt, List.mem_cons] at h
      rcases h with h | h
      · exact Or.inl (h ▸ List.mem_cons_self _ _)
      · rcases ih i h with h1 | ⟨b, hb, hx⟩
        · exact Or.inl (List.mem_cons_of_mem _ h1)
        · exact Or.inr ⟨b, List.mem_cons_of_mem _ hb, hx⟩

/-- A body that does not read the flag runs the same on the scenario with the flag
blanked. -/
theorem scenario_run_withoutExpected (s : ScenarioBase) (hs : s.FlagBlind) :
    s.withoutExpected.run = (s.run.1.withoutExpected, s.run.2) := by
  have h : s.withoutExpected.runSteps s.withoutExpected.info true =
      s.runSteps s.info true := hs s.info false true
  unfold ScenarioBase.run
  rw [h]
  rfl

theorem outcomeRecord_withoutExpected (s : ScenarioBase) (hs : s.FlagBlind) :
    outcomeRecord s.withoutExpected = outcomeRecord s := by
  have h : s.withoutExpected.runSteps s.withoutExpected.info true =
      s.runSteps s.info true := hs s.info false true
  unfold outcomeRecord
  rw [h]
  rfl

theorem runScenarios_withoutExpected (scenarios : List ScenarioBase) (stream : Str)
    (h : ∀ s ∈ scenarios, s.FlagBlind) :
    runScenarios (scenarios.map ScenarioBase.withoutExpected) stream =
      ((runScenarios scenarios stream).1.map ScenarioBase.withoutExpected,
        (runScenarios scenarios stream).2) := by
  rw [runScenarios_stream, runScenarios_stream]
  simp only [List.map_map, Prod.mk.injEq]
  refine ⟨?_, ?_⟩
  · apply List.map_congr_left
    intro s hs
    exact congrArg Prod.fst (scenario_run_withoutExpected s (h s hs))
  · congr 2
    apply List.map_congr_left
    intro s hs
    exact outcomeRecord_withoutExpected s (h s hs)

theorem runScenarios_flagBlind (scenarios : List ScenarioBase) (stream : Str)
    (h : ∀ s ∈ scenarios, s.FlagBlind) :
    ∀ s ∈ (runScenarios scenarios stream).1, s.FlagBlind := by
  rw [runScenarios_stream]
  intro s hs
  obtain ⟨s0, hs0, rfl⟩ := List.mem_map.mp hs
  exact h s0 hs0

theorem runCategories_withoutExpected
    (run : Nat → List Category × Str → Option (List Category × Str))
    (hrun : ∀ (c : Nat) (st : List Category × Str), HeapFlagBlind st.1 →
      run c (st.1.map Category.withoutExpected, st.2) =
        (run c st).map (fun r => (r.1.map Category.withoutExpected, r.2)) ∧
      ∀ st2, run c st = some st2 → HeapFlagBlind st2.1)
    (L : List Nat) :
    ∀ st : List Category × Str, HeapFlagBlind st.1 →
      runCategories run L (st.1.map Category.withoutExpected, st.2) =
        (runCategories run L st).map (fun r => (r.1.map Category.withoutExpected, r.2)) ∧
      ∀ st2, runCategories run L st = some st2 → HeapFlagBlind st2.1 := by
  induction L with
  | nil =>
    intro st hst
    refine ⟨rfl, ?_⟩
    intro st2 h2
    simp only [runCategories, Option.some.injEq] at h2
    subst h2
    exact hst
  | cons c L ih =>
    intro st hst
    obtain ⟨h1, h2⟩ := hrun c st hst
    simp only [runCategories, h1]
    cases hr : run c st with
    | none => exact ⟨rfl, fun st2 h => by simp at h⟩
    | some st1 => exact ih st1 (h2 st1 hr)

theorem Category_run_withoutExpected :
    ∀ (fuel id : Nat) (st : List Category × Str), HeapFlagBlind st.1 →
      Category.run fuel id (st.1.map Category.withoutExpected, st.2) =
        (Category.run fuel id st).map
          (fun r => (r.1.map Category.withoutExpected, r.2)) ∧
      ∀ st2, Category.run fuel id st = some st2 → HeapFlagBlind st2.1 := by
  intro fuel
  induction fuel with
  | zero =>
    intro id st _
    exact ⟨rfl, fun st2 h => by simp [Category.run] at h⟩
  | succ fuel ih =>
    intro id st hst
    simp only [Category.run, List.getElem?_map]
    cases hc : st.1[id]? with
    | none => exact ⟨rfl, fun st2 h => by simp at h⟩
    | some c =>
      simp only [Option.map_some']
      have hch : (Category.withoutExpected c).mChildCategories = c.mChildCategories := rfl
      obtain ⟨hcs, hpres⟩ :=
        runCategories_withoutExpected (Category.run fuel) ih c.mChildCategories st hst
      rw [hch, hcs]
      cases hr : runCategories (Category.run fuel) c.mChildCategories st with
      | none => exact ⟨rfl, fun st2 h => by simp at h⟩
      | some st1 =>
        have hst1 : HeapFlagBlind st1.1 := hpres st1 hr
        simp only [Option.map_some', List.getElem?_map]
        cases hc1 : st1.1[id]? with
        | none => exact ⟨rfl, fun st2 h => by simp at h⟩
        | some c1 =>
          have hc1b : ∀ s ∈ c1.mChildScenarios, s.FlagBlind :=
            hst1 c1 (List.mem_iff_getElem?.mpr ⟨id, hc1⟩)
          refine ⟨?_, ?_⟩
          · simp only [Option.map_some', Option.some.injEq, Prod.mk.injEq]
            have hsc : (Category.withoutExpected c1).mChildScenarios =
                c1.mChildScenarios.map ScenarioBase.withoutExpected := rfl
            have hnm : (Category.withoutExpected c1).mName = c1.mName := rfl
            rw [hsc, hnm, runScenarios_withoutExpected _ _ hc1b]
            refine ⟨?_, rfl⟩
            symm
            apply map_updateAt_comm
            intro a
            rfl
          · intro st2 h2
            simp only [Option.some.injEq] at h2
            subst h2
            intro x hx s hs
            rcases mem_updateAt _ x _ _ hx with hx1 | ⟨y, _, hxy⟩
            · exact hst1 x hx1 s hs
            · subst hxy
              exact runScenarios_flagBlind _ _ hc1b s hs

/-- When no body reads the flag, blanking the flags before the sweep or after it gives the
same registry and text. -/
theorem run_withoutExpected (m : ScenarioManager) (stream : Str) (hm : m.FlagBlind) :
    m.withoutExpected.run stream =
      (m.run stream).map (fun r => (r.1.withoutExpected, r.2)) := by
  have h := (runCategories_withoutExpected (Category.run m.heap.length)
    (Category_run_withoutExpected m.heap.length) m.mTopLevelCategories (m.heap, stream)
    hm).1
  simp only [ScenarioManager.run, ScenarioManager.withoutExpected, List.length_map]
  simp only at h
  rw [h]
  cases runCategories (Category.run m.heap.length) m.mTopLevelCategories (m.heap, stream) with
  | none => rfl
  | some st => rfl

/-- Registries identical except for the flags have the same bodies. -/
theorem flagBlind_of_withoutExpected_eq (m1 m2 : ScenarioManager)
    (h : m1.withoutExpected = m2.withoutExpected) (hm : m1.FlagBlind) : m2.FlagBlind := by
  intro c2 hc2 s2 hs2
  have hheap : m1.heap.map Category.withoutExpected =
      m2.heap.map Category.withoutExpected := congrArg ScenarioManager.heap h
  have hc : c2.withoutExpected ∈ m1.heap.map Category.withoutExpected := by
    rw [hheap]
    exact List.mem_map_of_mem _ hc2
  obtain ⟨c1, hc1, hcc⟩ := List.mem_map.mp hc
  have hscs : c1.mChildScenarios.map ScenarioBase.withoutExpected =
      c2.mChildScenarios.map ScenarioBase.withoutExpected :=
    congrArg Category.mChildScenarios hcc
  have hs : s2.withoutExpected ∈ c1.mChildScenarios.map ScenarioBase.withoutExpected := by
    rw [hscs]
    exact List.mem_map_of_mem _ hs2
  obtain ⟨s1, hs1, hss⟩ := List.mem_map.mp hs
  have hbody0 : s1.withoutExpected.runSteps = s2.withoutExpected.runSteps :=
    congrArg ScenarioBase.runSteps hss
  have hbody : s1.runSteps = s2.runSteps := hbody0
  intro info flag passed
  have := hm c1 hc1 s1 hs1 info flag passed
  rw [hbody] at this
  exact this

/-- C18, for bodies that do not read the flag. The run loop itself does not read the
`exceptionExpected` flag; a scenario body can, through `exceptionExpected()`. For two
registries that are identical except for the `exceptionExpected` flags of their scenarios
and whose scenario bodies do not read the flag, `ScenarioManager::run` writes the same
text, leaves every scenario with the same passed flag, and leaves registries that are
again identical except for those flags. -/
theorem run_ignores_exceptionExpected (m1 m2 : ScenarioManager) (stream : Str)
    (h : m1.withoutExpected = m2.withoutExpected) (hbodies : m1.FlagBlind) :
    (m1.run stream).map Prod.snd = (m2.run stream).map Prod.snd ∧
    (m1.run stream).map (fun r => r.1.passedValues) =
      (m2.run stream).map (fun r => r.1.passedValues) ∧
    (m1.run stream).map (fun r => r.1.withoutExpected) =
      (m2.run stream).map (fun r => r.1.withoutExpected) := by
  have h1 := run_withoutExpected m1 stream hbodies
  have h2 := run_withoutExpected m2 stream (flagBlind_of_withoutExpected_eq m1 m2 h hbodies)
  rw [h, h2] at h1
  have hpv : ∀ m : ScenarioManager, m.withoutExpected.passedValues = m.passedValues := by
    intro m
    simp [ScenarioManager.passedValues, ScenarioManager.withoutExpected,
      Category.withoutExpected, List.map_map, Function.comp_def, ScenarioBase.passed,
      ScenarioBase.withoutExpected]
  refine ⟨?_, ?_, ?_⟩
  · have := congrArg (Option.map Prod.snd) h1
    simpa [Option.map_map, Function.comp_def] using this.symm
  · have := congrArg (Option.map (fun r : ScenarioManager × Str => r.1.passedValues)) h1
    simpa [Option.map_map, Function.comp_def, hpv] using this.symm
  · have := congrArg (Option.map (fun r : ScenarioManager × Str => r.1)) h1
    simpa [Option.map_map, Function.comp_def] using this.symm

theorem build_failing_flagBlind :
    (ScenarioManager.build [.registerCategory "a".toList,
      .registerScenario 0 (failingScenario "S1".toList)]).FlagBlind := by
  intro c hc s hs
  have hheap : (ScenarioManager.build [.registerCategory "a".toList,
      .registerScenario 0 (failingScenario "S1".toList)]).heap =
      [{ mName := "a".toList, mChildCategories := [],
         mChildScenarios := [(failingScenario "S1".toList).clone] }] := rfl
  rw [hheap, List.mem_singleton] at hc
  subst hc
  rw [List.mem_singleton] at hs
  subst hs
  intro info flag passed
  rfl

/-- Witness for C18: two registries with one scenario each, the same but for the
flag, whose body `verifyTrue(false)` does not read the flag. The sweep writes the same
text for both and leaves the same passed flag. -/
theorem run_ignores_exceptionExpected_witness :
    (ScenarioManager.build [.registerCategory "a".toList,
        .registerScenario 0 (failingScenario "S1".toList)]).withoutExpected =
      (ScenarioManager.build [.registerCategory "a".toList,
        .registerScenario 0
          { failingScenario "S1".toList with mExceptionExpected := true }]).withoutExpected ∧
    (ScenarioManager.build [.registerCategory "a".toList,
        .registerScenario 0 (failingScenario "S1".toList)]).FlagBlind ∧
    (ScenarioManager.build [.registerCategory "a".toList,
        .registerScenario 0 (failingScenario "S1".toList)]).heap.map
          (fun c => c.mChildScenarios.map (fun s => s.mExceptionExpected)) = [[false]] ∧
    (ScenarioManager.build [.registerCategory "a".toList,
        .registerScenario 0
          { failingScenario "S1".toList with mExceptionExpected := true }]).heap.map
          (fun c => c.mChildScenarios.map (fun s => s.mExceptionExpected)) = [[true]] ∧
    ((ScenarioManager.build [.registerCategory "a".toList,
        .registerScenario 0 (failingScenario "S1".toList)]).run []).map Prod.snd =
      ((ScenarioManager.build [.registerCategory "a".toList,
        .registerScenario 0
          { failingScenario "S1".toList with mExceptionExpected := true }]).run []).map
        Prod.snd ∧
    ((ScenarioManager.build [.registerCategory "a".toList,
        .registerScenario 0 (failingScenario "S1".toList)]).run []).map
          (fun r => r.1.passedValues) =
      ((ScenarioManager.build [.registerCategory "a".toList,
        .registerScenario 0
          { failingScenario "S1".toList with mExceptionExpected := true }]).run []).map
        (fun r => r.1.passedValues) ∧
    ((ScenarioManager.build [.registerCategory "a".toList,
        .registerScenario 0
          { failingScenario "S1".toList with mExceptionExpected := true }]).run []).map
        (fun r => (r.1.passedValues, r.2)) =
      some ([[some false]],
        ("---- Running scenarios in: a\n" ++
          "Scenario failed: S1\n    Bool verification failed.\n        Expected: true\n"
          ).toList) :=
  ⟨rfl, build_failing_flagBlind, by rfl, by rfl,
    (run_ignores_exceptionExpected _ _ [] rfl build_failing_flagBlind).1,
    (run_ignores_exceptionExpected _ _ [] rfl build_failing_flagBlind).2.1,
    by rfl⟩

/-- Counterexample to C18 for arbitrary bodies. Two registries hold one scenario each,
with the body `verifyFalse(exceptionExpected())`, and are identical except for the flag of
that scenario. The sweep of the one with the flag false writes `Scenario passed: S1` and
leaves the passed flag true; the sweep of the one with the flag true writes `Scenario
failed: S1` with the Bool message and leaves the passed flag false. So it is not the case
that registries identical except for the flags always give the same text. -/
theorem run_depends_on_exceptionExpected :
    (ScenarioManager.build [.registerCategory "a".toList,
        .registerScenario 0 (flagReadingScenario "S1".toList false)]).withoutExpected =
      (ScenarioManager.build [.registerCategory "a".toList,
        .registerScenario 0 (flagReadingScenario "S1".toList true)]).withoutExpected ∧
    ((ScenarioManager.build [.registerCategory "a".toList,
        .registerScenario 0 (flagReadingScenario "S1".toList false)]).run []).map
        (fun r => (r.1.passedValues, r.2)) =
      some ([[some true]],
        ("---- Running scenarios in: a\n" ++ "Scenario passed: S1\n").toList) ∧
    ((ScenarioManager.build [.registerCategory "a".toList,
        .registerScenario 0 (flagReadingScenario "S1".toList true)]).run []).map
        (fun r => (r.1.passedValues, r.2)) =
      some ([[some false]],
        ("---- Running scenarios in: a\n" ++
          "Scenario failed: S1\n    Bool verification failed.\n        Expected: false\n"
          ).toList) ∧
    ¬ (∀ (m1 m2 : ScenarioManager) (stream : Str),
        m1.withoutExpected = m2.withoutExpected →
        (m1.run stream).map Prod.snd = (m2.run stream).map Prod.snd ∧
        (m1.run stream).map (fun r => r.1.passedValues) =
          (m2.run stream).map (fun r => r.1.passedValues)) := by
  have h1 : ((ScenarioManager.build [.registerCategory "a".toList,
        .registerScenario 0 (flagReadingScenario "S1".toList false)]).run []).map Prod.snd =
      some ("---- Running scenarios in: a\n" ++ "Scenario passed: S1\n").toList := by rfl
  have h2 : ((ScenarioManager.build [.registerCategory "a".toList,
        .registerScenario 0 (flagReadingScenario "S1".toList true)]).run []).map Prod.snd =
      some ("---- Running scenarios in: a\n" ++
          "Scenario failed: S1\n    Bool verification failed.\n        Expected: false\n"
          ).toList := by rfl
  refine ⟨rfl, by rfl, by rfl, ?_⟩
  intro hall
  have h := (hall
    (ScenarioManager.build [.registerCategory "a".toList,
        .registerScenario 0 (flagReadingScenario "S1".toList false)])
    (ScenarioManager.build [.registerCategory "a".toList,
        .registerScenario 0 (flagReadingScenario "S1".toList true)]) [] rfl).1
  rw [h1, h2] at h
  exact absurd h (by decide)

/-! ## Run order -/

theorem flatten_map_flatMap (t : Nat → Str) (v : Nat → List Nat) (L : List Nat) :
    ((L.flatMap v).map t).flatten = L.flatMap (fun c => ((v c).map t).flatten) := by
  induction L with
  | nil => rfl
  | cons a L ih => simp [List.flatMap_cons, ih]

theorem visitText_eq_categoryOutput (heap : List Category) :
    ∀ (fuel id : Nat),
      ((visitOrder (childrenIn heap) fuel id).map (textAt heap)).flatten =
        categoryOutput heap fuel id := by
  intro fuel
  induction fuel with
  | zero => intro id; rfl
  | succ fuel ih =>
    intro id
    simp only [visitOrder, categoryOutput, List.map_append, List.flatten_append,
      flatten_map_flatMap, List.map_cons, List.map_nil, List.flatten_cons, List.flatten_nil,
      List.append_nil]
    congr 1
    congr 1
    funext c
    exact ih c

theorem WellFormed.childLater_heap {m : ScenarioManager} (h : WellFormed m) :
    ChildLater m.heap := by
  intro i c hc
  have := h.childLater i c (by rw [childrenIn_map_ran]; exact hc)
  simpa using this

/-- With enough fuel for the depth below a category, more fuel changes nothing. -/
theorem categoryOutput_fuel {heap : List Category} (hcl : ChildLater heap) :
    ∀ (f1 f2 id : Nat), heap.length ≤ f1 + id → heap.length ≤ f2 + id → id < heap.length →
      categoryOutput heap f1 id = categoryOutput heap f2 id := by
  intro f1
  induction f1 with
  | zero => intro f2 id h1 _ h3; omega
  | succ f1 ih =>
    intro f2 id h1 h2 h3
    cases f2 with
    | zero => omega
    | succ f2 =>
      simp only [categoryOutput]
      congr 1
      apply List.flatMap_congr
      intro c hc
      have := hcl id c hc
      exact ih f2 c (by omega) (by omega) this.2

theorem run_text_eq {m : ScenarioManager} (hw : WellFormed m) (stream : Str) :
    (∀ id : Nat, id < m.heap.length →
      ∃ h2, Category.run m.heap.length id (m.heap, stream) =
        some (h2, stream ++ categoryOutput m.heap m.heap.length id)) ∧
    ∃ m2, m.run stream =
      some (m2, stream ++
        m.mTopLevelCategories.flatMap (categoryOutput m.heap m.heap.length)) := by
  have hch : childrenIn (m.heap.map Category.ran) = childrenIn m.heap := by
    funext i
    exact childrenIn_map_ran _ _
  have htx : textAt (m.heap.map Category.ran) = textAt m.heap := by
    funext i
    exact textAt_map_ran _ _
  constructor
  · intro id hid
    obtain ⟨st2, hrun, hout, -⟩ := Category_run_runsTo hw.childLater m.heap.length id
      (m.heap, stream) rfl (by simpa using hid) (by simp)
    refine ⟨st2.1, ?_⟩
    rw [hrun]
    rw [hch, htx, visitText_eq_categoryOutput] at hout
    simp only at hout
    rw [← hout]
  · obtain ⟨st2, hrun, hout, -⟩ :=
      @runCategories_runsTo (m.heap.map Category.ran) (Category.run m.heap.length)
        (visitOrder (childrenIn (m.heap.map Category.ran)) m.heap.length)
        m.mTopLevelCategories (m.heap, stream) rfl (by
          intro c hc st1 hst1
          exact Category_run_runsTo hw.childLater m.heap.length c st1 hst1
            (by simpa using hw.top_lt hc) (by simp))
    refine ⟨{ m with heap := st2.1 }, ?_⟩
    simp only [ScenarioManager.run, hrun]
    rw [hch, htx, flatten_map_flatMap] at hout
    simp only at hout
    rw [hout]
    congr 3
    apply List.flatMap_congr
    intro c _
    exact visitText_eq_categoryOutput m.heap m.heap.length c

/-- C11. Run order, for every registry built by the registration calls. The text written by
`Category::run` on a category is the concatenation of the outputs of its child categories in
registration order, followed by its one header line `---- Running scenarios in: ` with its
name, followed by the outcome records of its own scenarios in registration order. The text
written by `ScenarioManager::run` is the concatenation of the outputs of the top-level
categories in registration order. -/
theorem run_order (calls : List RegistryCall) (stream : Str) :
    (∀ (id : Nat) (c : Category), (ScenarioManager.build calls).heap[id]? = some c →
      (∃ h2, Category.run (ScenarioManager.build calls).heap.length id
          ((ScenarioManager.build calls).heap, stream) =
        some (h2, stream ++ categoryOutput (ScenarioManager.build calls).heap
          (ScenarioManager.build calls).heap.length id)) ∧
      categoryOutput (ScenarioManager.build calls).heap
          (ScenarioManager.build calls).heap.length id =
        c.mChildCategories.flatMap
            (categoryOutput (ScenarioManager.build calls).heap
              (ScenarioManager.build calls).heap.length) ++
          ("---- Running scenarios in: ".toList ++ c.mName ++ "\n".toList ++
            (c.mChildScenarios.map outcomeRecord).flatten)) ∧
    ∃ m2, (ScenarioManager.build calls).run stream =
      some (m2, stream ++
        (ScenarioManager.build calls).mTopLevelCategories.flatMap
          (categoryOutput (ScenarioManager.build calls).heap
            (ScenarioManager.build calls).heap.length)) := by
  have hw := build_wellFormed calls
  generalize ScenarioManager.build calls = m at hw ⊢
  obtain ⟨h1, h2⟩ := run_text_eq hw stream
  refine ⟨?_, h2⟩
  intro id c hc
  have hid : id < m.heap.length := (List.getElem?_eq_some_iff.mp hc).1
  refine ⟨h1 id hid, ?_⟩
  cases hn : m.heap.length with
  | zero => omega
  | succ n =>
    have hcl := hw.childLater_heap
    simp only [categoryOutput]
    have e1 : childrenIn m.heap id = c.mChildCategories := by simp [childrenIn, hc]
    have e2 : textAt m.heap id = "---- Running scenarios in: ".toList ++ c.mName ++
        "\n".toList ++ (c.mChildScenarios.map outcomeRecord).flatten := by
      simp [textAt, hc, categoryText, endl]
    rw [e1, e2]
    congr 1
    apply List.flatMap_congr
    intro x hx
    rw [← e1] at hx
    have := hcl id x hx
    exact categoryOutput_fuel hcl n (n + 1) x (by omega) (by omega) this.2

/-- Witness for C11: category `a` with scenario S3 and child `b` with the failing scenario
S1. The output of `a` is the output of `b`, then the header of `a`, then the record of
S3. -/
theorem run_order_witness :
    categoryOutput
        (ScenarioManager.build [.registerCategory "a/b".toList,
          .registerScenario 1 (failingScenario "S1".toList),
          .registerScenario 0 (passingScenario "S3".toList)]).heap
        (ScenarioManager.build [.registerCategory "a/b".toList,
          .registerScenario 1 (failingScenario "S1".toList),
          .registerScenario 0 (passingScenario "S3".toList)]).heap.length 0 =
      [1].flatMap
          (categoryOutput
            (ScenarioManager.build [.registerCategory "a/b".toList,
              .registerScenario 1 (failingScenario "S1".toList),
              .registerScenario 0 (passingScenario "S3".toList)]).heap
            (ScenarioManager.build [.registerCategory "a/b".toList,
              .registerScenario 1 (failingScenario "S1".toList),
              .registerScenario 0 (passingScenario "S3".toList)]).heap.length) ++
        ("---- Running scenarios in: ".toList ++ "a".toList ++ "\n".toList ++
          ([(passingScenario "S3".toList).clone].map outcomeRecord).flatten) ∧
    categoryOutput
        (ScenarioManager.build [.registerCategory "a/b".toList,
          .registerScenario 1 (failingScenario "S1".toList),
          .registerScenario 0 (passingScenario "S3".toList)]).heap 2 0 =
      ("---- Running scenarios in: b\n" ++
        "Scenario failed: S1\n    Bool verification failed.\n        Expected: true\n" ++
        "---- Running scenarios in: a\n" ++
        "Scenario passed: S3\n").toList :=
  ⟨((run_order [.registerCategory "a/b".toList,
      .registerScenario 1 (failingScenario "S1".toList),
      .registerScenario 0 (passingScenario "S3".toList)] []).1 0
      ⟨"a".toList, [1], [(passingScenario "S3".toList).clone]⟩ rfl).2,
    by rfl⟩

/-! ## The traversal of the registration scenario -/

theorem levels_nil (ch : Nat → List Nat) : ∀ f : Nat, levels ch [] f = [] := by
  intro f
  induction f with
  | zero => rfl
  | succ f ih => simp [levels, ih]

theorem levels_perm (ch : Nat → List Nat) :
    ∀ (f : Nat) {A B : List Nat}, A.Perm B → (levels ch A f).Perm (levels ch B f) := by
  intro f
  induction f with
  | zero => intro A B _; exact List.Perm.refl _
  | succ f ih =>
    intro A B h
    simp only [levels]
    exact List.Perm.append h (ih (h.flatMap_right ch))

theorem levels_append_perm (ch : Nat → List Nat) :
    ∀ (f : Nat) (A B : List Nat),
      (levels ch (A ++ B) f).Perm (levels ch A f ++ levels ch B f) := by
  intro f
  induction f with
  | zero => intro A B; exact List.Perm.refl _
  | succ f ih =>
    intro A B
    simp only [levels, List.flatMap_append]
    have h1 := ih (A.flatMap ch) (B.flatMap ch)
    refine (List.Perm.append_left (A ++ B) h1).trans ?_
    simp only [List.append_assoc]
    apply List.Perm.append_left
    rw [← List.append_assoc, ← List.append_assoc]
    apply List.Perm.append_right
    exact List.perm_append_comm

/-- Taking a category off the stack and pushing its children leaves the categories still to
be met, less that one. -/
theorem levels_pop {ch : Nat → List Nat} {n : Nat}
    (hch : ∀ i c : Nat, c ∈ ch i → i < c ∧ c < n) (c : Nat) (hc : c < n) (rest : List Nat) :
    (levels ch (c :: rest) n).Perm (c :: levels ch ((ch c).reverse ++ rest) n) := by
  have h1 : (levels ch (c :: rest) n).Perm (levels ch [c] n ++ levels ch rest n) :=
    levels_append_perm ch n [c] rest
  have h2 : levels ch [c] n = c :: levels ch (ch c) n := by
    rw [← levels_stable hch n [c] 0 (by simp [hc]) (by omega)]
    simp [levels]
  rw [h2] at h1
  refine h1.trans ?_
  simp only [List.cons_append]
  refine List.Perm.cons _ ?_
  refine (levels_append_perm ch n (ch c) rest).symm.trans ?_
  apply levels_perm
  exact List.Perm.append_right _ (List.reverse_perm _).symm

/-- The loop of the registration scenario finds a description owned by a category that is
below the stack, given fuel for the categories still to be met. -/
theorem searchLoop_finds {heap : List Category} (hcl : ChildLater heap) {description : Str}
    {t : Nat} {ct : Category} (ht : heap[t]? = some ct)
    (hd : hasDescription ct description = true) :
    ∀ (fuel : Nat) (stack : List Nat), (∀ x ∈ stack, x < heap.length) →
      (levels (childrenIn heap) stack heap.length).length ≤ fuel →
      t ∈ levels (childrenIn heap) stack heap.length →
      searchLoop heap description fuel stack = some true := by
  intro fuel
  induction fuel with
  | zero =>
    intro stack hlt hlen hmem
    cases stack with
    | nil => rw [levels_nil] at hmem; cases hmem
    | cons c rest =>
      have := (levels_pop hcl c (hlt c (List.mem_cons_self _ _)) rest).length_eq
      simp at this
      omega
  | succ fuel ih =>
    intro stack hlt hlen hmem
    cases stack with
    | nil => rw [levels_nil] at hmem; cases hmem
    | cons c rest =>
      have hc := hlt c (List.mem_cons_self _ _)
      have hpop := levels_pop hcl c hc rest
      have hget : heap[c]? = some heap[c] := List.getElem?_eq_getElem hc
      have hchild : childrenIn heap c = (heap[c]).mChildCategories := by
        simp [childrenIn, hget]
      simp only [searchLoop, hget]
      by_cases hfound : hasDescription heap[c] description = true
      · simp [hfound]
      · simp only [hfound, if_false]
        rw [← hchild]
        apply ih
        · intro x hx
          rcases List.mem_append.mp hx with hx | hx
          · exact (hcl c x (List.mem_reverse.mp hx)).2
          · exact hlt x (List.mem_cons_of_mem _ hx)
        · have := hpop.length_eq
          simp only [List.length_cons] at this
          omega
        · have hm := hpop.mem_iff.mp hmem
          rcases List.mem_cons.mp hm with heq | hm
          · exfalso
            subst heq
            rw [hget] at ht
            cases ht
            exact hfound hd
          · exact hm

theorem WellFormed.levels_perm_range {m : ScenarioManager} (h : WellFormed m) :
    (levels (childrenIn m.heap) m.mTopLevelCategories m.heap.length).Perm
      (List.range m.heap.length) := by
  have hch : childrenIn (m.heap.map Category.ran) = childrenIn m.heap := by
    funext i
    exact childrenIn_map_ran _ _
  have h1 := visitOrder_perm_levels (childrenIn m.heap) m.heap.length m.mTopLevelCategories
  have h2 := h.visit_perm
  rw [hch] at h2
  exact h1.symm.trans h2

/-- In a well-formed registry the traversal of the registration scenario finds every
description owned by an allocated category. -/
theorem WellFormed.search_finds {m : ScenarioManager} (h : WellFormed m) {t : Nat}
    {ct : Category} {description : Str} (ht : m.heap[t]? = some ct)
    (hd : hasDescription ct description = true) :
    scenarioFound m description = some true := by
  have hperm := (levels_perm (childrenIn m.heap) m.heap.length
    (List.reverse_perm m.mTopLevelCategories)).trans h.levels_perm_range
  apply searchLoop_finds h.childLater_heap ht hd
  · intro x hx
    exact h.top_lt (List.mem_reverse.mp hx)
  · have := hperm.length_eq
    simp only [List.length_range] at this
    simp only [ScenarioManager.categories]
    omega
  · apply hperm.mem_iff.mpr
    simpa using (List.getElem?_eq_some_iff.mp ht).1

/-! ## Self-registration is discoverable -/

theorem mem_visitOrder_reach (m : ScenarioManager) :
    ∀ (fuel i j : Nat), j ∈ visitOrder (childrenIn m.heap) fuel i →
      Relation.ReflTransGen (ChildOf m) i j := by
  intro fuel
  induction fuel with
  | zero => intro i j h; simp [visitOrder] at h
  | succ fuel ih =>
    intro i j h
    simp only [visitOrder, List.mem_append, List.mem_flatMap, List.mem_singleton] at h
    rcases h with ⟨c, hc, hj⟩ | rfl
    · refine Relation.ReflTransGen.head ?_ (ih c j hj)
      unfold childrenIn at hc
      cases hi : m.heap[i]? with
      | none => simp [hi] at hc
      | some cat =>
        simp only [hi] at hc
        exact ⟨cat, hi, hc⟩
    · exact Relation.ReflTransGen.refl

/-- Every allocated category of a well-formed registry is reached from a top-level
category by following child lists. -/
theorem WellFormed.reachable {m : ScenarioManager} (h : WellFormed m) {node : Nat}
    (hnode : node < m.heap.length) :
    ∃ top ∈ m.categories, Relation.ReflTransGen (ChildOf m) top node := by
  have hch : childrenIn (m.heap.map Category.ran) = childrenIn m.heap := by
    funext i
    exact childrenIn_map_ran _ _
  have hperm := h.visit_perm
  rw [hch] at hperm
  have hmem := hperm.mem_iff.mpr (by simpa using hnode)
  obtain ⟨top, htop, hj⟩ := List.mem_flatMap.mp hmem
  exact ⟨top, htop, mem_visitOrder_reach m _ _ _ hj⟩

theorem registerCategory_node_lt {m : ScenarioManager} (h : WellFormed m) {P : Str}
    {node : Nat} (hr : (m.registerCategory P).1 = .returned (some node)) :
    node < (m.registerCategory P).2.heap.length := by
  cases hf : find_first_not_of P ['/'] 0 with
  | none => simp [ScenarioManager.registerCategory, hf] at hr
  | some bp =>
    rw [registerCategory_eq_of_find hf] at hr ⊢
    simp only [RegisterOutcome.returned.injEq] at hr
    exact (registerSegments_wellFormed _ (none, m) h (by simp)
      (scanPath_lastSegment hf)).2 node hr

/-- A later `registerCategory` with the same path returns the same category, also after
scenarios have been registered with it. -/
theorem registerCategory_after_registerScenario {m : ScenarioManager} {P : Str}
    {node : Nat} (hr : (m.registerCategory P).1 = .returned (some node))
    (category : Nat) (s : ScenarioBase) :
    (((m.registerCategory P).2.registerScenario category s).registerCategory P).1 =
      .returned (some node) := by
  cases hf : find_first_not_of P ['/'] 0 with
  | none => simp [ScenarioManager.registerCategory, hf] at hr
  | some bp =>
    have hres := registerSegments_result (scanPath P bp) (none, m)
    rw [registerCategory_eq_of_find hf] at hr
    simp only [RegisterOutcome.returned.injEq] at hr
    rw [registerCategory_eq_of_find hf (m := m), registerCategory_eq_of_find hf]
    simp only [RegisterOutcome.returned.injEq]
    have hall : ∀ seg ∈ scanPath P bp, ∃ id,
        ((registerSegments (scanPath P bp) (none, m)).2.registerScenario category s).find
          seg.1 = some id := fun seg hs => registerSegments_found _ _ seg hs
    rw [registerSegments_all_found _ _ _ hall]
    simp only
    rw [← hr, hres]
    rfl

theorem hasDescription_registerScenario (c : Category) (s : ScenarioBase) :
    hasDescription (c.registerScenario s).2 s.description = true := by
  simp [hasDescription, Category.registerScenario, ScenarioBase.clone,
    ScenarioBase.description]

/-- C17. Self-registration is discoverable. In every registry built by the registration
calls, for every accepted category path `P` (one with a character other than `/`) and every
scenario `s`, the registration step of a declaration returns a category `node` such that
afterwards: `node` is the category `registerCategory(P)` gives; it is reached from a
top-level category by following child lists; its scenarios contain one with the description
of `s`; and the traversal of the scenario `Registration/Normal` ends with `scenarioFound`
true. When `P` is a valid path, `node` is the table entry of `P`. -/
theorem declared_scenario_discoverable (calls : List RegistryCall) (P : Str)
    (s : ScenarioBase) (hP : ∃ c ∈ P, c ≠ '/') :
    ∃ node,
      ((ScenarioManager.build calls).declare P s).1 = .returned (some node) ∧
      (((ScenarioManager.build calls).declare P s).2.registerCategory P).1 =
        .returned (some node) ∧
      (∃ top ∈ ((ScenarioManager.build calls).declare P s).2.categories,
        Relation.ReflTransGen (ChildOf ((ScenarioManager.build calls).declare P s).2)
          top node) ∧
      (∃ c, ((ScenarioManager.build calls).declare P s).2.heap[node]? = some c ∧
        ∃ sc ∈ c.mChildScenarios, sc.description = s.description) ∧
      scenarioFound ((ScenarioManager.build calls).declare P s).2 s.description =
        some true ∧
      (∀ segs : List Str, ValidSegments segs → P = joinPath segs →
        ((ScenarioManager.build calls).declare P s).2.find P = some node) := by
  have hw := build_wellFormed calls
  generalize ScenarioManager.build calls = m at hw ⊢
  obtain ⟨bp, hbp⟩ := find_first_not_of_of_exists hP
  obtain ⟨node, hnode⟩ := registerCategory_returns m hbp
  have hw1 := registerCategory_wellFormed hw P
  have hlt := registerCategory_node_lt hw hnode
  have hdecl : m.declare P s =
      (.returned (some node), (m.registerCategory P).2.registerScenario node s) := by
    have e : m.registerCategory P = (.returned (some node), (m.registerCategory P).2) :=
      Prod.ext hnode rfl
    unfold ScenarioManager.declare
    rw [e]
  have hw2 := registerScenario_wellFormed hw1 node s
  have hget : (m.registerCategory P).2.heap[node]? =
      some (m.registerCategory P).2.heap[node] := List.getElem?_eq_getElem hlt
  have hget2 : ((m.registerCategory P).2.registerScenario node s).heap[node]? =
      some (((m.registerCategory P).2.heap[node]).registerScenario s).2 := by
    simp [ScenarioManager.registerScenario, getElem?_updateAt, hget]
  rw [hdecl]
  refine ⟨node, rfl, registerCategory_after_registerScenario hnode node s, ?_,
    ⟨_, hget2, s.clone, by simp [Category.registerScenario], rfl⟩, ?_, ?_⟩
  · exact hw2.reachable (by simpa [ScenarioManager.registerScenario, length_updateAt] using hlt)
  · exact hw2.search_finds hget2 (hasDescription_registerScenario _ s)
  · intro segs hv hPs
    subst hPs
    have hf := find_first_not_of_joinPath hv
    obtain ⟨last, -, hl2⟩ := getLast?_zip_pathPrefixes hv.1
    have hres := registerSegments_result ((pathPrefixes segs).zip segs) (none, m)
    simp only [lastFind, hl2] at hres
    rw [registerCategory_eq_of_find hf, scanPath_joinPath hv] at hnode ⊢
    simp only [RegisterOutcome.returned.injEq] at hnode
    rw [← hnode, hres]
    rfl

/-- Witness for C17: the declaration of the scenario under `Registration/Normal` on the
empty registry. The category returned is the second allocated one, the table entry of
`Registration/Normal`, and the traversal finds the description. -/
theorem declared_scenario_discoverable_witness :
    (∃ c ∈ "Registration/Normal".toList, c ≠ '/') ∧
    ((ScenarioManager.build []).declare "Registration/Normal".toList
      (declaredScenario "Registration/Normal".toList
        "Scenario is registered automatically.".toList (fun _ => verifyTrue true))).1 =
      .returned (some 1) ∧
    scenarioFound
      ((ScenarioManager.build []).declare "Registration/Normal".toList
        (declaredScenario "Registration/Normal".toList
          "Scenario is registered automatically.".toList (fun _ => verifyTrue true))).2
      (declaredScenario "Registration/Normal".toList
        "Scenario is registered automatically.".toList (fun _ => verifyTrue true)).description =
      some true ∧
    ((ScenarioManager.build []).declare "Registration/Normal".toList
      (declaredScenario "Registration/Normal".toList
        "Scenario is registered automatically.".toList (fun _ => verifyTrue true))).2.find
      "Registration/Normal".toList = some 1 := by
  have hP : ∃ c ∈ "Registration/Normal".toList, c ≠ '/' := by decide
  obtain ⟨node, h1, -, -, -, h5, h6⟩ := declared_scenario_discoverable []
    "Registration/Normal".toList
    (declaredScenario "Registration/Normal".toList
      "Scenario is registered automatically.".toList (fun _ => verifyTrue true)) hP
  have hnode : ((ScenarioManager.build []).declare "Registration/Normal".toList
      (declaredScenario "Registration/Normal".toList
        "Scenario is registered automatically.".toList (fun _ => verifyTrue true))).1 =
      .returned (some 1) := by rfl
  rw [hnode] at h1
  simp only [RegisterOutcome.returned.injEq, Option.some.injEq] at h1
  subst h1
  exact ⟨hP, hnode, h5,
    h6 ["Registration".toList, "Normal".toList] ⟨by decide, by decide⟩ (by decide)⟩

/-! ## The boolean overload of `verifyEqual` -/

/-- C21. For all booleans `e` and `a`, the boolean overload `verifyEqual(e, a)` raises
exactly when `e` differs from `a`; it then clears the flag and raises the Equal failure
whose expected and actual texts are `std::to_string` of the values promoted to `int`, that
is `1` for true and `0` for false, and not the `true` and `false` that the failures of
`verifyTrue` and `verifyFalse` carry. When the values agree nothing is raised and the flag
is as it was. -/
theorem verifyEqualBool_spec (e a passed : Bool) :
    ((verifyEqualBool e a passed).1 ≠ none ↔ e ≠ a) ∧
    (e ≠ a → verifyEqualBool e a passed =
      (some (.verification (.equal (to_string_bool e) (to_string_bool a))), false)) ∧
    (e = a → verifyEqualBool e a passed = (none, passed)) ∧
    to_string_bool true = "1".toList ∧
    to_string_bool false = "0".toList ∧
    to_string_bool true ≠ boolExpectedValue true ∧
    to_string_bool false ≠ boolExpectedValue false ∧
    verifyEqualBool true false passed =
      (some (.verification (.equal "1".toList "0".toList)), false) ∧
    verifyEqualBool false true passed =
      (some (.verification (.equal "0".toList "1".toList)), false) ∧
    (VerificationException.equal (to_string_bool true) (to_string_bool false)).what =
      ("    Equal verification failed.\n        Expected: 1\n" ++
        "          Actual: 0\n").toList := by
  have h1 : to_string_bool true = "1".toList := by decide
  have h0 : to_string_bool false = "0".toList := by decide
  refine ⟨?_, ?_, ?_, h1, h0, by decide, by decide, ?_, ?_, by decide⟩
  · cases e <;> cases a <;> simp [verifyEqualBool]
  · intro h
    cases e <;> cases a <;> first | exact absurd rfl h | rfl
  · intro h
    subst h
    cases e <;> rfl
  · unfold verifyEqualBool
    rw [if_pos (by decide), h1, h0]
  · unfold verifyEqualBool
    rw [if_pos (by decide), h1, h0]

/-- Witness for C21 at the four pairs of booleans: the two unequal pairs fail with the
texts `1` and `0`, the two equal pairs pass. -/
theorem verifyEqualBool_spec_witness :
    verifyEqualBool true false true =
      (some (.verification (.equal (to_string_bool true) (to_string_bool false))), false) ∧
    verifyEqualBool false true true =
      (some (.verification (.equal (to_string_bool false) (to_string_bool true))), false) ∧
    verifyEqualBool true true true = (none, true) ∧
    verifyEqualBool false false false = (none, false) ∧
    verifyEqualBool true false true =
      (some (.verification (.equal "1".toList "0".toList)), false) :=
  ⟨(verifyEqualBool_spec true false true).2.1 (by decide),
    (verifyEqualBool_spec false true true).2.1 (by decide),
    (verifyEqualBool_spec true true true).2.2.1 rfl,
    (verifyEqualBool_spec false false false).2.2.1 rfl,
    (verifyEqualBool_spec true false true).2.2.2.2.2.2.2.1⟩

end Designer
